import Mathlib

/-! gotomic: the split-ordered lock-free hash (hash.go), sequential embedding

The hashing layer of `hash.go` is embedded over an explicit heap: a `nodeRef`
is a mutable cell holding a node pointer, a node owns one cell (its `next`),
and the bucket directory stores cell addresses.  Every loop of the source is a
fuel-indexed recursion; `none` stands for "no result" (a Go panic, or a loop
that has not finished within the fuel).
-/

namespace Gotomic

/-- The constant `MAX_EXPONENT` of hash.go. -/
def MAX_EXPONENT : Nat := 32

/-- The width of `uint32` arithmetic. -/
def U32 : Nat := 2 ^ 32

/-- Accumulating loop of the bit reversal: moves the low bit of `x` to the low end of `acc`. -/
def reverseAux : Nat → Nat → Nat → Nat
  | 0, _, acc => acc
  | n + 1, x, acc => reverseAux n (x / 2) (2 * acc + x % 2)

/-- Modelled from the spec: `reverse` is not in hash.go; the spec calls it the 32-bit
bit reversal `bit_reverse` (bit `i` of the argument becomes bit `31 - i`). -/
def reverse (x : Nat) : Nat := reverseAux 32 (x % U32) 0

/-- Halving loop of `log2`: the number of times `x` can be halved before it drops below 2. -/
def log2Aux : Nat → Nat → Nat
  | 0, _ => 0
  | n + 1, x => if 2 ≤ x then log2Aux n (x / 2) + 1 else 0

/-- Modelled from the spec: `log2` is not in hash.go; the spec uses `floor(log2(i))`
of a non-zero 32-bit integer. -/
def log2 (x : Nat) : Nat := log2Aux 32 x

/-- The interface `Hashable`: `Equals` and `HashCode` of a key type. -/
structure Hashable (K : Type) where
  Equals : K → K → Bool
  HashCode : K → Nat

/-- The struct `entry`.  `key` is `none` for the nil interface, `value` is `none` for
the nil pointer and `some t` for a pointer to the `Thing` `t` (itself `none` when nil). -/
structure entry (K V : Type) where
  hashCode : Nat
  hashKey : Nat
  key : Option K
  value : Option (Option V)

/-- The function `newRealEntry`. -/
def newRealEntry {K V : Type} (H : Hashable K) (k : K) (v : Option V) : entry K V :=
  let hc := H.HashCode k % U32
  { hashCode := hc, hashKey := reverse hc ||| 1, key := some k, value := some v }

/-- The function `newMockEntry`: `reverse(hashCode) &^ 1`. -/
def newMockEntry {K V : Type} (hashCode : Nat) : entry K V :=
  { hashCode := hashCode, hashKey := reverse hashCode - reverse hashCode % 2,
    key := none, value := none }

/-- The method `entry.real`. -/
def entry.real {K V : Type} (self : entry K V) : Bool := self.hashKey &&& 1 == 1

/-- The method `entry.val`. -/
def entry.val {K V : Type} (self : entry K V) : Option V :=
  match self.value with
  | none => none
  | some t => t

/-- The method `entry.Compare` on two entries. -/
def entry.Compare {K V : Type} (self e : entry K V) : Int :=
  if self.hashKey > e.hashKey then 1
  else if self.hashKey < e.hashKey then -1
  else 0

/-- A list node: its payload and the address of its `next` cell. -/
structure node (K V : Type) where
  value : entry K V
  next : Nat

/-- The heap: `cells[r]` is the content of the `nodeRef` at address `r` (a node address
or nil), `nodes[n]` is the node at address `n`. -/
structure Mem (K V : Type) where
  cells : List (Option Nat)
  nodes : List (node K V)

/-- The struct `hit` (and `hashHit`): three (cell, node) pairs, each possibly nil. -/
structure hit where
  leftRef : Option Nat
  leftNode : Option Nat
  ref : Option Nat
  node : Option Nat
  rightRef : Option Nat
  rightNode : Option Nat
  deriving DecidableEq, Repr

/-- Modelled from the spec: `nodeRef.node()` is not in hash.go; it reads the node a list
reference currently points to.  In a sequential run a popped node is unlinked in the same
step that deletes it, so no marked node is ever met and none has to be skipped. -/
def nodeRef.node {K V : Type} (m : Mem K V) (r : Nat) : Option Nat :=
  match m.cells[r]? with
  | some c => c
  | none => none

/-- Allocation of a node holding `e` whose fresh `next` cell points to `nxt`. -/
def Mem.alloc {K V : Type} (m : Mem K V) (e : entry K V) (nxt : Option Nat) : Mem K V × Nat :=
  ({ cells := m.cells ++ [nxt], nodes := m.nodes ++ [{ value := e, next := m.cells.length }] },
    m.nodes.length)

/-- Modelled from the spec: `new(nodeRef)`, a fresh list reference pointing to nothing. -/
def Mem.newRef {K V : Type} (m : Mem K V) : Mem K V × Nat :=
  ({ m with cells := m.cells ++ [none] }, m.cells.length)

/-- Modelled from the spec: `push(entry)` on a list reference (used once, for bucket 0):
the reference points to a new node whose successor is what the reference pointed to. -/
def nodeRef.push {K V : Type} (m : Mem K V) (r : Nat) (e : entry K V) : Mem K V :=
  let (m1, n) := m.alloc e (nodeRef.node m r)
  { m1 with cells := m1.cells.set r (some n) }

/-- Modelled from the spec: `push_before(entry, right_node)` on a list reference, the
CAS-insert.  It succeeds exactly when the reference currently points to `right`; the
reference then points to the new node, whose successor is `right`. -/
def nodeRef.pushBefore {K V : Type} (m : Mem K V) (r : Nat) (e : entry K V)
    (right : Option Nat) : Mem K V × Bool :=
  if nodeRef.node m r = right then
    let (m1, n) := m.alloc e right
    ({ m1 with cells := m1.cells.set r (some n) }, true)
  else (m, false)

/-- Modelled from the spec: `pop_exact(node)` on a list reference, the CAS-unlink of that
exact node.  It succeeds exactly when the reference currently points to `n`; the reference
then points to the successor of `n`. -/
def nodeRef.popExact {K V : Type} (m : Mem K V) (r : Nat) (n : Nat) : Mem K V × Bool :=
  if nodeRef.node m r = some n then
    match m.nodes[n]? with
    | some nd => ({ m with cells := m.cells.set r (nodeRef.node m nd.next) }, true)
    | none => (m, false)
  else (m, false)

/-- The loop of the list search: the probe is compared with the entry of `rval.node` by
`entry.Compare`, the comparator the entries give to the list. -/
def nodeRef.searchLoop {K V : Type} (m : Mem K V) (cmp : entry K V) : Nat → hit → Option hit
  | 0, _ => none
  | fuel + 1, rval =>
    match rval.node with
    | none => some rval
    | some n =>
      match m.nodes[n]? with
      | none => none
      | some nd =>
        if cmp.Compare nd.value < 0 then
          some { rval with rightRef := rval.ref, rightNode := rval.node, ref := none, node := none }
        else if cmp.Compare nd.value = 0 then
          some { rval with rightRef := some nd.next, rightNode := nodeRef.node m nd.next }
        else
          nodeRef.searchLoop m cmp fuel
            { leftRef := rval.ref, leftNode := rval.node, ref := some nd.next,
              node := nodeRef.node m nd.next, rightRef := none, rightNode := none }

/-- Modelled from the spec: `search(list_position, probe)` is not in hash.go.  It walks
from the reference, comparing the probe with each entry by `Compare`, and returns the
bracketing triple around the probe sort key: the left pair is the last node with a smaller
key, the middle pair is the first node with an equal key (nil when there is none) and the
right pair is the node that follows. -/
def nodeRef.search {K V : Type} (m : Mem K V) (fuel : Nat) (self : Nat) (cmp : entry K V) :
    Option hit :=
  nodeRef.searchLoop m cmp fuel
    { leftRef := none, leftNode := none, ref := some self, node := nodeRef.node m self,
      rightRef := none, rightNode := none }

/-- The loop of `hashHit.search` (hash.go lines 17 to 38). -/
def hashHit.searchLoop {K V : Type} (H : Hashable K) (m : Mem K V) (cmp : entry K V) :
    Nat → hit → Option hit
  | 0, _ => none
  | fuel + 1, rval =>
    match rval.node with
    | none => some rval
    | some n =>
      match m.nodes[n]? with
      | none => none
      | some nd =>
        let e := nd.value
        if !e.real || e.hashCode != cmp.hashCode then
          some { rval with rightRef := rval.ref, rightNode := rval.node, ref := none, node := none }
        else
          match cmp.key, e.key with
          | some ck, some ek =>
            if H.Equals ck ek then some rval
            else
              hashHit.searchLoop H m cmp fuel
                { leftRef := rval.ref, leftNode := rval.node, ref := some nd.next,
                  node := nodeRef.node m nd.next, rightRef := none, rightNode := none }
          | _, _ => none

/-- The method `hashHit.search`: the walk over the entries tied with the probe. -/
def hashHit.search {K V : Type} (H : Hashable K) (m : Mem K V) (fuel : Nat) (self : hit)
    (cmp : entry K V) : Option hit :=
  hashHit.searchLoop H m cmp fuel self

/-- The struct `Hash`.  `buckets[k]` is nil or the second-level array, whose slots are nil
or the address of a `nodeRef`; `loadFactor` is kept as a fraction. -/
structure Hash where
  exponent : Nat
  buckets : List (Option (List (Option Nat)))
  size : Int
  loadFactor : Nat × Nat
  deriving DecidableEq, Repr

/-- The constant `DEFAULT_LOAD_FACTOR`, 0.5, as a fraction. -/
def DEFAULT_LOAD_FACTOR : Nat × Nat := (1, 2)

/-- The table together with the heap its pointers live in. -/
structure Table (K V : Type) where
  mem : Mem K V
  h : Hash

/-- The function `NewHash`. -/
def NewHash {K V : Type} : Table K V :=
  { mem := { cells := [], nodes := [] },
    h := { exponent := 0,
           buckets := (List.replicate MAX_EXPONENT none).set 0 (some [none]),
           size := 0,
           loadFactor := DEFAULT_LOAD_FACTOR } }

/-- The method `Hash.Size`. -/
def Hash.Size (self : Hash) : Int := self.size

/-- The threshold of `addSize`: `int64(self.loadFactor * float64(uint32(1) << self.exponent))`.
The shift is a `uint32` shift; with the load factor a fraction the product is exact and
the conversion truncates. -/
def Hash.threshold (self : Hash) : Int :=
  ((self.loadFactor.1 * (2 ^ self.exponent % U32)) / self.loadFactor.2 : Nat)

/-- The method `Hash.grow`.  Indexing `self.buckets[newExponent]` outside the directory
panics; the two compare-and-swaps succeed exactly when the slot is nil. -/
def Hash.grow (self : Hash) : Option Hash :=
  let oldExponent := self.exponent
  let newExponent := (oldExponent + 1) % U32
  let newBuckets : List (Option Nat) := List.replicate (2 ^ oldExponent) none
  match self.buckets[newExponent]? with
  | none => none
  | some none =>
    some { self with buckets := self.buckets.set newExponent (some newBuckets),
                     exponent := newExponent }
  | some (some _) => some self

/-- The method `Hash.addSize`. -/
def Hash.addSize (self : Hash) (i : Int) : Option Hash :=
  let self1 := { self with size := self.size + i }
  if self1.size > self1.threshold then self1.grow else some self1

/-- The method `Hash.getPreviousBucketIndex`, in `uint32` arithmetic: a shift by 32 or
more gives 0 and the subtraction wraps. -/
def Hash.getPreviousBucketIndex (self : Hash) (bucketKey : Nat) : Nat :=
  let exp := self.exponent
  let s := (MAX_EXPONENT + U32 - exp % U32) % U32
  let a := if s < 32 then bucketKey >>> s else 0
  let b := (a + U32 - 1) % U32
  reverse (if s < 32 then (b <<< s) % U32 else 0)

/-- The bucket index of `getBucketByHashCode`: `hashCode & ((1 << self.exponent) - 1)`. -/
def Hash.bucketIndex (self : Hash) (hashCode : Nat) : Nat :=
  hashCode &&& ((2 ^ self.exponent % U32 + U32 - 1) % U32)

/-- The method `Hash.getBucketIndices`. -/
def getBucketIndices (index : Nat) : Nat × Nat :=
  if index > 0 then
    let superIndex := log2 index
    let subIndex := index - 2 ^ superIndex
    (superIndex + 1, subIndex)
  else (0, 0)

/-- Read of the directory slot `(superIndex, subIndex)`: `none` is a panic (nil
second-level array or index out of range), `some none` a nil slot. -/
def Hash.slot (self : Hash) (superIndex subIndex : Nat) : Option (Option Nat) :=
  match self.buckets[superIndex]? with
  | some (some subBuckets) => subBuckets[subIndex]?
  | _ => none

/-- The compare-and-swap of a nil directory slot to `r`. -/
def Hash.casSlot (self : Hash) (superIndex subIndex : Nat) (r : Nat) : Hash :=
  match self.buckets[superIndex]? with
  | some (some subBuckets) =>
    match subBuckets[subIndex]? with
    | some none =>
      { self with buckets := self.buckets.set superIndex (some (subBuckets.set subIndex (some r))) }
    | _ => self
  | _ => self

/-- The method `Hash.getBucketByIndex`.  One unit of fuel is one pass of the `for` loop;
a pass that does not break re-enters the function, which reads the same second-level
array again (a published top-level slot is never replaced). -/
def getBucketByIndex {K V : Type} : Nat → Table K V → Nat → Option (Table K V × Nat)
  | 0, _, _ => none
  | fuel + 1, t, index =>
    let (superIndex, subIndex) := getBucketIndices index
    match t.h.slot superIndex subIndex with
    | none => none
    | some (some bucket) => some (t, bucket)
    | some none =>
      let mockEntry : entry K V := newMockEntry index
      if index = 0 then
        let (m1, bucket) := t.mem.newRef
        let m2 := nodeRef.push m1 bucket mockEntry
        getBucketByIndex fuel { mem := m2, h := t.h.casSlot superIndex subIndex bucket } index
      else
        let prev := t.h.getPreviousBucketIndex mockEntry.hashKey
        match getBucketByIndex fuel t prev with
        | none => none
        | some (t1, previousBucket) =>
          match nodeRef.search t1.mem fuel previousBucket mockEntry with
          | none => none
          | some hit =>
            match hit.node with
            | none =>
              match hit.leftNode with
              | none => none
              | some ln =>
                match t1.mem.nodes[ln]? with
                | none => none
                | some lnd =>
                  let (m2, _) := nodeRef.pushBefore t1.mem lnd.next mockEntry hit.rightNode
                  getBucketByIndex fuel { t1 with mem := m2 } index
            | some _ =>
              match hit.ref with
              | none => none
              | some r =>
                getBucketByIndex fuel { t1 with h := t1.h.casSlot superIndex subIndex r } index

/-- The method `Hash.getBucketByHashCode`. -/
def getBucketByHashCode {K V : Type} (fuel : Nat) (t : Table K V) (hashCode : Nat) :
    Option (Table K V × Nat) :=
  getBucketByIndex fuel t (t.h.bucketIndex hashCode)

/-- The two searches shared by `Get`, `Put` and `Delete`: the bucket is resolved, the list
is searched from it, and the tied entries are walked.  The result is `(hit, hit2)`. -/
def locate {K V : Type} (H : Hashable K) (fuel : Nat) (t : Table K V) (probe : entry K V) :
    Option (Table K V × hit × hit) :=
  match getBucketByHashCode fuel t probe.hashCode with
  | none => none
  | some (t1, bucket) =>
    match nodeRef.search t1.mem fuel bucket probe with
    | none => none
    | some hit =>
      match hashHit.search H t1.mem fuel hit probe with
      | none => none
      | some hit2 => some (t1, hit, hit2)

/-- The method `Hash.Get`. -/
def Get {K V : Type} (H : Hashable K) (fuel : Nat) (t : Table K V) (k : K) :
    Option (Table K V × Option V) :=
  let testEntry : entry K V := newRealEntry H k none
  match locate H fuel t testEntry with
  | none => none
  | some (t1, _, hit2) =>
    match hit2.node with
    | some n =>
      match t1.mem.nodes[n]? with
      | none => none
      | some nd => some (t1, nd.value.val)
    | none => some (t1, none)

/-- The retry loop of `Hash.Delete`; `retries` bounds the passes of the `for` loop. -/
def Delete.loop {K V : Type} (H : Hashable K) (fuel : Nat) (testEntry : entry K V) :
    Nat → Table K V → Option (Table K V × Option V)
  | 0, _ => none
  | retries + 1, t =>
    match locate H fuel t testEntry with
    | none => none
    | some (t1, _, hit2) =>
      match hit2.node with
      | some n =>
        match hit2.ref with
        | none => none
        | some r =>
          match nodeRef.popExact t1.mem r n with
          | (m2, true) =>
            match m2.nodes[n]? with
            | none => none
            | some nd =>
              match t1.h.addSize (-1) with
              | none => none
              | some h2 => some ({ mem := m2, h := h2 }, nd.value.val)
          | (m2, false) => Delete.loop H fuel testEntry retries { t1 with mem := m2 }
      | none => some (t1, none)

/-- The method `Hash.Delete`. -/
def Delete {K V : Type} (H : Hashable K) (fuel : Nat) (t : Table K V) (k : K) :
    Option (Table K V × Option V) :=
  Delete.loop H fuel (newRealEntry H k none) fuel t

/-- Store to the `value` pointer of the entry of node `n`. -/
def Mem.storeValue {K V : Type} (m : Mem K V) (n : Nat) (v : Option (Option V)) : Mem K V :=
  match m.nodes[n]? with
  | none => m
  | some nd => { m with nodes := m.nodes.set n { nd with value := { nd.value with value := v } } }

/-- The retry loop of `Hash.Put`; `retries` bounds the passes of the `for` loop.  The
insertion is attempted on `hit2.leftNode.next` with the expected right node taken from
`hit`, the result of the list search, as at hash.go line 185. -/
def Put.loop {K V : Type} (H : Hashable K) (fuel : Nat) (newEntry : entry K V) :
    Nat → Table K V → Option (Table K V × Option V)
  | 0, _ => none
  | retries + 1, t =>
    match locate H fuel t newEntry with
    | none => none
    | some (t1, hit, hit2) =>
      match hit2.node with
      | none =>
        match hit2.leftNode with
        | none => none
        | some ln =>
          match t1.mem.nodes[ln]? with
          | none => none
          | some lnd =>
            match nodeRef.pushBefore t1.mem lnd.next newEntry hit.rightNode with
            | (m2, true) =>
              match t1.h.addSize 1 with
              | none => none
              | some h2 => some ({ mem := m2, h := h2 }, none)
            | (m2, false) => Put.loop H fuel newEntry retries { t1 with mem := m2 }
      | some n =>
        match t1.mem.nodes[n]? with
        | none => none
        | some nd =>
          match nd.value.value with
          | none => none
          | some old => some ({ t1 with mem := t1.mem.storeValue n newEntry.value }, old)

/-- The method `Hash.Put`. -/
def Put {K V : Type} (H : Hashable K) (fuel : Nat) (t : Table K V) (k : K) (v : Option V) :
    Option (Table K V × Option V) :=
  Put.loop H fuel (newRealEntry H k v) fuel t

/-- The list walk of `Hash.Verify`: `true` is a nil error.  A nil directory slot met for a
mock entry is a nil dereference, hence no result. -/
def Verify.loop {K V : Type} (t : Table K V) : Nat → Option Nat → Option Bool
  | 0, _ => none
  | _ + 1, none => some true
  | fuel + 1, some n =>
    match t.mem.nodes[n]? with
    | none => none
    | some nd =>
      if !nd.value.real then
        let (superIndex, subIndex) := getBucketIndices nd.value.hashCode
        match t.h.slot superIndex subIndex with
        | some (some bucket) =>
          match nodeRef.node t.mem bucket with
          | none => none
          | some bn =>
            if bn ≠ n then some false
            else Verify.loop t fuel (nodeRef.node t.mem nd.next)
        | _ => none
      else Verify.loop t fuel (nodeRef.node t.mem nd.next)

/-- The method `Hash.Verify`.  The structural check `bucket.verify()` of the list primitive
is not part of the embedding; the comparison `bucketEntry != en` of two entry pointers is
the comparison of the two node addresses, each node owning its entry. -/
def Verify {K V : Type} (fuel : Nat) (t : Table K V) : Option (Table K V × Bool) :=
  match getBucketByHashCode fuel t 0 with
  | none => none
  | some (t1, bucket) =>
    match Verify.loop t1 fuel (nodeRef.node t1.mem bucket) with
    | none => none
    | some ok => some (t1, ok)

/-- The list walk of `Hash.ToMap`; the Go map is an association list in which a later
assignment to a key replaces the earlier one. -/
def ToMap.loop {K V : Type} [DecidableEq K] (m : Mem K V) :
    Nat → Option Nat → List (K × Option V) → Option (List (K × Option V))
  | 0, _, _ => none
  | _ + 1, none, rval => some rval
  | fuel + 1, some n, rval =>
    match m.nodes[n]? with
    | none => none
    | some nd =>
      if nd.value.real then
        match nd.value.key with
        | none => none
        | some k =>
          ToMap.loop m fuel (nodeRef.node m nd.next)
            ((rval.filter (fun p => p.1 ≠ k)) ++ [(k, nd.value.val)])
      else ToMap.loop m fuel (nodeRef.node m nd.next) rval

/-- The method `Hash.ToMap`. -/
def ToMap {K V : Type} [DecidableEq K] (fuel : Nat) (t : Table K V) :
    Option (Table K V × List (K × Option V)) :=
  match getBucketByHashCode fuel t 0 with
  | none => none
  | some (t1, bucket) =>
    match ToMap.loop t1.mem fuel (nodeRef.node t1.mem bucket) [] with
    | none => none
    | some rval => some (t1, rval)

/-! ## Sequential runs and the reference map -/

/-- One call of the public surface. -/
inductive Op (K V : Type) where
  | Put (k : K) (v : V)
  | Delete (k : K)
  | Get (k : K)

/-- The result of one call on a table. -/
def runOp {K V : Type} (H : Hashable K) (fuel : Nat) (t : Table K V) :
    Op K V → Option (Table K V × Option V)
  | Op.Put k v => Put H fuel t k (some v)
  | Op.Delete k => Delete H fuel t k
  | Op.Get k => Get H fuel t k

/-- A single-threaded sequence of calls: the final table and the list of returned values;
`none` when some call has no result. -/
def runOps {K V : Type} (H : Hashable K) (fuel : Nat) :
    List (Op K V) → Table K V → Option (Table K V × List (Option V))
  | [], t => some (t, [])
  | op :: ops, t =>
    match runOp H fuel t op with
    | none => none
    | some (t1, r) =>
      match runOps H fuel ops t1 with
      | none => none
      | some (t2, rs) => some (t2, r :: rs)

/-- The table a sequence of calls leaves when applied to `NewHash()`. -/
def tableAfter {K V : Type} (H : Hashable K) (fuel : Nat) (ops : List (Op K V)) : Table K V :=
  match runOps H fuel ops NewHash with
  | some (t, _) => t
  | none => NewHash

/-- The reference of the spec: an ordinary key-to-value map, kept as an association list. -/
abbrev RefMap (K V : Type) := List (K × V)

/-- Lookup in the reference map. -/
def RefMap.get {K V : Type} [DecidableEq K] (m : RefMap K V) (k : K) : Option V :=
  (m.find? (fun p => p.1 = k)).map (fun p => p.2)

/-- Assignment in the reference map; returns the previous value or absent. -/
def RefMap.put {K V : Type} [DecidableEq K] (m : RefMap K V) (k : K) (v : V) :
    RefMap K V × Option V :=
  (m.filter (fun p => p.1 ≠ k) ++ [(k, v)], m.get k)

/-- Removal from the reference map; returns the previous value or absent. -/
def RefMap.delete {K V : Type} [DecidableEq K] (m : RefMap K V) (k : K) :
    RefMap K V × Option V :=
  (m.filter (fun p => p.1 ≠ k), m.get k)

/-- The sequence of calls applied to the reference map. -/
def refOps {K V : Type} [DecidableEq K] : List (Op K V) → RefMap K V → RefMap K V × List (Option V)
  | [], m => (m, [])
  | Op.Put k v :: ops, m =>
    let (m1, r) := m.put k v
    let (m2, rs) := refOps ops m1
    (m2, r :: rs)
  | Op.Delete k :: ops, m =>
    let (m1, r) := m.delete k
    let (m2, rs) := refOps ops m1
    (m2, r :: rs)
  | Op.Get k :: ops, m =>
    let (m2, rs) := refOps ops m
    (m2, m.get k :: rs)

/-! ## The key types of hash_test.go -/

/-- The test key type `hashInt`: the hash code is the integer, `Equals` is equality. -/
def hashInt : Hashable Nat := { Equals := fun a b => a == b, HashCode := fun k => k }

/-- The test key type `key`: a string hashed to the sum of its characters, `Equals` is
equality. -/
def key : Hashable String :=
  { Equals := fun a b => a == b, HashCode := fun s => (s.toList.map Char.toNat).sum }

/-- The table after `Put(hashInt(0), 1)`. -/
def tableKey0 : Table Nat Nat := tableAfter hashInt 9 [Op.Put 0 1]

/-- The table after `Put(hashInt(3), 1)`. -/
def tableKey3 : Table Nat Nat := tableAfter hashInt 9 [Op.Put 3 1]

/-- The table after `Put(hashInt(2147483648), 1)`. -/
def tableKeyHigh : Table Nat Nat := tableAfter hashInt 9 [Op.Put 2147483648 1]

/-- The table after `Put(key("abc"), 1); Put(key("acb"), 2)`, two keys of hash 294. -/
def tableTwoTied : Table String Nat := tableAfter key 9 [Op.Put "abc" 1, Op.Put "acb" 2]

/-- The table after the first three insertions of scenario S5 (hashes 0, 1, 2). -/
def tableS5 : Table Nat Nat := tableAfter hashInt 9 [Op.Put 0 1, Op.Put 1 1, Op.Put 2 1]

/-- The table after all eight insertions of scenario S5 (hashes 0 to 7). -/
def tableS5all : Table Nat Nat :=
  tableAfter hashInt 20 [Op.Put 0 10, Op.Put 1 11, Op.Put 2 12, Op.Put 3 13, Op.Put 4 14,
    Op.Put 5 15, Op.Put 6 16, Op.Put 7 17]

/-! ## The invariant of reachable tables -/

variable {K V : Type}

def sentinelKey (b : Nat) : Nat := reverse b - reverse b % 2
def realKey (hc : Nat) : Nat := reverse hc ||| 1

/-- Shape of the directory: exactly the slots up to the exponent are published, with the
lengths 1, 1, 2, 4, ... -/
def DirOK (self : Hash) : Prop :=
  self.exponent ≤ 31 ∧ self.buckets.length = 32 ∧
  ∀ k, k < 32 →
    (k ≤ self.exponent → ∃ arr, self.buckets[k]? = some (some arr) ∧ arr.length = 2 ^ (k - 1)) ∧
    (self.exponent < k → self.buckets[k]? = some none)

/-- The directory slot of bucket index `b`. -/
def Hash.slotOf (self : Hash) (b : Nat) : Option (Option Nat) :=
  self.slot (getBucketIndices b).1 (getBucketIndices b).2

/-- The node list `l` is met, in order, when following the references from cell `c`, and
the cell reached after the last node holds `o`. -/
inductive Path (m : Mem K V) : Nat → List Nat → Option Nat → Prop where
  | nil (c : Nat) (o : Option Nat) : m.cells[c]? = some o → Path m c [] o
  | cons (c n : Nat) (nd : node K V) (l : List Nat) (o : Option Nat) :
      m.cells[c]? = some (some n) → m.nodes[n]? = some nd → Path m nd.next l o →
      Path m c (n :: l) o

/-- The address of the `next` cell of node `n` (0 for a dangling address). -/
def Mem.nextOf (m : Mem K V) (n : Nat) : Nat :=
  match m.nodes[n]? with
  | some nd => nd.next
  | none => 0

/-- The sort key of node `n` (0 for a dangling address). -/
def Mem.keyOf (m : Mem K V) (n : Nat) : Nat :=
  match m.nodes[n]? with
  | some nd => nd.value.hashKey
  | none => 0

/-- The heap after a successful `pushBefore` of `e` on cell `x`, which held `r`. -/
def Mem.ins (m : Mem K V) (x : Nat) (e : entry K V) (r : Option Nat) : Mem K V :=
  { cells := (m.cells ++ [r]).set x (some m.nodes.length),
    nodes := m.nodes ++ [{ value := e, next := m.cells.length }] }

/-- The heap after cell `x` is pointed to `v`. -/
def Mem.setCell (m : Mem K V) (x : Nat) (v : Option Nat) : Mem K V :=
  { m with cells := m.cells.set x v }

/-- The node list of a path after the insertion of node `N` through cell `x`. -/
def insList (m : Mem K V) (x N : Nat) : Nat → List Nat → List Nat
  | c, [] => if c = x then [N] else []
  | c, n :: l => (if c = x then [N, n] else [n]) ++ insList m x N (m.nextOf n) l

/-- The node list of a path after the node held by cell `x` is unlinked. -/
def popList (m : Mem K V) (x : Nat) : Nat → List Nat → List Nat
  | _, [] => []
  | c, n :: l =>
    if c = x then
      match l with
      | [] => []
      | n2 :: l2 => n2 :: popList m x (m.nextOf n2) l2
    else n :: popList m x (m.nextOf n) l

/-- The node list of a path that starts at the successor of the unlinked node. -/
def skipList (m : Mem K V) (x : Nat) : List Nat → List Nat
  | [] => []
  | n2 :: l2 => n2 :: popList m x (m.nextOf n2) l2

/-- The hit after the search loops have advanced over the nodes `l`. -/
def skipHit (m : Mem K V) : hit → List Nat → hit
  | rv, [] => rv
  | rv, n :: l =>
    skipHit m { leftRef := rv.ref, leftNode := rv.node, ref := some (m.nextOf n),
                node := nodeRef.node m (m.nextOf n), rightRef := none, rightNode := none } l

/-- A tied entry that is not the probed key: `hashHit.search` walks over it. -/
def Mem.tiedOther (H : Hashable K) (m : Mem K V) (cmp : entry K V) (n : Nat) : Prop :=
  ∃ nd ck ek, m.nodes[n]? = some nd ∧ nd.value.real = true ∧
    nd.value.hashCode = cmp.hashCode ∧ cmp.key = some ck ∧ nd.value.key = some ek ∧
    H.Equals ck ek = false

/-- A lawful `Hashable`: `Equals` is an equivalence consistent with `HashCode`. -/
structure Lawful (H : Hashable K) : Prop where
  refl : ∀ a, H.Equals a a = true
  symm : ∀ a b, H.Equals a b = true → H.Equals b a = true
  trans : ∀ a b c, H.Equals a b = true → H.Equals b c = true → H.Equals a c = true
  hash : ∀ a b, H.Equals a b = true → H.HashCode a % U32 = H.HashCode b % U32

/-- The entries a table can hold: a real entry with a non-nil value, or the mock entry of
a bucket index below `2 ^ exp`. -/
def EntryOK (H : Hashable K) (e : entry K V) (exp : Nat) : Prop :=
  (∃ k v, e = newRealEntry H k (some v)) ∨ (∃ b, b < 2 ^ exp ∧ e = newMockEntry b)

/-- The order of two entries of the list, the first one met first: sort keys do not
decrease, and tied entries are real entries of one hash code with different keys. -/
def entRel (H : Hashable K) (e1 e2 : entry K V) : Prop :=
  e1.hashKey ≤ e2.hashKey ∧
  (e1.hashKey = e2.hashKey →
    e1.real = true ∧ e1.hashCode = e2.hashCode ∧
    ∀ k1 k2, e1.key = some k1 → e2.key = some k2 → H.Equals k1 k2 = false)

/-- The order of two nodes of the list. -/
def Mem.Rel (H : Hashable K) (m : Mem K V) (a b : Nat) : Prop :=
  ∀ na nb, m.nodes[a]? = some na → m.nodes[b]? = some nb → entRel H na.value nb.value

/-- The key and value a real entry contributes to the map. -/
def entView (e : entry K V) : Option (K × V) :=
  if e.real then
    match e.key, e.value with
    | some k, some (some v) => some (k, v)
    | _, _ => none
  else none

/-- The key and value node `n` contributes to the map. -/
def Mem.viewOf (m : Mem K V) (n : Nat) : Option (K × V) :=
  match m.nodes[n]? with
  | some nd => entView nd.value
  | none => none

/-- The map held by the node list `L`, in list order. -/
def Mem.view (m : Mem K V) (L : List Nat) : List (K × V) := L.filterMap m.viewOf

/-- Lookup by `Equals` in a list of keys and values. -/
def lookupE (H : Hashable K) (k : K) (mp : List (K × V)) : Option V :=
  (mp.find? (fun p => H.Equals k p.1)).map (fun p => p.2)

/-- The directory cell `c` is an anchor of bucket `b`: following it leads, through nodes
of smaller sort key only, to the sentinel of `b`, which is on the list. -/
def Anchor (m : Mem K V) (L : List Nat) (c b : Nat) : Prop :=
  ∃ pre target td, Path m c pre (some target) ∧ target ∈ L ∧
    m.nodes[target]? = some td ∧ td.value = newMockEntry b ∧
    ∀ p ∈ pre, m.keyOf p < sentinelKey b

/-- The invariant of a table whose bucket 0 is materialised: `L` is the list of nodes
reachable from the head cell `c0`. -/
structure Good (H : Hashable K) (t : Table K V) (L : List Nat) (c0 : Nat) : Prop where
  dir : DirOK t.h
  lf : t.h.loadFactor = (1, 2)
  next_lt : ∀ (n : Nat) (nd : node K V), t.mem.nodes[n]? = some nd → nd.next < t.mem.cells.length
  next_inj : ∀ (n1 n2 : Nat) (nd1 nd2 : node K V), t.mem.nodes[n1]? = some nd1 → t.mem.nodes[n2]? = some nd2 →
    nd1.next = nd2.next → n1 = n2
  head_slot : t.h.slotOf 0 = some (some c0)
  head_ne : ∀ (n : Nat) (nd : node K V), t.mem.nodes[n]? = some nd → nd.next ≠ c0
  chain : Path t.mem c0 L none
  nodup : L.Nodup
  first : ∃ n0 rest nd, L = n0 :: rest ∧ t.mem.nodes[n0]? = some nd ∧ nd.value = newMockEntry 0
  entries : ∀ n ∈ L, ∃ nd, t.mem.nodes[n]? = some nd ∧ EntryOK H nd.value t.h.exponent
  sorted : L.Pairwise (t.mem.Rel H)
  anchors : ∀ b c, b < 2 ^ t.h.exponent → t.h.slotOf b = some (some c) → Anchor t.mem L c b
  size : t.h.size = ((t.mem.view L).length : Int)
  load : t.h.size ≤ t.h.threshold

/-- The invariant of a reachable table with map `mp`: the fresh table, or a table whose
bucket 0 is materialised and whose list holds `mp`. -/
def Abs (H : Hashable K) (t : Table K V) (mp : List (K × V)) : Prop :=
  (t = NewHash ∧ mp = []) ∨ ∃ L c0, Good H t L c0 ∧ t.mem.view L = mp

/-- The header `h2` extends `h`: same load factor, the exponent has not decreased, and the
published slots of `h2` are published slots of `h`. -/
def HExt (h h2 : Hash) : Prop :=
  DirOK h2 ∧ h2.loadFactor = h.loadFactor ∧ h.exponent ≤ h2.exponent ∧
  h2.slotOf 0 = h.slotOf 0 ∧
  ∀ b c, b < 2 ^ h2.exponent → h2.slotOf b = some (some c) →
    b < 2 ^ h.exponent ∧ h.slotOf b = some (some c)

/-- The header after a grow that publishes slot `exponent + 1`. -/
def Hash.grown (h : Hash) : Hash :=
  { h with buckets := h.buckets.set (h.exponent + 1) (some (List.replicate (2 ^ h.exponent) none)),
           exponent := h.exponent + 1 }

/-- Two entries that agree on everything but the value pointer. -/
def sameKey (e1 e2 : entry K V) : Prop :=
  e1.hashKey = e2.hashKey ∧ e1.hashCode = e2.hashCode ∧ e1.key = e2.key

/-- The result of the list search around the probe key `pk`, when the list splits as
`A ++ left :: B` with `left` the last node of smaller key. -/
def SearchRes (m : Mem K V) (pk left : Nat) (B : List Nat) (hitA : hit) : Prop :=
  hitA.leftNode = some left ∧
  match B with
  | [] => hitA.node = none ∧ hitA.rightNode = none
  | y :: B2 =>
    (pk < m.keyOf y → hitA.node = none ∧ hitA.rightNode = some y) ∧
    (m.keyOf y = pk →
      hitA.node = some y ∧ hitA.ref = some (m.nextOf left) ∧ hitA.rightNode = B2.head?)

/-- What bucket resolution keeps: the invariant, the map, the exponent, the published
slots and the first node of the list; and the slot of the resolved bucket is published. -/
def Resolved (H : Hashable K) (t : Table K V) (L : List Nat) (c0 b : Nat)
    (t2 : Table K V) (c : Nat) (L2 : List Nat) : Prop :=
  Good H t2 L2 c0 ∧ t2.h.slotOf b = some (some c) ∧ t2.mem.view L2 = t.mem.view L ∧
  t2.h.exponent = t.h.exponent ∧
  (∀ b2 c2, t.h.slotOf b2 = some (some c2) → t2.h.slotOf b2 = some (some c2)) ∧
  L2.head? = L.head?

/-- The table after bucket 0 of `NewHash()` is materialised: the head cell 0 points to the
sentinel node 0. -/
def firstTable : Table K V :=
  { mem := { cells := [some 0, none], nodes := [{ value := newMockEntry 0, next := 1 }] },
    h := { exponent := 0,
           buckets := (List.replicate MAX_EXPONENT none).set 0 (some [some 0]),
           size := 0,
           loadFactor := DEFAULT_LOAD_FACTOR } }

/-- The walk of `hashHit.search` found the key: the hit points to a node `z` of the list
whose entry holds a key equal to `k`, through the `next` cell of its predecessor `p`. -/
def LocFound (H : Hashable K) (m : Mem K V) (L : List Nat) (k : K) (hitB : hit) : Prop :=
  ∃ A p z B zd kz vz, L = A ++ p :: z :: B ∧ hitB.node = some z ∧
    hitB.ref = some (m.nextOf p) ∧ m.nodes[z]? = some zd ∧
    zd.value = newRealEntry H kz (some vz) ∧ H.Equals k kz = true

/-- The walk of `hashHit.search` did not find the key: no real node of the list holds a key
equal to `k`, and the left node `p` of the hit is the place of insertion whenever the
`next` cell of `p` points to the right node of the list search. -/
def LocAbsent (H : Hashable K) (m : Mem K V) (L : List Nat) (k : K) (pe : entry K V)
    (hitA hitB : hit) : Prop :=
  hitB.node = none ∧
  (∀ n ∈ L, ∀ nd kz, m.nodes[n]? = some nd → nd.value.real = true →
    nd.value.key = some kz → H.Equals k kz = false) ∧
  ∃ A p B pd, L = A ++ p :: B ∧ hitB.leftNode = some p ∧ m.nodes[p]? = some pd ∧
    (nodeRef.node m pd.next = hitA.rightNode →
      (∀ a ∈ A ++ [p], ∀ na, m.nodes[a]? = some na → entRel H na.value pe) ∧
      (∀ y ∈ B, ∀ nb, m.nodes[y]? = some nb →
        entRel H pe nb.value ∧ pe.hashKey < nb.value.hashKey))

/-- No two entries of the map have equal keys. -/
def Distinct (H : Hashable K) (mp : List (K × V)) : Prop :=
  mp.Pairwise (fun p q => H.Equals p.1 q.1 = false)

/-- The reference map of the spec, with keys compared by `Equals`: assignment replaces the
value of the present key, or adds the key. -/
def specPut (H : Hashable K) (m : List (K × V)) (k : K) (v : V) : List (K × V) :=
  if m.any (fun p => H.Equals k p.1) then
    m.map (fun p => if H.Equals k p.1 then (p.1, v) else p)
  else (k, v) :: m

/-- The reference map of the spec: removal of a key. -/
def specDelete (H : Hashable K) (m : List (K × V)) (k : K) : List (K × V) :=
  m.filter (fun p => !H.Equals k p.1)

/-- The reference map of the spec: one call. -/
def specStep (H : Hashable K) (m : List (K × V)) : Op K V → List (K × V)
  | Op.Put k v => specPut H m k v
  | Op.Delete k => specDelete H m k
  | Op.Get _ => m

/-- The reference map of the spec after a sequence of calls from the map `m`. -/
def specRun (H : Hashable K) : List (Op K V) → List (K × V) → List (K × V)
  | [], m => m
  | op :: ops, m => specRun H ops (specStep H m op)

/-- The spec's notion of the value a key has after a sequence of calls: the value most
recently put for `k`, with `acc` the value before the sequence; absent when `k` was never
put, or was deleted since its last `Put`. -/
def lastPut (H : Hashable K) (k : K) : List (Op K V) → Option V → Option V
  | [], acc => acc
  | Op.Put k2 v :: ops, acc => lastPut H k ops (if H.Equals k k2 then some v else acc)
  | Op.Delete k2 :: ops, acc => lastPut H k ops (if H.Equals k k2 then none else acc)
  | Op.Get _ :: ops, acc => lastPut H k ops acc

/-- The spec's count of the real entries on the list from a node on: a walk along the
`next` cells, as the one of `ToMap`, that counts the real entries it meets. -/
def realCount.loop (m : Mem K V) : Nat → Option Nat → Option Nat
  | 0, _ => none
  | _ + 1, none => some 0
  | fuel + 1, some n =>
    match m.nodes[n]? with
    | none => none
    | some nd =>
      match realCount.loop m fuel (nodeRef.node m nd.next) with
      | none => none
      | some c => some (if nd.value.real then c + 1 else c)

/-- The spec's number of real entries reachable from the head sentinel, the node of
bucket 0; no entry is reachable while bucket 0 is not materialised. -/
def realCount (fuel : Nat) (t : Table K V) : Option Nat :=
  match t.h.slot 0 0 with
  | some (some c) => realCount.loop t.mem fuel (nodeRef.node t.mem c)
  | _ => some 0

/-- The chain of bucket indices that `getBucketByIndex` follows from `index` while the
buckets it meets are not materialised: `prev` is computed as at hash.go lines 242-243,
from the sort key of the mock entry of the index, and the chain ends at bucket 0. -/
def bucketChain (self : Hash) : Nat → Nat → Option (List Nat)
  | 0, _ => none
  | fuel + 1, index =>
    if index = 0 then some [0]
    else
      match bucketChain self fuel
          (self.getPreviousBucketIndex (newMockEntry index : entry Unit Unit).hashKey) with
      | none => none
      | some l => some (index :: l)

/-- The table after `Put` of the hash codes 0, 8 and 16: exponent 3, and bucket 0 is the
only bucket materialised. -/
def tableBucketZeroOnly : Table Nat Nat :=
  tableAfter hashInt 20 [Op.Put 0 1, Op.Put 8 1, Op.Put 16 1]

/-- The first node of the list: the node the head cell, the slot of bucket 0, refers to;
`none` while bucket 0 is not materialised. -/
def headNode (t : Table K V) : Option Nat :=
  match t.h.slot 0 0 with
  | some (some c) => nodeRef.node t.mem c
  | _ => none

/-- The walk along the `next` cells from a node on, as the one of `ToMap` and `Verify`:
the addresses of the nodes met, each with its entry. -/
def listFrom.loop (m : Mem K V) : Nat → Option Nat → Option (List (Nat × entry K V))
  | 0, _ => none
  | _ + 1, none => some []
  | fuel + 1, some n =>
    match m.nodes[n]? with
    | none => none
    | some nd =>
      match listFrom.loop m fuel (nodeRef.node m nd.next) with
      | none => none
      | some l => some ((n, nd.value) :: l)

/-- The list walked from the head, the slot of bucket 0; there is none while bucket 0 is
not materialised. -/
def listFrom (fuel : Nat) (t : Table K V) : Option (List (Nat × entry K V)) :=
  match t.h.slot 0 0 with
  | some (some c) => listFrom.loop t.mem fuel (nodeRef.node t.mem c)
  | _ => none

/-- A header at the last exponent the directory has room for, with every slot of the
directory published and the size at the load threshold. -/
def hashAtLimit : Hash :=
  { exponent := 31,
    buckets := (List.range 32).map (fun k => some (List.replicate (2 ^ (k - 1)) none)),
    size := 2 ^ 30,
    loadFactor := DEFAULT_LOAD_FACTOR }

/-! ## The retry loop of Put -/

/-- When the searches of a pass leave the table as it is and the reference the insertion
is issued on does not point to the expected right node, no number of retries helps. -/
theorem Put.loop_fixed {K V : Type} (H : Hashable K) (fuel : Nat) (e : entry K V)
    (t : Table K V) (hitA hitB : hit) (ln : Nat) (lnd : node K V)
    (hloc : locate H fuel t e = some (t, hitA, hitB))
    (hnode : hitB.node = none) (hleft : hitB.leftNode = some ln)
    (hln : t.mem.nodes[ln]? = some lnd)
    (hne : nodeRef.node t.mem lnd.next ≠ hitA.rightNode) :
    ∀ retries : Nat, Put.loop H fuel e retries t = none := by
  intro retries
  induction retries with
  | zero => rfl
  | succ r ih =>
    have hpb : nodeRef.pushBefore t.mem lnd.next e hitA.rightNode = (t.mem, false) := by
      simp [nodeRef.pushBefore, hne]
    simp only [Put.loop, hloc, hnode, hleft, hln, hpb]
    exact ih

/-- The same when the first pass materialises a bucket and every later pass finds the
table unchanged. -/
theorem Put.loop_stuck {K V : Type} (H : Hashable K) (fuel : Nat) (e : entry K V)
    (t t1 : Table K V) (hitA hitB : hit) (ln : Nat) (lnd : node K V)
    (hloc : locate H fuel t e = some (t1, hitA, hitB))
    (hloc1 : locate H fuel t1 e = some (t1, hitA, hitB))
    (hnode : hitB.node = none) (hleft : hitB.leftNode = some ln)
    (hln : t1.mem.nodes[ln]? = some lnd)
    (hne : nodeRef.node t1.mem lnd.next ≠ hitA.rightNode) :
    ∀ retries : Nat, Put.loop H fuel e retries t = none := by
  intro retries
  cases retries with
  | zero => rfl
  | succ r =>
    have hpb : nodeRef.pushBefore t1.mem lnd.next e hitA.rightNode = (t1.mem, false) := by
      simp [nodeRef.pushBefore, hne]
    simp only [Put.loop, hloc, hnode, hleft, hln, hpb]
    exact Put.loop_fixed H fuel e t1 hitA hitB ln lnd hloc1 hnode hleft hln hne r

theorem reverseAux_testBit (n : Nat) : ∀ (x acc j : Nat),
    (reverseAux n x acc).testBit j =
      if j < n then x.testBit (n - 1 - j) else acc.testBit (j - n) := by
  induction n with
  | zero => intro x acc j; simp [reverseAux]
  | succ n ih =>
    intro x acc j
    rw [reverseAux, ih]
    by_cases h1 : j < n
    · have h2 : j < n + 1 := by omega
      rw [if_pos h1, if_pos h2, ← Nat.testBit_succ]
      congr 1; omega
    · rw [if_neg h1]
      by_cases h3 : j = n
      · subst h3
        simp only [Nat.sub_self, Nat.lt_succ_self, if_true, Nat.add_sub_cancel]
        rw [Nat.testBit_zero, Nat.testBit_zero]
        congr 1
        apply propext
        omega
      · have h4 : ¬ j < n + 1 := by omega
        rw [if_neg h4]
        obtain ⟨k, hk⟩ : ∃ k, j - n = k + 1 := ⟨j - n - 1, by omega⟩
        rw [hk, Nat.testBit_succ]
        have : (2 * acc + x % 2) / 2 = acc := by omega
        rw [this]
        congr 1; omega

theorem reverse_testBit (x j : Nat) :
    (reverse x).testBit j = (decide (j < 32) && x.testBit (31 - j)) := by
  unfold reverse
  rw [reverseAux_testBit]
  by_cases h : j < 32
  · simp only [h, if_true, decide_True, Bool.true_and, U32]
    rw [Nat.testBit_mod_two_pow]
    have : 32 - 1 - j < 32 := by omega
    simp [this]
  · simp [h]

theorem reverse_lt (x : Nat) : reverse x < 2 ^ 32 := by
  apply Nat.lt_pow_two_of_testBit
  intro i hi
  rw [reverse_testBit]
  have : ¬ i < 32 := by omega
  simp [this]

theorem reverse_reverse (x : Nat) : reverse (reverse x) = x % 2 ^ 32 := by
  apply Nat.eq_of_testBit_eq
  intro i
  rw [reverse_testBit, reverse_testBit, Nat.testBit_mod_two_pow]
  by_cases h : i < 32
  · have h1 : 31 - i < 32 := by omega
    have h2 : 31 - (31 - i) = i := by omega
    simp [h, h1, h2]
  · simp [h]

theorem reverse_eq_of_lt (x : Nat) (h : x < 2 ^ 32) : reverse (reverse x) = x := by
  rw [reverse_reverse, Nat.mod_eq_of_lt h]

theorem reverse_and (x y : Nat) : reverse (x &&& y) = reverse x &&& reverse y := by
  apply Nat.eq_of_testBit_eq
  intro i
  simp only [reverse_testBit, Nat.testBit_and]
  by_cases h : i < 32 <;> simp [h]

theorem or_one_eq (x : Nat) : x ||| 1 = 2 * (x / 2) + 1 := by
  apply Nat.eq_of_testBit_eq
  intro i
  cases i with
  | zero => simp [Nat.testBit_zero]; omega
  | succ i =>
    rw [Nat.testBit_or, Nat.testBit_succ, Nat.testBit_succ, Nat.testBit_succ]
    have : (2 * (x / 2) + 1) / 2 = x / 2 := by omega
    rw [this]
    simp

theorem realKey_odd (hc : Nat) : realKey hc % 2 = 1 := by
  unfold realKey; rw [or_one_eq]; omega

theorem sentinelKey_even (b : Nat) : sentinelKey b % 2 = 0 := by
  unfold sentinelKey; omega

theorem le_realKey (hc : Nat) : reverse hc ≤ realKey hc := by
  unfold realKey; rw [or_one_eq]; omega

theorem realKey_lt (hc : Nat) : realKey hc < 2 ^ 32 := by
  have h := reverse_lt hc
  unfold realKey; rw [or_one_eq]; omega

theorem bucketIndex_eq (self : Hash) (hc : Nat) (he : self.exponent ≤ 31) :
    self.bucketIndex hc = hc % 2 ^ self.exponent := by
  unfold Hash.bucketIndex U32
  have h1 : 2 ^ self.exponent < 2 ^ 32 := Nat.pow_lt_pow_right (by norm_num) (by omega)
  have h2 : 0 < 2 ^ self.exponent := Nat.two_pow_pos _
  rw [Nat.mod_eq_of_lt h1]
  have h3 : (2 ^ self.exponent + 2 ^ 32 - 1) % 2 ^ 32 = 2 ^ self.exponent - 1 := by
    have : 2 ^ self.exponent + 2 ^ 32 - 1 = (2 ^ self.exponent - 1) + 2 ^ 32 := by omega
    rw [this, Nat.add_mod_right, Nat.mod_eq_of_lt (by omega)]
  rw [h3, Nat.and_pow_two_sub_one_eq_mod]

theorem reverse_mod_le (hc e : Nat) : reverse (hc % 2 ^ e) ≤ reverse hc := by
  rw [← Nat.and_pow_two_sub_one_eq_mod, reverse_and]
  exact Nat.and_le_left

theorem sentinelKey_lt_realKey (hc e : Nat) : sentinelKey (hc % 2 ^ e) < realKey hc := by
  have h1 := reverse_mod_le hc e
  have h2 := le_realKey hc
  have h3 := realKey_odd hc
  have h4 := sentinelKey_even (hc % 2 ^ e)
  have h5 : sentinelKey (hc % 2 ^ e) ≤ reverse (hc % 2 ^ e) := by unfold sentinelKey; omega
  omega

theorem reverse_low_zero (b e j : Nat) (he : e ≤ 32) (hb : b < 2 ^ e) (hj : j < 32 - e) :
    (reverse b).testBit j = false := by
  rw [reverse_testBit]
  have : b.testBit (31 - j) = false := by
    apply Nat.testBit_lt_two_pow
    calc b < 2 ^ e := hb
      _ ≤ 2 ^ (31 - j) := Nat.pow_le_pow_right (by norm_num) (by omega)
  simp [this]

theorem mod_pow_zero_of_testBit (x s : Nat) (h : ∀ j, j < s → x.testBit j = false) :
    x % 2 ^ s = 0 := by
  apply Nat.eq_of_testBit_eq
  intro i
  rw [Nat.testBit_mod_two_pow]
  by_cases hi : i < s
  · simp [hi, h i hi]
  · simp [hi]

theorem reverse_mod_pow (b e : Nat) (he : e ≤ 32) (hb : b < 2 ^ e) :
    reverse b % 2 ^ (32 - e) = 0 :=
  mod_pow_zero_of_testBit _ _ (fun j hj => reverse_low_zero b e j he hb hj)

theorem sentinelKey_eq (b : Nat) (hb : b < 2 ^ 31) : sentinelKey b = reverse b := by
  have h := reverse_mod_pow b 31 (by norm_num) hb
  have : reverse b % 2 = 0 := by
    have : (32 - 31) = 1 := by norm_num
    rw [this] at h; simpa using h
  unfold sentinelKey; omega

theorem reverse_lt_pow (y e : Nat) (he : e ≤ 32) (hy : y % 2 ^ (32 - e) = 0) :
    reverse y < 2 ^ e := by
  apply Nat.lt_pow_two_of_testBit
  intro i hi
  rw [reverse_testBit]
  by_cases h : i < 32
  · have h1 : 31 - i < 32 - e := by omega
    have h2 : y.testBit (31 - i) = (y % 2 ^ (32 - e)).testBit (31 - i) := by
      rw [Nat.testBit_mod_two_pow]; simp [h1]
    rw [h2, hy]; simp
  · simp [h]

theorem reverse_ne_zero (b : Nat) (hb : b < 2 ^ 32) (h0 : b ≠ 0) : reverse b ≠ 0 := by
  intro h
  have := reverse_eq_of_lt b hb
  rw [h] at this
  have h2 : reverse 0 = 0 := by decide
  omega

/-- The predecessor bucket: strictly smaller sentinel key, and again an index below `2^e`. -/
theorem getPreviousBucketIndex_spec (self : Hash) (b : Nat) (he1 : 1 ≤ self.exponent)
    (he : self.exponent ≤ 31) (hb : b < 2 ^ self.exponent) (h0 : b ≠ 0) :
    self.getPreviousBucketIndex (sentinelKey b) < 2 ^ self.exponent ∧
    sentinelKey (self.getPreviousBucketIndex (sentinelKey b)) < sentinelKey b ∧
    sentinelKey (self.getPreviousBucketIndex (sentinelKey b)) + 2 ^ (32 - self.exponent)
      = sentinelKey b := by
  have hb31 : b < 2 ^ 31 := lt_of_lt_of_le hb (Nat.pow_le_pow_right (by norm_num) he)
  have hb32 : b < 2 ^ 32 := lt_of_lt_of_le hb (Nat.pow_le_pow_right (by norm_num) (by omega))
  rw [sentinelKey_eq b hb31]
  set e := self.exponent with hedef
  set x := reverse b with hx
  have hxlt : x < 2 ^ 32 := reverse_lt b
  have hxne : x ≠ 0 := reverse_ne_zero b hb32 h0
  have hxmod : x % 2 ^ (32 - e) = 0 := reverse_mod_pow b e (by omega) hb
  have hspos : 0 < 2 ^ (32 - e) := Nat.two_pow_pos _
  have hs : (MAX_EXPONENT + U32 - e % U32) % U32 = 32 - e := by
    unfold MAX_EXPONENT U32
    have h1 : e % 2 ^ 32 = e := Nat.mod_eq_of_lt (by
      calc e ≤ 31 := he
        _ < 2 ^ 32 := by norm_num)
    rw [h1]
    have h2 : 32 + 2 ^ 32 - e = (32 - e) + 2 ^ 32 := by omega
    rw [h2, Nat.add_mod_right, Nat.mod_eq_of_lt]
    calc 32 - e ≤ 32 := by omega
      _ < 2 ^ 32 := by norm_num
  have hlt : 32 - e < 32 := by omega
  -- x = a * 2^s with a ≥ 1
  obtain ⟨a, ha⟩ : ∃ a, x = 2 ^ (32 - e) * a := ⟨x / 2 ^ (32 - e), by
    have := Nat.div_add_mod x (2 ^ (32 - e)); omega⟩
  have ha1 : 1 ≤ a := by
    rcases Nat.eq_zero_or_pos a with h | h
    · subst h; simp at ha; exact absurd ha hxne
    · exact h
  have hdiv : x >>> (32 - e) = a := by
    rw [Nat.shiftRight_eq_div_pow, ha, Nat.mul_div_cancel_left _ hspos]
  have halt : a < 2 ^ 32 := by
    have : a ≤ 2 ^ (32 - e) * a := Nat.le_mul_of_pos_left a hspos
    omega
  have hb1 : (a + U32 - 1) % U32 = a - 1 := by
    unfold U32
    have : a + 2 ^ 32 - 1 = (a - 1) + 2 ^ 32 := by omega
    rw [this, Nat.add_mod_right, Nat.mod_eq_of_lt (by omega)]
  have hy : ((a - 1) <<< (32 - e)) % U32 = x - 2 ^ (32 - e) := by
    unfold U32
    rw [Nat.shiftLeft_eq, ha, Nat.mod_eq_of_lt]
    · rw [Nat.sub_mul, Nat.one_mul, Nat.mul_comm]
    · have : (a - 1) * 2 ^ (32 - e) ≤ 2 ^ (32 - e) * a := by
        rw [Nat.mul_comm]; exact Nat.mul_le_mul_left _ (by omega)
      omega
  have hp : self.getPreviousBucketIndex x = reverse (x - 2 ^ (32 - e)) := by
    unfold Hash.getPreviousBucketIndex
    simp only [← hedef, hs, hlt, if_true, hdiv, hb1, hy]
  have hymod : (x - 2 ^ (32 - e)) % 2 ^ (32 - e) = 0 := by
    rw [ha]
    have : 2 ^ (32 - e) * a - 2 ^ (32 - e) = 2 ^ (32 - e) * (a - 1) := by
      rw [Nat.mul_sub, Nat.mul_one]
    rw [this, Nat.mul_mod_right]
  have hple : 2 ^ (32 - e) ≤ x := by
    rw [ha]; exact Nat.le_mul_of_pos_right _ ha1
  have hplt : reverse (x - 2 ^ (32 - e)) < 2 ^ e := reverse_lt_pow _ e (by omega) hymod
  have hp31 : reverse (x - 2 ^ (32 - e)) < 2 ^ 31 :=
    lt_of_lt_of_le hplt (Nat.pow_le_pow_right (by norm_num) he)
  have hkey : sentinelKey (reverse (x - 2 ^ (32 - e))) = x - 2 ^ (32 - e) := by
    rw [sentinelKey_eq _ hp31, reverse_eq_of_lt _ (by omega)]
  rw [hp]
  refine ⟨hplt, ?_, ?_⟩
  · rw [hkey]; omega
  · rw [hkey]; omega

theorem sentinelKey_inj (b b2 : Nat) (hb : b < 2 ^ 31) (hb2 : b2 < 2 ^ 31)
    (h : sentinelKey b = sentinelKey b2) : b = b2 := by
  rw [sentinelKey_eq b hb, sentinelKey_eq b2 hb2] at h
  have h1 := reverse_eq_of_lt b (by omega)
  have h2 := reverse_eq_of_lt b2 (by omega)
  rw [h] at h1; omega

theorem sentinelKey_zero : sentinelKey 0 = 0 := by decide

theorem log2Aux_spec (n : Nat) : ∀ x, 1 ≤ x → x < 2 ^ (n + 1) →
    2 ^ log2Aux n x ≤ x ∧ x < 2 ^ (log2Aux n x + 1) := by
  induction n with
  | zero => intro x h1 h2; simp [log2Aux]; omega
  | succ n ih =>
    intro x h1 h2
    unfold log2Aux
    by_cases h : 2 ≤ x
    · rw [if_pos h]
      have hx : x / 2 < 2 ^ (n + 1) := by
        have : 2 ^ (n + 1 + 1) = 2 * 2 ^ (n + 1) := by rw [Nat.pow_succ]; ring
        omega
      obtain ⟨ih1, ih2⟩ := ih (x / 2) (by omega) hx
      constructor
      · rw [Nat.pow_succ]; omega
      · rw [Nat.pow_succ]; omega
    · rw [if_neg h]; simp; omega

theorem log2_spec (x : Nat) (h1 : 1 ≤ x) (h2 : x < 2 ^ 32) :
    2 ^ log2 x ≤ x ∧ x < 2 ^ (log2 x + 1) :=
  log2Aux_spec 32 x h1 (lt_trans h2 (by norm_num))

theorem getBucketIndices_zero : getBucketIndices 0 = (0, 0) := rfl

theorem getBucketIndices_pos (i : Nat) (h : 0 < i) :
    getBucketIndices i = (log2 i + 1, i - 2 ^ log2 i) := by
  unfold getBucketIndices; simp [h]

theorem getBucketIndices_inj (i j : Nat) (hi : i < 2 ^ 32) (hj : j < 2 ^ 32)
    (h : getBucketIndices i = getBucketIndices j) : i = j := by
  rcases Nat.eq_zero_or_pos i with hi0 | hi0
  · rcases Nat.eq_zero_or_pos j with hj0 | hj0
    · omega
    · rw [hi0, getBucketIndices_zero, getBucketIndices_pos j hj0] at h
      have := congrArg Prod.fst h
      simp at this
  · rcases Nat.eq_zero_or_pos j with hj0 | hj0
    · rw [hj0, getBucketIndices_zero, getBucketIndices_pos i hi0] at h
      have := congrArg Prod.fst h
      simp at this
    · rw [getBucketIndices_pos i hi0, getBucketIndices_pos j hj0] at h
      simp only [Prod.mk.injEq, Nat.add_right_cancel_iff] at h
      obtain ⟨h1, h2⟩ := h
      have si := log2_spec i hi0 hi
      have sj := log2_spec j hj0 hj
      rw [h1] at h2 si
      omega

theorem getBucketIndices_bound (i e : Nat) (he : e ≤ 31) (hi : i < 2 ^ e) :
    (getBucketIndices i).1 ≤ e ∧ (getBucketIndices i).2 < 2 ^ ((getBucketIndices i).1 - 1) := by
  rcases Nat.eq_zero_or_pos i with hi0 | hi0
  · subst hi0; simp [getBucketIndices_zero]
  · have hi32 : i < 2 ^ 32 := lt_of_lt_of_le hi (Nat.pow_le_pow_right (by norm_num) (by omega))
    have s := log2_spec i hi0 hi32
    rw [getBucketIndices_pos i hi0]
    simp only [Nat.add_sub_cancel]
    constructor
    · by_contra hc
      have : e ≤ log2 i := by omega
      have := Nat.pow_le_pow_right (show 0 < 2 by norm_num) this
      omega
    · have : 2 ^ (log2 i + 1) = 2 * 2 ^ log2 i := by rw [Nat.pow_succ]; ring
      omega

theorem slotOf_isSome (self : Hash) (hd : DirOK self) (b : Nat) (hb : b < 2 ^ self.exponent) :
    ∃ o, self.slotOf b = some o := by
  obtain ⟨he, _, hk⟩ := hd
  obtain ⟨h1, h2⟩ := getBucketIndices_bound b self.exponent he hb
  obtain ⟨arr, ha, hl⟩ := (hk _ (by omega)).1 h1
  unfold Hash.slotOf Hash.slot
  rw [ha]
  simp only
  rw [← hl] at h2
  exact ⟨arr[(getBucketIndices b).2], List.getElem?_eq_getElem h2⟩

theorem slot_casSlot (self : Hash) (i j r i2 j2 : Nat) :
    (self.casSlot i j r).slot i2 j2 =
      if i2 = i ∧ j2 = j ∧ self.slot i j = some none then some (some r) else self.slot i2 j2 := by
  unfold Hash.casSlot
  cases hb : self.buckets[i]? with
  | none =>
    have : self.slot i j = none := by unfold Hash.slot; rw [hb]
    simp [this]
  | some ob =>
    cases ob with
    | none =>
      have : self.slot i j = none := by unfold Hash.slot; rw [hb]
      simp [this]
    | some arr =>
      have hs : self.slot i j = arr[j]? := by unfold Hash.slot; rw [hb]
      simp only
      cases hj : arr[j]? with
      | none => simp [hs, hj]
      | some o =>
        cases o with
        | some c => simp [hs, hj]
        | none =>
          simp only [hs, hj, and_true]
          have hil : i < self.buckets.length := by
            by_contra hc
            rw [List.getElem?_eq_none (by omega)] at hb; simp at hb
          have hjl : j < arr.length := by
            by_contra hc
            rw [List.getElem?_eq_none (by omega)] at hj; simp at hj
          unfold Hash.slot
          simp only
          by_cases hi2 : i2 = i
          · subst hi2
            rw [List.getElem?_set_self hil]
            simp only [true_and]
            by_cases hj2 : j2 = j
            · subst hj2
              rw [List.getElem?_set_self hjl]; simp
            · rw [List.getElem?_set_ne (Ne.symm hj2)]; simp [hj2, hb]
          · rw [List.getElem?_set_ne (Ne.symm hi2)]; simp [hi2]

theorem casSlot_exponent (self : Hash) (i j r : Nat) :
    (self.casSlot i j r).exponent = self.exponent := by
  unfold Hash.casSlot; split <;> [split; skip] <;> rfl

theorem casSlot_size (self : Hash) (i j r : Nat) :
    (self.casSlot i j r).size = self.size := by
  unfold Hash.casSlot; split <;> [split; skip] <;> rfl

theorem casSlot_loadFactor (self : Hash) (i j r : Nat) :
    (self.casSlot i j r).loadFactor = self.loadFactor := by
  unfold Hash.casSlot; split <;> [split; skip] <;> rfl

theorem casSlot_DirOK (self : Hash) (i j r : Nat) (hd : DirOK self) :
    DirOK (self.casSlot i j r) := by
  obtain ⟨he, hlen, hk⟩ := hd
  refine ⟨by rw [casSlot_exponent]; exact he, ?_, ?_⟩
  · unfold Hash.casSlot
    split
    · split
      · simp [hlen]
      · exact hlen
    · exact hlen
  intro k hk32
  rw [casSlot_exponent]
  obtain ⟨h1, h2⟩ := hk k hk32
  unfold Hash.casSlot
  cases hb : self.buckets[i]? with
  | none => exact ⟨h1, h2⟩
  | some ob =>
    cases ob with
    | none => exact ⟨h1, h2⟩
    | some arr =>
      simp only
      cases hj : arr[j]? with
      | none => exact ⟨h1, h2⟩
      | some o =>
        cases o with
        | some c => exact ⟨h1, h2⟩
        | none =>
          simp only
          have hil : i < self.buckets.length := by
            by_contra hc
            rw [List.getElem?_eq_none (by omega)] at hb; simp at hb
          by_cases hki : k = i
          · subst hki
            rw [List.getElem?_set_self hil]
            constructor
            · intro hle
              obtain ⟨arr2, ha2, hl2⟩ := h1 hle
              rw [hb] at ha2
              simp only [Option.some.injEq] at ha2
              subst ha2
              exact ⟨_, rfl, by simp [hl2]⟩
            · intro hlt
              have := h2 hlt
              rw [hb] at this; simp at this
          · rw [List.getElem?_set_ne (Ne.symm hki)]
            exact ⟨h1, h2⟩

theorem slotOf_casSlot (self : Hash) (b r b2 : Nat) (hb : b < 2 ^ 32) (hb2 : b2 < 2 ^ 32) :
    (self.casSlot (getBucketIndices b).1 (getBucketIndices b).2 r).slotOf b2 =
      if b2 = b ∧ self.slotOf b = some none then some (some r) else self.slotOf b2 := by
  unfold Hash.slotOf
  rw [slot_casSlot]
  by_cases h : b2 = b
  · subst h; simp
  · have : ¬ ((getBucketIndices b2).1 = (getBucketIndices b).1 ∧
        (getBucketIndices b2).2 = (getBucketIndices b).2) := by
      intro ⟨h1, h2⟩
      exact h (getBucketIndices_inj b2 b hb2 hb (Prod.ext h1 h2))
    simp only [h, false_and, if_false]
    rw [if_neg]
    intro hc
    exact this ⟨hc.1, hc.2.1⟩

theorem pushBefore_eq (m : Mem K V) (x : Nat) (e : entry K V) (r : Option Nat)
    (h : nodeRef.node m x = r) : nodeRef.pushBefore m x e r = (m.ins x e r, true) := by
  simp [nodeRef.pushBefore, h, Mem.alloc, Mem.ins]

theorem node_eq_of_cells (m : Mem K V) (c : Nat) (o : Option Nat) (h : m.cells[c]? = some o) :
    nodeRef.node m c = o := by
  simp [nodeRef.node, h]

theorem lt_of_getElem?_eq_some {α : Type} (l : List α) (i : Nat) (a : α) (h : l[i]? = some a) :
    i < l.length := by
  by_contra hc
  rw [List.getElem?_eq_none (by omega)] at h; simp at h

theorem Path.cell_lt {m : Mem K V} {c : Nat} {l : List Nat} {o : Option Nat}
    (h : Path m c l o) : c < m.cells.length := by
  cases h with
  | nil _ _ h1 => exact lt_of_getElem?_eq_some _ _ _ h1
  | cons _ _ _ _ _ h1 _ _ => exact lt_of_getElem?_eq_some _ _ _ h1

theorem Path.node_lt {m : Mem K V} {c : Nat} {l : List Nat} {o : Option Nat}
    (h : Path m c l o) : ∀ n ∈ l, n < m.nodes.length := by
  induction h with
  | nil _ _ _ => simp
  | cons c n nd l o h1 h2 _ ih =>
    intro y hy
    rcases List.mem_cons.1 hy with h | h
    · subst h; exact lt_of_getElem?_eq_some _ _ _ h2
    · exact ih y h

/-! ### Lookups in the updated heaps -/

theorem ins_cells_self (m : Mem K V) (x : Nat) (e : entry K V) (r : Option Nat)
    (hx : x < m.cells.length) : (m.ins x e r).cells[x]? = some (some m.nodes.length) := by
  unfold Mem.ins
  simp only
  rw [List.getElem?_set_self (by simp; omega)]

theorem ins_cells_ne (m : Mem K V) (x : Nat) (e : entry K V) (r : Option Nat) (c : Nat)
    (hc : c ≠ x) (hlt : c < m.cells.length) : (m.ins x e r).cells[c]? = m.cells[c]? := by
  unfold Mem.ins
  simp only
  rw [List.getElem?_set_ne (Ne.symm hc), List.getElem?_append_left hlt]

theorem ins_cells_new (m : Mem K V) (x : Nat) (e : entry K V) (r : Option Nat)
    (hx : x < m.cells.length) : (m.ins x e r).cells[m.cells.length]? = some r := by
  unfold Mem.ins
  simp only
  rw [List.getElem?_set_ne (by omega), List.getElem?_append_right (le_refl _)]
  simp

theorem ins_nodes_old (m : Mem K V) (x : Nat) (e : entry K V) (r : Option Nat) (n : Nat)
    (hlt : n < m.nodes.length) : (m.ins x e r).nodes[n]? = m.nodes[n]? := by
  unfold Mem.ins
  simp only
  rw [List.getElem?_append_left hlt]

theorem ins_nodes_new (m : Mem K V) (x : Nat) (e : entry K V) (r : Option Nat) :
    (m.ins x e r).nodes[m.nodes.length]? = some { value := e, next := m.cells.length } := by
  unfold Mem.ins
  simp only
  rw [List.getElem?_append_right (le_refl _)]
  simp

theorem ins_nodes_of_some (m : Mem K V) (x : Nat) (e : entry K V) (r : Option Nat) (n : Nat)
    (nd : node K V) (h : m.nodes[n]? = some nd) : (m.ins x e r).nodes[n]? = some nd := by
  rw [ins_nodes_old m x e r n (lt_of_getElem?_eq_some _ _ _ h), h]

theorem nextOf_of_some (m : Mem K V) (n : Nat) (nd : node K V) (h : m.nodes[n]? = some nd) :
    m.nextOf n = nd.next := by
  simp [Mem.nextOf, h]

theorem keyOf_of_some (m : Mem K V) (n : Nat) (nd : node K V) (h : m.nodes[n]? = some nd) :
    m.keyOf n = nd.value.hashKey := by
  simp [Mem.keyOf, h]

/-! ### Paths under insertion -/

theorem Path_ins {m : Mem K V} (x : Nat) (e : entry K V) (r : Option Nat)
    (hx : m.cells[x]? = some r) {c : Nat} {l : List Nat} {o : Option Nat}
    (h : Path m c l o) : Path (m.ins x e r) c (insList m x m.nodes.length c l) o := by
  have hxlt := lt_of_getElem?_eq_some _ _ _ hx
  induction h with
  | nil c o h1 =>
    unfold insList
    by_cases hc : c = x
    · subst hc
      rw [if_pos rfl]
      rw [hx] at h1
      simp only [Option.some.injEq] at h1
      subst h1
      exact Path.cons _ _ _ _ _ (ins_cells_self m c e r hxlt) (ins_nodes_new m c e r)
        (Path.nil _ _ (ins_cells_new m c e r hxlt))
    · rw [if_neg hc]
      exact Path.nil _ _ (by rw [ins_cells_ne m x e r c hc (lt_of_getElem?_eq_some _ _ _ h1)]; exact h1)
  | cons c n nd l o h1 h2 _ ih =>
    unfold insList
    rw [nextOf_of_some m n nd h2]
    by_cases hc : c = x
    · subst hc
      rw [if_pos rfl]
      rw [hx] at h1
      simp only [Option.some.injEq] at h1
      subst h1
      exact Path.cons _ _ _ _ _ (ins_cells_self m c e _ hxlt) (ins_nodes_new m c e _)
        (Path.cons _ _ _ _ _ (ins_cells_new m c e _ hxlt) (ins_nodes_of_some m c e _ n nd h2) ih)
    · rw [if_neg hc]
      exact Path.cons _ _ _ _ _
        (by rw [ins_cells_ne m x e r c hc (lt_of_getElem?_eq_some _ _ _ h1)]; exact h1)
        (ins_nodes_of_some m x e r n nd h2) ih

theorem insList_mem {m : Mem K V} (x N : Nat) {c : Nat} {l : List Nat} :
    ∀ y ∈ insList m x N c l, y ∈ l ∨ y = N := by
  induction l generalizing c with
  | nil =>
    intro y hy
    unfold insList at hy
    by_cases hc : c = x
    · rw [if_pos hc] at hy; simp at hy; exact Or.inr hy
    · rw [if_neg hc] at hy; simp at hy
  | cons n l ih =>
    intro y hy
    unfold insList at hy
    rcases List.mem_append.1 hy with h | h
    · by_cases hc : c = x
      · rw [if_pos hc] at h; simp at h
        rcases h with h | h
        · exact Or.inr h
        · exact Or.inl (by simp [h])
      · rw [if_neg hc] at h; simp at h; exact Or.inl (by simp [h])
    · rcases ih y h with h | h
      · exact Or.inl (List.mem_cons_of_mem _ h)
      · exact Or.inr h

/-- The new node appears on a path only if the cell it was inserted through lies on the
path; that cell then held the final content or a node of the path. -/
theorem insList_new_mem {m : Mem K V} (x N : Nat) (r : Option Nat)
    (hx : m.cells[x]? = some r) {c : Nat} {l : List Nat} {o : Option Nat}
    (h : Path m c l o) (hN : ∀ n ∈ l, n ≠ N) :
    N ∈ insList m x N c l → r = o ∨ ∃ n ∈ l, r = some n := by
  induction h with
  | nil c o h1 =>
    intro hm
    unfold insList at hm
    by_cases hc : c = x
    · subst hc; rw [hx] at h1; simp at h1; exact Or.inl h1
    · rw [if_neg hc] at hm; simp at hm
  | cons c n nd l o h1 h2 _ ih =>
    intro hm
    unfold insList at hm
    by_cases hc : c = x
    · subst hc; rw [hx] at h1; simp at h1
      exact Or.inr ⟨n, by simp, h1⟩
    · rw [if_neg hc] at hm
      rcases List.mem_append.1 hm with h | h
      · simp at h; exact absurd h.symm (hN n (by simp))
      · rw [nextOf_of_some m n nd h2] at h
        rcases ih (fun y hy => hN y (List.mem_cons_of_mem _ hy)) h with h | ⟨y, hy, hr⟩
        · exact Or.inl h
        · exact Or.inr ⟨y, List.mem_cons_of_mem _ hy, hr⟩

theorem insList_noop {m : Mem K V} (x N : Nat) : ∀ (l : List Nat) (c : Nat), c ≠ x →
    (∀ n ∈ l, m.nextOf n ≠ x) → insList m x N c l = l := by
  intro l
  induction l with
  | nil => intro c hc _; simp [insList, hc]
  | cons n l ih =>
    intro c hc hl
    unfold insList
    rw [if_neg hc, ih (m.nextOf n) (hl n (by simp)) (fun y hy => hl y (List.mem_cons_of_mem _ hy))]
    rfl

/-- The shape of the main chain after an insertion behind `left`. -/
theorem insList_after {m : Mem K V} (N left : Nat) : ∀ (A B : List Nat) (c : Nat),
    c ≠ m.nextOf left → (∀ n ∈ A ++ B, m.nextOf n ≠ m.nextOf left) →
    insList m (m.nextOf left) N c (A ++ left :: B) = A ++ left :: N :: B := by
  intro A
  induction A with
  | nil =>
    intro B c hc hl
    simp only [List.nil_append]
    unfold insList
    rw [if_neg hc]
    cases B with
    | nil => simp [insList]
    | cons b B =>
      unfold insList
      rw [if_pos rfl]
      rw [insList_noop _ _ B (m.nextOf b) (hl b (by simp))
        (fun y hy => hl y (by simp [hy]))]
      rfl
  | cons a A ih =>
    intro B c hc hl
    simp only [List.cons_append]
    unfold insList
    rw [if_neg hc, ih B (m.nextOf a) (hl a (by simp)) (fun y hy => hl y (by
      rcases List.mem_append.1 hy with h | h
      · simp [h]
      · simp [h]))]
    rfl

/-! ### Paths under unlinking -/

theorem setCell_cells_self (m : Mem K V) (x : Nat) (v : Option Nat) (hx : x < m.cells.length) :
    (m.setCell x v).cells[x]? = some v := by
  unfold Mem.setCell
  simp only
  rw [List.getElem?_set_self hx]

theorem setCell_cells_ne (m : Mem K V) (x : Nat) (v : Option Nat) (c : Nat) (hc : c ≠ x) :
    (m.setCell x v).cells[c]? = m.cells[c]? := by
  unfold Mem.setCell
  simp only
  rw [List.getElem?_set_ne (Ne.symm hc)]

theorem setCell_nodes (m : Mem K V) (x : Nat) (v : Option Nat) :
    (m.setCell x v).nodes = m.nodes := rfl

theorem popExact_eq (m : Mem K V) (x D : Nat) (dn : node K V)
    (h : nodeRef.node m x = some D) (hd : m.nodes[D]? = some dn) :
    nodeRef.popExact m x D = (m.setCell x (nodeRef.node m dn.next), true) := by
  simp [nodeRef.popExact, h, hd, Mem.setCell]

theorem popList_cons (m : Mem K V) (x c n : Nat) (l : List Nat) :
    popList m x c (n :: l) =
      if c = x then skipList m x l else n :: popList m x (m.nextOf n) l := by
  cases l <;> simp [popList, skipList]

theorem Path_pop_aux {m : Mem K V} (x D : Nat) (v : Option Nat)
    (hx : m.cells[x]? = some (some D)) {c : Nat} {l : List Nat} {o : Option Nat}
    (h : Path m c l o) (ho : o ≠ some D)
    (hv : ∀ nd, m.nodes[D]? = some nd → m.cells[nd.next]? = some v) :
    Path (m.setCell x v) c (popList m x c l) o ∧
    (m.cells[c]? = some v → Path (m.setCell x v) x (skipList m x l) o) := by
  have hxlt := lt_of_getElem?_eq_some _ _ _ hx
  induction h with
  | nil c o h1 =>
    constructor
    · unfold popList
      have hc : c ≠ x := by
        intro hc; subst hc; rw [hx] at h1; simp at h1; exact ho h1.symm
      exact Path.nil _ _ (by rw [setCell_cells_ne m x v c hc]; exact h1)
    · intro hcv
      rw [h1] at hcv
      simp only [Option.some.injEq] at hcv
      subst hcv
      exact Path.nil _ _ (setCell_cells_self m x _ hxlt)
  | cons c n nd l o h1 h2 hp ih =>
    obtain ⟨ih1, ih2⟩ := ih ho
    have hS : Path (m.setCell x v) c (popList m x c (n :: l)) o := by
      rw [popList_cons]
      by_cases hc : c = x
      · subst hc
        rw [if_pos rfl]
        rw [hx] at h1
        simp only [Option.some.injEq] at h1
        subst h1
        exact ih2 (hv nd h2)
      · rw [if_neg hc, nextOf_of_some m n nd h2]
        exact Path.cons _ _ _ _ _ (by rw [setCell_cells_ne m x v c hc]; exact h1) h2 ih1
    refine ⟨hS, ?_⟩
    intro hcv
    rw [h1] at hcv
    simp only [Option.some.injEq] at hcv
    subst hcv
    simp only [skipList]
    rw [nextOf_of_some m n nd h2]
    exact Path.cons _ _ _ _ _ (setCell_cells_self m x _ hxlt) h2 ih1

theorem Path_pop {m : Mem K V} (x D : Nat) (v : Option Nat)
    (hx : m.cells[x]? = some (some D)) {c : Nat} {l : List Nat} {o : Option Nat}
    (h : Path m c l o) (ho : o ≠ some D)
    (hv : ∀ nd, m.nodes[D]? = some nd → m.cells[nd.next]? = some v) :
    Path (m.setCell x v) c (popList m x c l) o :=
  (Path_pop_aux x D v hx h ho hv).1

theorem popList_mem_aux {m : Mem K V} (x : Nat) : ∀ (l : List Nat),
    (∀ c, ∀ y ∈ popList m x c l, y ∈ l) ∧ (∀ y ∈ skipList m x l, y ∈ l) := by
  intro l
  induction l with
  | nil => simp [popList, skipList]
  | cons n l ih =>
    obtain ⟨ih1, ih2⟩ := ih
    constructor
    · intro c y hy
      rw [popList_cons] at hy
      by_cases hc : c = x
      · rw [if_pos hc] at hy; exact List.mem_cons_of_mem _ (ih2 y hy)
      · rw [if_neg hc] at hy
        rcases List.mem_cons.1 hy with h | h
        · simp [h]
        · exact List.mem_cons_of_mem _ (ih1 _ y h)
    · intro y hy
      simp only [skipList] at hy
      rcases List.mem_cons.1 hy with h | h
      · simp [h]
      · exact List.mem_cons_of_mem _ (ih1 _ y h)

theorem popList_mem {m : Mem K V} (x : Nat) (l : List Nat) (c : Nat) :
    ∀ y ∈ popList m x c l, y ∈ l :=
  (popList_mem_aux x l).1 c

theorem popList_noop {m : Mem K V} (x : Nat) : ∀ (l : List Nat) (c : Nat), c ≠ x →
    (∀ n ∈ l, m.nextOf n ≠ x) → popList m x c l = l := by
  intro l
  induction l with
  | nil => intro c _ _; simp [popList]
  | cons n l ih =>
    intro c hc hl
    rw [popList_cons, if_neg hc,
      ih (m.nextOf n) (hl n (by simp)) (fun y hy => hl y (List.mem_cons_of_mem _ hy))]

/-- The shape of the main chain after the node `D` behind `p` is unlinked. -/
theorem popList_after {m : Mem K V} (p D : Nat) : ∀ (A B : List Nat) (c : Nat),
    c ≠ m.nextOf p → (∀ n ∈ A ++ B, m.nextOf n ≠ m.nextOf p) →
    popList m (m.nextOf p) c (A ++ p :: D :: B) = A ++ p :: B := by
  intro A
  induction A with
  | nil =>
    intro B c hc hl
    simp only [List.nil_append]
    rw [popList_cons, if_neg hc, popList_cons, if_pos rfl]
    cases B with
    | nil => simp [skipList]
    | cons b B =>
      simp only [skipList]
      rw [popList_noop _ B (m.nextOf b) (hl b (by simp)) (fun y hy => hl y (by simp [hy]))]
  | cons a A ih =>
    intro B c hc hl
    simp only [List.cons_append]
    rw [popList_cons, if_neg hc, ih B (m.nextOf a) (hl a (by simp)) (fun y hy => hl y (by
      rcases List.mem_append.1 hy with h | h
      · simp [h]
      · simp [h]))]

/-! ### Paths under a store to a value pointer -/

theorem storeValue_cells (m : Mem K V) (n : Nat) (v : Option (Option V)) :
    (m.storeValue n v).cells = m.cells := by
  unfold Mem.storeValue; split <;> rfl

theorem storeValue_nodes (m : Mem K V) (n : Nat) (v : Option (Option V)) (k : Nat) :
    (m.storeValue n v).nodes[k]? =
      (m.nodes[k]?).map (fun nd =>
        if k = n then { nd with value := { nd.value with value := v } } else nd) := by
  unfold Mem.storeValue
  cases h : m.nodes[n]? with
  | none =>
    simp only
    by_cases hk : k = n
    · subst hk; simp [h]
    · cases m.nodes[k]? <;> simp [hk]
  | some nd =>
    simp only
    by_cases hk : k = n
    · subst hk
      rw [List.getElem?_set_self (lt_of_getElem?_eq_some _ _ _ h), h]; simp
    · rw [List.getElem?_set_ne (Ne.symm hk)]
      cases m.nodes[k]? <;> simp [hk]

theorem storeValue_nextOf (m : Mem K V) (n : Nat) (v : Option (Option V)) (k : Nat) :
    (m.storeValue n v).nextOf k = m.nextOf k := by
  unfold Mem.nextOf
  rw [storeValue_nodes]
  cases m.nodes[k]? with
  | none => rfl
  | some nd => by_cases hk : k = n <;> simp [hk]

theorem storeValue_keyOf (m : Mem K V) (n : Nat) (v : Option (Option V)) (k : Nat) :
    (m.storeValue n v).keyOf k = m.keyOf k := by
  unfold Mem.keyOf
  rw [storeValue_nodes]
  cases m.nodes[k]? with
  | none => rfl
  | some nd => by_cases hk : k = n <;> simp [hk]

theorem Path_storeValue {m : Mem K V} (n : Nat) (v : Option (Option V))
    {c : Nat} {l : List Nat} {o : Option Nat} (h : Path m c l o) :
    Path (m.storeValue n v) c l o := by
  induction h with
  | nil c o h1 => exact Path.nil _ _ (by rw [storeValue_cells]; exact h1)
  | cons c k nd l o h1 h2 _ ih =>
    by_cases hk : k = n
    · refine Path.cons _ _ { nd with value := { nd.value with value := v } } _ _
        (by rw [storeValue_cells]; exact h1) ?_ ih
      rw [storeValue_nodes, h2]; simp [hk]
    · refine Path.cons _ _ nd _ _ (by rw [storeValue_cells]; exact h1) ?_ ih
      rw [storeValue_nodes, h2]; simp [hk]

/-! ### Splitting and joining paths -/

theorem Path_append {m : Mem K V} {c : Nat} {A : List Nat} {n : Nat} (h : Path m c A (some n))
    {nd : node K V} (hn : m.nodes[n]? = some nd) {B : List Nat} {o : Option Nat}
    (hB : Path m nd.next B o) : Path m c (A ++ n :: B) o := by
  generalize ho : some n = oq at h
  induction h with
  | nil c o h1 => subst ho; exact Path.cons _ _ _ _ _ h1 hn hB
  | cons c k kd l o h1 h2 _ ih => exact Path.cons _ _ _ _ _ h1 h2 (ih ho)

theorem Path_split {m : Mem K V} : ∀ (A : List Nat) {c : Nat} {n : Nat} {B : List Nat}
    {o : Option Nat}, Path m c (A ++ n :: B) o →
    Path m c A (some n) ∧ ∃ nd, m.nodes[n]? = some nd ∧ Path m nd.next B o := by
  intro A
  induction A with
  | nil =>
    intro c n B o h
    cases h with
    | cons _ _ nd _ _ h1 h2 h3 => exact ⟨Path.nil _ _ h1, nd, h2, h3⟩
  | cons a A ih =>
    intro c n B o h
    cases h with
    | cons _ _ ad _ _ h1 h2 h3 =>
      obtain ⟨p1, nd, p2, p3⟩ := ih h3
      exact ⟨Path.cons _ _ _ _ _ h1 h2 p1, nd, p2, p3⟩

theorem Path_det {m : Mem K V} {c : Nat} {l : List Nat} {o : Option Nat} (h : Path m c l o) :
    ∀ {l2 : List Nat} {o2 : Option Nat}, Path m c l2 o2 → l.length = l2.length →
      l = l2 ∧ o = o2 := by
  induction h with
  | nil c o h1 =>
    intro l2 o2 h2 hl
    cases h2 with
    | nil _ _ h3 => rw [h1] at h3; simp at h3; exact ⟨rfl, h3⟩
    | cons _ _ _ _ _ _ _ _ => simp at hl
  | cons c n nd l o h1 h2 _ ih =>
    intro l2 o2 hp hl
    cases hp with
    | nil _ _ h3 => simp at hl
    | cons _ n2 nd2 l3 _ h3 h4 h5 =>
      rw [h1] at h3; simp at h3; subst h3
      rw [h2] at h4; simp at h4; subst h4
      obtain ⟨e1, e2⟩ := ih h5 (by simpa using hl)
      exact ⟨by rw [e1], e2⟩

theorem skipHit_append (m : Mem K V) : ∀ (A B : List Nat) (rv : hit),
    skipHit m rv (A ++ B) = skipHit m (skipHit m rv A) B := by
  intro A
  induction A with
  | nil => intro B rv; rfl
  | cons a A ih => intro B rv; simp only [List.cons_append, skipHit]; exact ih B _

theorem skipHit_snoc (m : Mem K V) (A : List Nat) (a : Nat) (rv : hit) :
    skipHit m rv (A ++ [a]) =
      { leftRef := (skipHit m rv A).ref, leftNode := (skipHit m rv A).node,
        ref := some (m.nextOf a), node := nodeRef.node m (m.nextOf a),
        rightRef := none, rightNode := none } := by
  rw [skipHit_append]; rfl

/-- Along a path, the hit keeps pointing to the cell that is read next. -/
theorem skipHit_path {m : Mem K V} {c : Nat} {l : List Nat} {o : Option Nat}
    (h : Path m c l o) : ∀ (rv : hit), rv.ref = some c → rv.node = nodeRef.node m c →
    ∃ c2, (skipHit m rv l).ref = some c2 ∧ (skipHit m rv l).node = o ∧
      m.cells[c2]? = some o := by
  induction h with
  | nil c o h1 =>
    intro rv hr hn
    exact ⟨c, hr, by show rv.node = o; rw [hn, node_eq_of_cells m c o h1], h1⟩
  | cons c n nd l o h1 h2 _ ih =>
    intro rv hr hn
    simp only [skipHit]
    rw [nextOf_of_some m n nd h2]
    exact ih _ rfl rfl

theorem skipHit_node {m : Mem K V} {c : Nat} {l : List Nat} {o : Option Nat}
    (h : Path m c l o) (rv : hit) (hr : rv.ref = some c) (hn : rv.node = nodeRef.node m c) :
    (skipHit m rv l).node = o := by
  obtain ⟨_, _, h2, _⟩ := skipHit_path h rv hr hn
  exact h2

/-- The comparator `entry.Compare` is negative exactly when the sort key of the receiver is
the smaller one. -/
theorem Compare_neg (a b : entry K V) : a.Compare b < 0 ↔ a.hashKey < b.hashKey := by
  unfold entry.Compare
  by_cases h1 : a.hashKey > b.hashKey
  · rw [if_pos h1]
    constructor
    · intro h; exact absurd h (by decide)
    · intro h; omega
  · rw [if_neg h1]
    by_cases h2 : a.hashKey < b.hashKey
    · rw [if_pos h2]
      exact ⟨fun _ => h2, fun _ => by decide⟩
    · rw [if_neg h2]
      exact ⟨fun h => absurd h (by decide), fun h => absurd h h2⟩

/-- The comparator `entry.Compare` is zero exactly when the sort keys are equal. -/
theorem Compare_zero (a b : entry K V) : a.Compare b = 0 ↔ a.hashKey = b.hashKey := by
  unfold entry.Compare
  by_cases h1 : a.hashKey > b.hashKey
  · rw [if_pos h1]
    constructor
    · intro h; exact absurd h (by decide)
    · intro h; omega
  · rw [if_neg h1]
    by_cases h2 : a.hashKey < b.hashKey
    · rw [if_pos h2]
      constructor
      · intro h; exact absurd h (by decide)
      · intro h; omega
    · rw [if_neg h2]
      exact ⟨fun _ => by omega, fun _ => rfl⟩

theorem searchLoop_skip {m : Mem K V} (pe : entry K V) {c : Nat} {l : List Nat}
    {o : Option Nat} (h : Path m c l o) : ∀ (rv : hit) (fuel : Nat),
    rv.node = nodeRef.node m c → (∀ n ∈ l, m.keyOf n < pe.hashKey) →
    nodeRef.searchLoop m pe (fuel + l.length) rv = nodeRef.searchLoop m pe fuel (skipHit m rv l) := by
  induction h with
  | nil c o h1 => intro rv fuel _ _; rfl
  | cons c n nd l o h1 h2 _ ih =>
    intro rv fuel hn hk
    have hlen : fuel + (n :: l).length = (fuel + l.length) + 1 := by simp; omega
    rw [hlen, nodeRef.searchLoop]
    have hnode : rv.node = some n := by rw [hn, node_eq_of_cells m c _ h1]
    have hkey : nd.value.hashKey < pe.hashKey := by
      have := hk n (by simp); rwa [keyOf_of_some m n nd h2] at this
    simp only [hnode, h2]
    rw [if_neg (by rw [Compare_neg]; omega), if_neg (by rw [Compare_zero]; omega)]
    simp only [skipHit]
    rw [nextOf_of_some m n nd h2, ← hnode]
    exact ih _ fuel rfl (fun y hy => hk y (List.mem_cons_of_mem _ hy))

theorem searchLoop_stop_nil {m : Mem K V} (pe : entry K V) (fuel : Nat) (rv : hit)
    (h : rv.node = none) : nodeRef.searchLoop m pe (fuel + 1) rv = some rv := by
  rw [nodeRef.searchLoop]; simp [h]

theorem searchLoop_stop_gt {m : Mem K V} (pe : entry K V) (fuel : Nat) (rv : hit) (y : Nat)
    (nd : node K V) (h : rv.node = some y) (hy : m.nodes[y]? = some nd)
    (hk : pe.hashKey < nd.value.hashKey) :
    nodeRef.searchLoop m pe (fuel + 1) rv =
      some { rv with rightRef := rv.ref, rightNode := rv.node, ref := none, node := none } := by
  rw [nodeRef.searchLoop]
  simp only [h, hy]
  rw [if_pos ((Compare_neg pe nd.value).2 hk)]

theorem searchLoop_stop_eq {m : Mem K V} (pe : entry K V) (fuel : Nat) (rv : hit) (y : Nat)
    (nd : node K V) (h : rv.node = some y) (hy : m.nodes[y]? = some nd)
    (hk : pe.hashKey = nd.value.hashKey) :
    nodeRef.searchLoop m pe (fuel + 1) rv =
      some { rv with rightRef := some nd.next, rightNode := nodeRef.node m nd.next } := by
  rw [nodeRef.searchLoop]
  simp only [h, hy]
  rw [if_neg (by rw [Compare_neg]; omega), if_pos ((Compare_zero pe nd.value).2 hk)]

theorem hashHit_skip (H : Hashable K) {m : Mem K V} (cmp : entry K V) {c : Nat} {l : List Nat}
    {o : Option Nat} (h : Path m c l o) : ∀ (rv : hit) (fuel : Nat),
    rv.node = nodeRef.node m c → (∀ n ∈ l, m.tiedOther H cmp n) →
    hashHit.searchLoop H m cmp (fuel + l.length) rv =
      hashHit.searchLoop H m cmp fuel (skipHit m rv l) := by
  induction h with
  | nil c o h1 => intro rv fuel _ _; rfl
  | cons c n nd l o h1 h2 _ ih =>
    intro rv fuel hn hk
    have hlen : fuel + (n :: l).length = (fuel + l.length) + 1 := by simp; omega
    rw [hlen, hashHit.searchLoop]
    have hnode : rv.node = some n := by rw [hn, node_eq_of_cells m c _ h1]
    obtain ⟨nd2, ck, ek, e1, e2, e3, e4, e5, e6⟩ := hk n (by simp)
    rw [h2] at e1
    simp only [Option.some.injEq] at e1
    subst e1
    simp only [hnode, h2, e2, e3, e4, e5, e6]
    simp only [skipHit]
    rw [nextOf_of_some m n nd h2, ← hnode]
    simpa using ih _ fuel rfl (fun y hy => hk y (List.mem_cons_of_mem _ hy))

theorem hashHit_stop_nil (H : Hashable K) {m : Mem K V} (cmp : entry K V) (fuel : Nat)
    (rv : hit) (h : rv.node = none) :
    hashHit.searchLoop H m cmp (fuel + 1) rv = some rv := by
  rw [hashHit.searchLoop]; simp [h]

theorem hashHit_stop_other (H : Hashable K) {m : Mem K V} (cmp : entry K V) (fuel : Nat)
    (rv : hit) (y : Nat) (nd : node K V) (h : rv.node = some y) (hy : m.nodes[y]? = some nd)
    (hk : nd.value.real = false ∨ nd.value.hashCode ≠ cmp.hashCode) :
    hashHit.searchLoop H m cmp (fuel + 1) rv =
      some { rv with rightRef := rv.ref, rightNode := rv.node, ref := none, node := none } := by
  rw [hashHit.searchLoop]
  simp only [h, hy]
  rcases hk with hk | hk
  · simp [hk]
  · simp [hk]

theorem hashHit_stop_found (H : Hashable K) {m : Mem K V} (cmp : entry K V) (fuel : Nat)
    (rv : hit) (y : Nat) (nd : node K V) (ck ek : K) (h : rv.node = some y)
    (hy : m.nodes[y]? = some nd) (hr : nd.value.real = true)
    (hc : nd.value.hashCode = cmp.hashCode) (hck : cmp.key = some ck)
    (hek : nd.value.key = some ek) (heq : H.Equals ck ek = true) :
    hashHit.searchLoop H m cmp (fuel + 1) rv = some rv := by
  rw [hashHit.searchLoop]
  simp [h, hy, hr, hc, hck, hek, heq]

/-! ### Entries -/

theorem newRealEntry_hashKey (H : Hashable K) (k : K) (v : Option V) :
    (newRealEntry H k v).hashKey = realKey (H.HashCode k % U32) := rfl

theorem newMockEntry_hashKey (b : Nat) :
    (newMockEntry b : entry K V).hashKey = sentinelKey b := rfl

theorem real_iff (e : entry K V) : e.real = true ↔ e.hashKey % 2 = 1 := by
  unfold entry.real
  rw [Nat.and_one_is_mod]
  simp

theorem newRealEntry_real (H : Hashable K) (k : K) (v : Option V) :
    (newRealEntry H k v).real = true := by
  rw [real_iff, newRealEntry_hashKey]; exact realKey_odd _

theorem newMockEntry_real (b : Nat) : (newMockEntry b : entry K V).real = false := by
  have h := sentinelKey_even b
  cases hr : (newMockEntry b : entry K V).real with
  | false => rfl
  | true => rw [real_iff, newMockEntry_hashKey] at hr; omega

theorem entView_mock (b : Nat) : entView (newMockEntry b : entry K V) = none := by
  unfold entView; rw [newMockEntry_real]; rfl

theorem entView_real (H : Hashable K) (k : K) (v : V) :
    entView (newRealEntry H k (some v)) = some (k, v) := by
  unfold entView; rw [newRealEntry_real]; rfl

theorem threshold_eq (h : Hash) (hl : h.loadFactor = (1, 2)) (he : h.exponent ≤ 31) :
    h.threshold = ((2 ^ h.exponent / 2 : Nat) : Int) := by
  unfold Hash.threshold U32
  rw [hl]
  simp only [Nat.one_mul]
  rw [Nat.mod_eq_of_lt (Nat.pow_lt_pow_right (by norm_num) (by omega))]

theorem slot_of_lt (h : Hash) (hd : DirOK h) (i j : Nat) (o : Option Nat)
    (hs : h.slot i j = some o) : i ≤ h.exponent ∨ False := by
  left
  by_contra hc
  obtain ⟨_, hlen, hk⟩ := hd
  unfold Hash.slot at hs
  by_cases hi : i < 32
  · rw [(hk i hi).2 (by omega)] at hs; simp at hs
  · rw [List.getElem?_eq_none (by omega)] at hs; simp at hs

/-- A published or nil slot of bucket `b` lies in a published array, so `b` is below
`2 ^ exponent`. -/
theorem lt_of_slotOf (h : Hash) (hd : DirOK h) (b : Nat) (hb : b < 2 ^ 32) (o : Option Nat)
    (hs : h.slotOf b = some o) : b < 2 ^ h.exponent := by
  unfold Hash.slotOf at hs
  have h1 : (getBucketIndices b).1 ≤ h.exponent := by
    rcases slot_of_lt h hd _ _ o hs with h1 | h1
    · exact h1
    · exact absurd h1 id
  rcases Nat.eq_zero_or_pos b with h0 | h0
  · subst h0; exact Nat.two_pow_pos _
  · rw [getBucketIndices_pos b h0] at h1
    simp only at h1
    have s := log2_spec b h0 hb
    calc b < 2 ^ (log2 b + 1) := s.2
      _ ≤ 2 ^ h.exponent := Nat.pow_le_pow_right (by norm_num) h1

theorem grow_spec (h h2 : Hash) (hd : DirOK h) (hg : h.grow = some h2) :
    h.exponent < 31 ∧ h2.exponent = h.exponent + 1 ∧ h2.size = h.size ∧ HExt h h2 ∧
    ∀ i j c, h.slot i j = some (some c) → h2.slot i j = some (some c) := by
  obtain ⟨he, hlen, hk⟩ := hd
  unfold Hash.grow at hg
  have hmod : (h.exponent + 1) % U32 = h.exponent + 1 := by
    unfold U32; exact Nat.mod_eq_of_lt (by omega)
  simp only [hmod] at hg
  by_cases h31 : h.exponent < 31
  · have hnil := (hk (h.exponent + 1) (by omega)).2 (by omega)
    rw [hnil] at hg
    simp only [Option.some.injEq] at hg
    have hg2 : h2 = h.grown := hg.symm
    subst hg2
    have hset : ∀ k, k ≠ h.exponent + 1 → h.grown.buckets[k]? = h.buckets[k]? :=
      fun k hk1 => List.getElem?_set_ne (Ne.symm hk1)
    have hself : h.grown.buckets[h.exponent + 1]? =
        some (some (List.replicate (2 ^ h.exponent) none)) :=
      List.getElem?_set_self (by omega)
    have hslot : ∀ i j o, i ≤ h.exponent → (h.grown.slot i j = o ↔ h.slot i j = o) := by
      intro i j o hi
      unfold Hash.slot
      rw [hset i (by omega)]
    have hdir : DirOK h.grown := by
      refine ⟨by show h.exponent + 1 ≤ 31; omega, by simp [Hash.grown, hlen], ?_⟩
      intro k hk32
      by_cases hke : k = h.exponent + 1
      · subst hke
        rw [hself]
        exact ⟨fun _ => ⟨_, rfl, by simp⟩, fun hc => absurd hc (by show ¬ h.exponent + 1 < h.exponent + 1; omega)⟩
      · rw [hset k hke]
        exact ⟨fun hle => (hk k hk32).1 (by have : k ≤ h.exponent + 1 := hle; omega),
          fun hlt => (hk k hk32).2 (by have : h.exponent + 1 < k := hlt; omega)⟩
    refine ⟨h31, rfl, rfl, ⟨hdir, rfl, by show h.exponent ≤ h.exponent + 1; omega, ?_, ?_⟩, ?_⟩
    · unfold Hash.slotOf
      rw [getBucketIndices_zero]
      exact (hslot 0 0 _ (by omega)).2 rfl
    · intro b c hb hs
      have hb : b < 2 ^ (h.exponent + 1) := hb
      have hb32 : b < 2 ^ 32 := lt_of_lt_of_le hb (Nat.pow_le_pow_right (by norm_num) (by omega))
      unfold Hash.slotOf at hs
      by_cases hi : (getBucketIndices b).1 ≤ h.exponent
      · have hs2 := (hslot _ _ _ hi).1 hs
        exact ⟨lt_of_slotOf h ⟨he, hlen, hk⟩ b hb32 _ hs2, hs2⟩
      · exfalso
        have hi2 := (getBucketIndices_bound b (h.exponent + 1) (by omega) hb).1
        have hieq : (getBucketIndices b).1 = h.exponent + 1 := by omega
        unfold Hash.slot at hs
        rw [hieq, hself] at hs
        simp only at hs
        rw [List.getElem?_replicate] at hs
        split at hs <;> simp at hs
    · intro i j c hs
      have hi : i ≤ h.exponent := by
        rcases slot_of_lt h ⟨he, hlen, hk⟩ _ _ _ hs with h1 | h1
        · exact h1
        · exact absurd h1 id
      exact (hslot i j _ hi).2 hs
  · have he31 : h.exponent = 31 := by omega
    rw [he31] at hg
    rw [List.getElem?_eq_none (by omega)] at hg
    simp at hg

theorem HExt_refl_size (h : Hash) (hd : DirOK h) (s : Int) : HExt h { h with size := s } :=
  ⟨hd, rfl, le_refl _, rfl, fun _ _ hb hs => ⟨hb, hs⟩⟩

/-- The header after `addSize(1)`: one more entry, possibly one more generation, and the
load bound holds again. -/
theorem addSize_one_spec (h h2 : Hash) (hd : DirOK h) (hl : h.loadFactor = (1, 2))
    (hload : h.size ≤ h.threshold) (ha : h.addSize 1 = some h2) :
    HExt h h2 ∧ h2.size = h.size + 1 ∧ h2.size ≤ h2.threshold ∧
    h2.exponent ≤ h.exponent + 1 := by
  unfold Hash.addSize at ha
  simp only at ha
  have hd1 : DirOK { h with size := h.size + 1 } := hd
  by_cases hgt : (h.size + 1 : Int) > Hash.threshold { h with size := h.size + 1 }
  · rw [if_pos hgt] at ha
    obtain ⟨h31, hexp, hsz, hext, _⟩ := grow_spec _ h2 hd1 ha
    simp only at hexp hsz h31
    refine ⟨?_, hsz, ?_, by omega⟩
    · obtain ⟨a1, a2, a3, a4, a5⟩ := hext
      exact ⟨a1, a2, a3, a4, a5⟩
    · obtain ⟨a1, a2, a3, a4, a5⟩ := hext
      rw [threshold_eq h2 (by rw [a2]; exact hl) a1.1, hsz, hexp]
      rw [threshold_eq h hl hd.1] at hload
      have hp : 2 ^ (h.exponent + 1) / 2 = 2 ^ h.exponent := by
        rw [Nat.pow_succ, Nat.mul_div_cancel _ (by norm_num)]
      rw [hp]
      have h2e : 2 ^ h.exponent / 2 + 1 ≤ 2 ^ h.exponent := by
        rcases Nat.eq_zero_or_pos h.exponent with h0 | h0
        · rw [h0]; norm_num
        · obtain ⟨e, he⟩ : ∃ e, h.exponent = e + 1 := ⟨h.exponent - 1, by omega⟩
          rw [he, Nat.pow_succ, Nat.mul_div_cancel _ (by norm_num)]
          have := Nat.two_pow_pos e
          omega
      have : (h.size + 1 : Int) ≤ ((2 ^ h.exponent / 2 + 1 : Nat) : Int) := by
        simp only [Nat.cast_add, Nat.cast_one]; omega
      exact le_trans this (by exact_mod_cast h2e)
  · rw [if_neg hgt] at ha
    simp only [Option.some.injEq] at ha
    subst ha
    refine ⟨HExt_refl_size h hd _, rfl, ?_, by simp⟩
    exact not_lt.1 hgt

/-- The header after `addSize(-1)` under the load bound: no grow. -/
theorem addSize_neg_spec (h : Hash) (hload : h.size ≤ h.threshold) :
    h.addSize (-1) = some { h with size := h.size - 1 } := by
  unfold Hash.addSize
  simp only
  have ht : Hash.threshold { h with size := h.size + -1 } = h.threshold := rfl
  rw [if_neg (by rw [ht]; omega)]
  rfl

theorem ins_nodes_cases (m : Mem K V) (x : Nat) (e : entry K V) (r : Option Nat) (n : Nat)
    (nd : node K V) (h : (m.ins x e r).nodes[n]? = some nd) :
    m.nodes[n]? = some nd ∨ (n = m.nodes.length ∧ nd = { value := e, next := m.cells.length }) := by
  by_cases hn : n < m.nodes.length
  · left; rw [← ins_nodes_old m x e r n hn]; exact h
  · right
    have hlt := lt_of_getElem?_eq_some _ _ _ h
    have hlen : (m.ins x e r).nodes.length = m.nodes.length + 1 := by simp [Mem.ins]
    have hn2 : n = m.nodes.length := by omega
    subst hn2
    rw [ins_nodes_new] at h
    simp only [Option.some.injEq] at h
    exact ⟨rfl, h.symm⟩

theorem ins_cells_length (m : Mem K V) (x : Nat) (e : entry K V) (r : Option Nat) :
    (m.ins x e r).cells.length = m.cells.length + 1 := by simp [Mem.ins]

theorem ins_keyOf_old (m : Mem K V) (x : Nat) (e : entry K V) (r : Option Nat) (n : Nat)
    (hn : n < m.nodes.length) : (m.ins x e r).keyOf n = m.keyOf n := by
  unfold Mem.keyOf; rw [ins_nodes_old m x e r n hn]

theorem ins_viewOf_old (m : Mem K V) (x : Nat) (e : entry K V) (r : Option Nat) (n : Nat)
    (hn : n < m.nodes.length) : (m.ins x e r).viewOf n = m.viewOf n := by
  unfold Mem.viewOf; rw [ins_nodes_old m x e r n hn]

theorem ins_viewOf_new (m : Mem K V) (x : Nat) (e : entry K V) (r : Option Nat) :
    (m.ins x e r).viewOf m.nodes.length = entView e := by
  unfold Mem.viewOf; rw [ins_nodes_new]

theorem ins_keyOf_new (m : Mem K V) (x : Nat) (e : entry K V) (r : Option Nat) :
    (m.ins x e r).keyOf m.nodes.length = e.hashKey := by
  unfold Mem.keyOf; rw [ins_nodes_new]

theorem view_congr (m m2 : Mem K V) (l : List Nat) (h : ∀ n ∈ l, m2.viewOf n = m.viewOf n) :
    m2.view l = m.view l := by
  unfold Mem.view
  induction l with
  | nil => rfl
  | cons a l ih =>
    simp only [List.filterMap_cons]
    rw [h a (by simp), ih (fun n hn => h n (List.mem_cons_of_mem _ hn))]

theorem view_append (m : Mem K V) (l1 l2 : List Nat) :
    m.view (l1 ++ l2) = m.view l1 ++ m.view l2 := by
  unfold Mem.view; exact List.filterMap_append _ _ _

theorem view_cons (m : Mem K V) (n : Nat) (l : List Nat) :
    m.view (n :: l) = (m.viewOf n).toList ++ m.view l := by
  unfold Mem.view
  rw [List.filterMap_cons]
  cases m.viewOf n <;> rfl

theorem EntryOK_mono (H : Hashable K) (e : entry K V) (a b : Nat) (hab : a ≤ b)
    (h : EntryOK H e a) : EntryOK H e b := by
  rcases h with h | ⟨i, hi, he⟩
  · exact Or.inl h
  · exact Or.inr ⟨i, lt_of_lt_of_le hi (Nat.pow_le_pow_right (by norm_num) hab), he⟩

theorem Path_cell_head {m : Mem K V} {c : Nat} {l : List Nat} (h : Path m c l none) :
    m.cells[c]? = some l.head? := by
  cases h with
  | nil _ _ h1 => exact h1
  | cons _ _ _ _ _ h1 _ _ => exact h1

theorem Path_front {m : Mem K V} {c : Nat} (X Y : List Nat) (h : Path m c (X ++ Y) none) :
    Path m c X Y.head? := by
  cases Y with
  | nil => simpa using h
  | cons y Y => exact (Path_split X h).1

theorem Good.node_of_mem {H : Hashable K} {t : Table K V} {L : List Nat} {c0 : Nat}
    (hg : Good H t L c0) {n : Nat} (hn : n ∈ L) : ∃ nd, t.mem.nodes[n]? = some nd := by
  obtain ⟨nd, h, _⟩ := hg.entries n hn
  exact ⟨nd, h⟩

theorem Good.lt_of_mem {H : Hashable K} {t : Table K V} {L : List Nat} {c0 : Nat}
    (hg : Good H t L c0) {n : Nat} (hn : n ∈ L) : n < t.mem.nodes.length := by
  obtain ⟨nd, h⟩ := hg.node_of_mem hn
  exact lt_of_getElem?_eq_some _ _ _ h

/-- Distinct nodes of the list have distinct `next` cells. -/
theorem Good.nextOf_ne {H : Hashable K} {t : Table K V} {L : List Nat} {c0 : Nat}
    (hg : Good H t L c0) {a b : Nat} (ha : a ∈ L) (hb : b ∈ L) (hab : a ≠ b) :
    t.mem.nextOf a ≠ t.mem.nextOf b := by
  obtain ⟨na, h1⟩ := hg.node_of_mem ha
  obtain ⟨nb, h2⟩ := hg.node_of_mem hb
  rw [nextOf_of_some _ _ _ h1, nextOf_of_some _ _ _ h2]
  intro h
  exact hab (hg.next_inj a b na nb h1 h2 h)

theorem Good.head_ne_nextOf {H : Hashable K} {t : Table K V} {L : List Nat} {c0 : Nat}
    (hg : Good H t L c0) {a : Nat} (ha : a ∈ L) : c0 ≠ t.mem.nextOf a := by
  obtain ⟨na, h1⟩ := hg.node_of_mem ha
  rw [nextOf_of_some _ _ _ h1]
  exact fun h => hg.head_ne a na h1 h.symm

theorem Rel_ins_old (H : Hashable K) (m : Mem K V) (x : Nat) (e : entry K V) (r : Option Nat)
    (a b : Nat) (ha : a < m.nodes.length) (hb : b < m.nodes.length) (h : m.Rel H a b) :
    (m.ins x e r).Rel H a b := by
  intro na nb h1 h2
  rw [ins_nodes_old m x e r a ha] at h1
  rw [ins_nodes_old m x e r b hb] at h2
  exact h na nb h1 h2

theorem mem_ins_list (A B : List Nat) (left N n : Nat) :
    n ∈ A ++ left :: N :: B ↔ n = N ∨ n ∈ A ++ left :: B := by
  simp only [List.mem_append, List.mem_cons]
  tauto

/-- The invariant after a node is inserted behind `left`, with the header `h2`. -/
theorem Good_ins (H : Hashable K) {t : Table K V} {L : List Nat} {c0 : Nat}
    (hg : Good H t L c0) (A B : List Nat) (left : Nat) (hL : L = A ++ left :: B)
    (e : entry K V) (h2 : Hash) (hext : HExt t.h h2)
    (he : EntryOK H e h2.exponent)
    (hA : ∀ a ∈ A ++ [left], ∀ na, t.mem.nodes[a]? = some na → entRel H na.value e)
    (hB : ∀ b ∈ B, ∀ nb, t.mem.nodes[b]? = some nb →
      entRel H e nb.value ∧ e.hashKey < nb.value.hashKey)
    (hsize : h2.size = t.h.size + ((entView e).toList.length : Int))
    (hload : h2.size ≤ h2.threshold) :
    Good H { mem := t.mem.ins (t.mem.nextOf left) e B.head?, h := h2 }
      (A ++ left :: t.mem.nodes.length :: B) c0 ∧
    (t.mem.ins (t.mem.nextOf left) e B.head?).view (A ++ left :: t.mem.nodes.length :: B) =
      t.mem.view (A ++ [left]) ++ (entView e).toList ++ t.mem.view B := by
  subst hL
  obtain ⟨hd2, hlf2, hexp, hs0, hslots⟩ := hext
  have hleft : left ∈ A ++ left :: B := by simp
  obtain ⟨ld, hld⟩ := hg.node_of_mem hleft
  have hx : t.mem.nextOf left = ld.next := nextOf_of_some _ _ _ hld
  have hxlt : ld.next < t.mem.cells.length := hg.next_lt left ld hld
  obtain ⟨_, nd2, hnd2, hpB⟩ := Path_split A hg.chain
  rw [hld] at hnd2
  simp only [Option.some.injEq] at hnd2
  subst hnd2
  have hcell : t.mem.cells[t.mem.nextOf left]? = some B.head? := by
    rw [hx]; exact Path_cell_head hpB
  have hnd := hg.nodup
  have hnotA : left ∉ A := by
    intro hc
    have := (List.nodup_append.1 hnd).2.2
    exact this hc (by simp)
  have hnotB : left ∉ B := by
    have := (List.nodup_append.1 hnd).2.1
    exact (List.nodup_cons.1 this).1
  have holdlt : ∀ n ∈ A ++ left :: B, n < t.mem.nodes.length := fun n hn => hg.lt_of_mem hn
  have hNnot : t.mem.nodes.length ∉ A ++ left :: B := fun hc => by
    have := holdlt _ hc; omega
  have hview : (t.mem.ins (t.mem.nextOf left) e B.head?).view
        (A ++ left :: t.mem.nodes.length :: B) =
      t.mem.view (A ++ [left]) ++ (entView e).toList ++ t.mem.view B := by
    have e1 : A ++ left :: t.mem.nodes.length :: B =
        (A ++ [left]) ++ (t.mem.nodes.length :: B) := by simp
    rw [e1, view_append, view_cons, ins_viewOf_new]
    rw [view_congr t.mem _ (A ++ [left]) (fun n hn => ins_viewOf_old _ _ _ _ n
      (holdlt n (by
        rcases List.mem_append.1 hn with h | h
        · simp [h]
        · simp at h; simp [h])))]
    rw [view_congr t.mem _ B (fun n hn => ins_viewOf_old _ _ _ _ n (holdlt n (by simp [hn])))]
    simp
  refine ⟨?_, hview⟩
  refine
    { dir := hd2
      lf := by rw [hlf2]; exact hg.lf
      next_lt := ?_
      next_inj := ?_
      head_slot := by rw [hs0]; exact hg.head_slot
      head_ne := ?_
      chain := ?_
      nodup := ?_
      first := ?_
      entries := ?_
      sorted := ?_
      anchors := ?_
      size := ?_
      load := hload }
  · intro n nd h
    show nd.next < (t.mem.ins (t.mem.nextOf left) e B.head?).cells.length
    rw [ins_cells_length]
    rcases ins_nodes_cases _ _ _ _ _ _ h with h | ⟨_, h⟩
    · have := hg.next_lt n nd h; omega
    · rw [h]; simp
  · intro n1 n2 nd1 nd2 h1 h2 hnext
    rcases ins_nodes_cases _ _ _ _ _ _ h1 with h1 | ⟨e1, h1⟩
    · rcases ins_nodes_cases _ _ _ _ _ _ h2 with h2 | ⟨e2, h2⟩
      · exact hg.next_inj n1 n2 nd1 nd2 h1 h2 hnext
      · have := hg.next_lt n1 nd1 h1
        rw [h2] at hnext; simp at hnext; omega
    · rcases ins_nodes_cases _ _ _ _ _ _ h2 with h2 | ⟨e2, h2⟩
      · have := hg.next_lt n2 nd2 h2
        rw [h1] at hnext; simp at hnext; omega
      · rw [e1, e2]
  · intro n nd h
    rcases ins_nodes_cases _ _ _ _ _ _ h with h | ⟨_, h⟩
    · exact hg.head_ne n nd h
    · rw [h]
      have := hg.chain.cell_lt
      simp only
      omega
  · have hp := Path_ins (t.mem.nextOf left) e B.head? hcell hg.chain
    rw [insList_after t.mem.nodes.length left A B c0 (hg.head_ne_nextOf hleft)] at hp
    · exact hp
    · intro n hn
      have hnL : n ∈ A ++ left :: B := by
        rcases List.mem_append.1 hn with h | h
        · simp [h]
        · simp [h]
      have hne : n ≠ left := by
        rcases List.mem_append.1 hn with h | h
        · exact fun hc => hnotA (hc ▸ h)
        · exact fun hc => hnotB (hc ▸ h)
      exact hg.nextOf_ne hnL hleft hne
  · have hperm : (A ++ left :: t.mem.nodes.length :: B).Perm
        (t.mem.nodes.length :: (A ++ left :: B)) := by
      have e1 : A ++ left :: t.mem.nodes.length :: B =
          (A ++ [left]) ++ (t.mem.nodes.length :: B) := by simp
      have e2 : A ++ left :: B = (A ++ [left]) ++ B := by simp
      rw [e1, e2]
      exact List.perm_middle
    rw [hperm.nodup_iff]
    exact List.nodup_cons.2 ⟨hNnot, hnd⟩
  · obtain ⟨n0, rest, nd0, h1, h2, h3⟩ := hg.first
    cases A with
    | nil =>
      simp only [List.nil_append, List.cons.injEq] at h1
      obtain ⟨h1a, _⟩ := h1
      subst h1a
      exact ⟨left, _, nd0, rfl, ins_nodes_of_some _ _ _ _ _ _ h2, h3⟩
    | cons a A =>
      simp only [List.cons_append, List.cons.injEq] at h1
      obtain ⟨h1a, _⟩ := h1
      subst h1a
      exact ⟨a, _, nd0, rfl, ins_nodes_of_some _ _ _ _ _ _ h2, h3⟩
  · intro n hn
    rcases (mem_ins_list A B left _ n).1 hn with h | h
    · subst h
      exact ⟨_, ins_nodes_new _ _ _ _, he⟩
    · obtain ⟨nd, h1, h2⟩ := hg.entries n h
      exact ⟨nd, ins_nodes_of_some _ _ _ _ _ _ h1, EntryOK_mono H _ _ _ hexp h2⟩
  · have e1 : A ++ left :: t.mem.nodes.length :: B =
        (A ++ [left]) ++ (t.mem.nodes.length :: B) := by simp
    have e2 : A ++ left :: B = (A ++ [left]) ++ B := by simp
    have hs := hg.sorted
    rw [e2, List.pairwise_append] at hs
    obtain ⟨s1, s2, s3⟩ := hs
    have holdA : ∀ a ∈ A ++ [left], a < t.mem.nodes.length := fun a ha => holdlt a (by
      rw [e2]; exact List.mem_append_left _ ha)
    have holdB : ∀ b ∈ B, b < t.mem.nodes.length := fun b hb => holdlt b (by
      rw [e2]; exact List.mem_append_right _ hb)
    rw [e1, List.pairwise_append]
    refine ⟨?_, ?_, ?_⟩
    · exact s1.imp_of_mem (fun {a b} ha hb h => Rel_ins_old H _ _ _ _ a b (holdA a ha) (holdA b hb) h)
    · rw [List.pairwise_cons]
      refine ⟨?_, s2.imp_of_mem (fun {a b} ha hb h =>
        Rel_ins_old H _ _ _ _ a b (holdB a ha) (holdB b hb) h)⟩
      intro b hb na nb h1 h2
      rw [ins_nodes_new] at h1
      simp only [Option.some.injEq] at h1
      subst h1
      rw [ins_nodes_old _ _ _ _ b (holdB b hb)] at h2
      exact (hB b hb nb h2).1
    · intro a ha b hb
      rcases List.mem_cons.1 hb with hbN | hbB
      · subst hbN
        intro na nb h1 h2
        rw [ins_nodes_new] at h2
        simp only [Option.some.injEq] at h2
        subst h2
        rw [ins_nodes_old _ _ _ _ a (holdA a ha)] at h1
        exact hA a ha na h1
      · exact Rel_ins_old H _ _ _ _ a b (holdA a ha) (holdB b hbB) (s3 a ha b hbB)
  · intro b c hb hs
    obtain ⟨hb1, hs1⟩ := hslots b c hb hs
    obtain ⟨pre, target, td, p1, p2, p3, p4, p5⟩ := hg.anchors b c hb1 hs1
    refine ⟨insList t.mem (t.mem.nextOf left) t.mem.nodes.length c pre, target, td,
      Path_ins _ e _ hcell p1, ?_, ins_nodes_of_some _ _ _ _ _ _ p3, p4, ?_⟩
    · exact (mem_ins_list A B left _ target).2 (Or.inr p2)
    · intro p hp
      have hprelt : ∀ n ∈ pre, n < t.mem.nodes.length := p1.node_lt
      rcases insList_mem _ _ p hp with h | h
      · rw [ins_keyOf_old _ _ _ _ p (hprelt p h)]
        exact p5 p h
      · subst h
        rw [ins_keyOf_new]
        have hN : ∀ n ∈ pre, n ≠ t.mem.nodes.length := fun n hn hc => by
          have := hprelt n hn; omega
        have hkey : ∀ y, B.head? = some y → e.hashKey < t.mem.keyOf y := by
          intro y hy
          have hyB : y ∈ B := List.mem_of_mem_head? hy
          obtain ⟨yd, hyd⟩ := hg.node_of_mem (show y ∈ A ++ left :: B by simp [hyB])
          rw [keyOf_of_some _ _ _ hyd]
          exact (hB y hyB yd hyd).2
        rcases insList_new_mem _ _ B.head? hcell p1 hN hp with h | ⟨n, hn, h⟩
        · have := hkey target h
          rw [keyOf_of_some _ _ _ p3, p4, newMockEntry_hashKey] at this
          exact this
        · exact lt_trans (hkey n h) (p5 n hn)
  · show h2.size = _
    rw [hsize, hview, hg.size]
    have e2 : A ++ left :: B = (A ++ [left]) ++ B := by simp
    rw [e2, view_append]
    simp only [List.length_append]
    push_cast
    ring

theorem EntryOK_real_view (H : Hashable K) (e : entry K V) (exp : Nat) (h : EntryOK H e exp)
    (hr : e.real = true) : ∃ k v, e = newRealEntry H k (some v) ∧ entView e = some (k, v) := by
  rcases h with ⟨k, v, he⟩ | ⟨b, _, he⟩
  · exact ⟨k, v, he, by rw [he]; exact entView_real H k v⟩
  · rw [he, newMockEntry_real] at hr; exact absurd hr (by simp)

/-- The invariant with an extended header and the same heap. -/
theorem Good_hext (H : Hashable K) {t : Table K V} {L : List Nat} {c0 : Nat}
    (hg : Good H t L c0) (h2 : Hash) (hext : HExt t.h h2) (hsize : h2.size = t.h.size)
    (hload : h2.size ≤ h2.threshold) : Good H { mem := t.mem, h := h2 } L c0 := by
  obtain ⟨hd2, hlf2, hexp, hs0, hslots⟩ := hext
  exact
    { dir := hd2
      lf := by rw [hlf2]; exact hg.lf
      next_lt := hg.next_lt
      next_inj := hg.next_inj
      head_slot := by rw [hs0]; exact hg.head_slot
      head_ne := hg.head_ne
      chain := hg.chain
      nodup := hg.nodup
      first := hg.first
      entries := fun n hn => by
        obtain ⟨nd, h1, h2⟩ := hg.entries n hn
        exact ⟨nd, h1, EntryOK_mono H _ _ _ hexp h2⟩
      sorted := hg.sorted
      anchors := fun b c hb hs => by
        obtain ⟨hb1, hs1⟩ := hslots b c hb hs
        exact hg.anchors b c hb1 hs1
      size := by rw [hsize]; exact hg.size
      load := hload }

/-- The invariant after a nil slot of bucket `b` is set to an anchor of `b`. -/
theorem Good_cas (H : Hashable K) {t : Table K V} {L : List Nat} {c0 : Nat}
    (hg : Good H t L c0) (b r : Nat) (hb : b < 2 ^ t.h.exponent)
    (ha : Anchor t.mem L r b) :
    Good H { mem := t.mem,
             h := t.h.casSlot (getBucketIndices b).1 (getBucketIndices b).2 r } L c0 := by
  have he := hg.dir.1
  have hb32 : b < 2 ^ 32 := lt_of_lt_of_le hb (Nat.pow_le_pow_right (by norm_num) (by omega))
  exact
    { dir := casSlot_DirOK _ _ _ _ hg.dir
      lf := by rw [casSlot_loadFactor]; exact hg.lf
      next_lt := hg.next_lt
      next_inj := hg.next_inj
      head_slot := by
        show (t.h.casSlot _ _ r).slotOf 0 = _
        rw [slotOf_casSlot t.h b r 0 hb32 (by norm_num)]
        by_cases h0 : 0 = b
        · subst h0
          rw [hg.head_slot]; simp
        · simp [h0, hg.head_slot]
      head_ne := hg.head_ne
      chain := hg.chain
      nodup := hg.nodup
      first := hg.first
      entries := fun n hn => by
        obtain ⟨nd, h1, h2⟩ := hg.entries n hn
        refine ⟨nd, h1, ?_⟩
        show EntryOK H nd.value (t.h.casSlot _ _ r).exponent
        rw [casSlot_exponent]; exact h2
      sorted := hg.sorted
      anchors := fun b2 c hb2 hs => by
        have hb2e : b2 < 2 ^ t.h.exponent := by
          have : b2 < 2 ^ (t.h.casSlot (getBucketIndices b).1 (getBucketIndices b).2 r).exponent :=
            hb2
          rwa [casSlot_exponent] at this
        have hb232 : b2 < 2 ^ 32 :=
          lt_of_lt_of_le hb2e (Nat.pow_le_pow_right (by norm_num) (by omega))
        have hs2 : (t.h.casSlot (getBucketIndices b).1 (getBucketIndices b).2 r).slotOf b2 =
            some (some c) := hs
        rw [slotOf_casSlot t.h b r b2 hb32 hb232] at hs2
        by_cases hc : b2 = b ∧ t.h.slotOf b = some none
        · rw [if_pos hc] at hs2
          simp only [Option.some.injEq] at hs2
          subst hs2
          rw [hc.1]; exact ha
        · rw [if_neg hc] at hs2
          exact hg.anchors b2 c hb2e hs2
      size := by
        show (t.h.casSlot _ _ r).size = _
        rw [casSlot_size]; exact hg.size
      load := by
        show (t.h.casSlot _ _ r).size ≤ (t.h.casSlot _ _ r).threshold
        have : (t.h.casSlot (getBucketIndices b).1 (getBucketIndices b).2 r).threshold =
            t.h.threshold := by
          unfold Hash.threshold
          rw [casSlot_loadFactor, casSlot_exponent]
        rw [this, casSlot_size]; exact hg.load }

/-- The invariant after the real node `D` behind `p` is unlinked and the size is
decremented. -/
theorem Good_pop (H : Hashable K) {t : Table K V} {L : List Nat} {c0 : Nat}
    (hg : Good H t L c0) (A B : List Nat) (p D : Nat) (hL : L = A ++ p :: D :: B)
    (dd : node K V) (hD : t.mem.nodes[D]? = some dd) (hreal : dd.value.real = true) :
    Good H { mem := t.mem.setCell (t.mem.nextOf p) (nodeRef.node t.mem dd.next),
             h := { t.h with size := t.h.size - 1 } } (A ++ p :: B) c0 ∧
    (t.mem.setCell (t.mem.nextOf p) (nodeRef.node t.mem dd.next)).view (A ++ p :: B) =
      t.mem.view (A ++ [p]) ++ t.mem.view B ∧
    ∃ k v, dd.value = newRealEntry H k (some v) ∧
      t.mem.view L = t.mem.view (A ++ [p]) ++ (k, v) :: t.mem.view B := by
  subst hL
  have hp : p ∈ A ++ p :: D :: B := by simp
  have hDm : D ∈ A ++ p :: D :: B := by simp
  obtain ⟨pd, hpd⟩ := hg.node_of_mem hp
  have hx : t.mem.nextOf p = pd.next := nextOf_of_some _ _ _ hpd
  obtain ⟨_, pd2, hpd2, hpB⟩ := Path_split A hg.chain
  rw [hpd] at hpd2
  simp only [Option.some.injEq] at hpd2
  subst hpd2
  have hcell : t.mem.cells[t.mem.nextOf p]? = some (some D) := by
    rw [hx]; exact Path_cell_head hpB
  have hpB2 : Path t.mem dd.next B none := by
    cases hpB with
    | cons _ _ nd _ _ h1 h2 h3 =>
      rw [hD] at h2
      simp only [Option.some.injEq] at h2
      subst h2
      exact h3
  have hv : nodeRef.node t.mem dd.next = B.head? :=
    node_eq_of_cells _ _ _ (Path_cell_head hpB2)
  have hvcell : ∀ nd, t.mem.nodes[D]? = some nd →
      t.mem.cells[nd.next]? = some (nodeRef.node t.mem dd.next) := by
    intro nd h
    rw [hD] at h
    simp only [Option.some.injEq] at h
    subst h
    rw [hv]; exact Path_cell_head hpB2
  have hnd := hg.nodup
  have hsub : (A ++ p :: B).Sublist (A ++ p :: D :: B) :=
    List.Sublist.append_left ((List.sublist_cons_self D B).cons₂ p) A
  obtain ⟨_, hdE, hdOK⟩ := hg.entries D hDm
  rw [hD] at hdE
  simp only [Option.some.injEq] at hdE
  subst hdE
  obtain ⟨k, v, hkv, hkview⟩ := EntryOK_real_view H _ _ hdOK hreal
  have hviewD : t.mem.viewOf D = some (k, v) := by
    unfold Mem.viewOf; rw [hD]; exact hkview
  have hviewL : t.mem.view (A ++ p :: D :: B) =
      t.mem.view (A ++ [p]) ++ (k, v) :: t.mem.view B := by
    have e1 : A ++ p :: D :: B = (A ++ [p]) ++ (D :: B) := by simp
    rw [e1, view_append, view_cons, hviewD]; rfl
  have hview2 : (t.mem.setCell (t.mem.nextOf p) (nodeRef.node t.mem dd.next)).view
      (A ++ p :: B) = t.mem.view (A ++ [p]) ++ t.mem.view B := by
    have e1 : A ++ p :: B = (A ++ [p]) ++ B := by simp
    rw [e1, ← view_append]
    rfl
  have hDnot : D ∉ A ++ p :: B := by
    intro hc
    have hperm : (A ++ p :: D :: B).Perm (D :: (A ++ p :: B)) := by
      have e1 : A ++ p :: D :: B = (A ++ [p]) ++ (D :: B) := by simp
      have e2 : A ++ p :: B = (A ++ [p]) ++ B := by simp
      rw [e1, e2]
      exact List.perm_middle
    have := (hperm.nodup_iff.1 hnd)
    exact (List.nodup_cons.1 this).1 hc
  have hpnotA : p ∉ A := by
    intro hc
    have := (List.nodup_append.1 hnd).2.2
    exact this hc (by simp)
  have hpnotB : p ∉ B := by
    have h1 := (List.nodup_append.1 hnd).2.1
    have h2 := (List.nodup_cons.1 h1).1
    exact fun hc => h2 (by simp [hc])
  refine ⟨?_, hview2, k, v, hkv, hviewL⟩
  refine
    { dir := hg.dir
      lf := hg.lf
      next_lt := ?_
      next_inj := hg.next_inj
      head_slot := hg.head_slot
      head_ne := hg.head_ne
      chain := ?_
      nodup := hnd.sublist hsub
      first := ?_
      entries := fun n hn => hg.entries n (hsub.subset hn)
      sorted := hg.sorted.sublist hsub
      anchors := ?_
      size := ?_
      load := ?_ }
  · intro n nd h
    have := hg.next_lt n nd h
    show nd.next < (t.mem.setCell _ _).cells.length
    simp only [Mem.setCell, List.length_set]
    exact this
  · have hpp := Path_pop (t.mem.nextOf p) D (nodeRef.node t.mem dd.next) hcell hg.chain
      (by simp) hvcell
    rw [popList_after p D A B c0 (hg.head_ne_nextOf hp)] at hpp
    · exact hpp
    · intro n hn
      have hnL : n ∈ A ++ p :: D :: B := by
        rcases List.mem_append.1 hn with h | h
        · simp [h]
        · simp [h]
      have hne : n ≠ p := by
        rcases List.mem_append.1 hn with h | h
        · exact fun hc => hpnotA (hc ▸ h)
        · exact fun hc => hpnotB (hc ▸ h)
      exact hg.nextOf_ne hnL hp hne
  · obtain ⟨n0, rest, nd0, h1, h2, h3⟩ := hg.first
    cases A with
    | nil =>
      simp only [List.nil_append, List.cons.injEq] at h1
      obtain ⟨h1a, _⟩ := h1
      subst h1a
      exact ⟨p, _, nd0, rfl, h2, h3⟩
    | cons a A =>
      simp only [List.cons_append, List.cons.injEq] at h1
      obtain ⟨h1a, _⟩ := h1
      subst h1a
      exact ⟨a, _, nd0, rfl, h2, h3⟩
  · intro b c hb hs
    obtain ⟨pre, target, td, p1, p2, p3, p4, p5⟩ := hg.anchors b c hb hs
    have htD : target ≠ D := by
      intro hc
      subst hc
      rw [hD] at p3
      simp only [Option.some.injEq] at p3
      subst p3
      rw [p4, newMockEntry_real] at hreal
      exact absurd hreal (by simp)
    refine ⟨popList t.mem (t.mem.nextOf p) c pre, target, td,
      Path_pop _ D _ hcell p1 (by simpa using htD) hvcell, ?_, p3, p4, ?_⟩
    · simp only [List.mem_append, List.mem_cons] at p2 ⊢
      rcases p2 with h | h | h | h
      · exact Or.inl h
      · exact Or.inr (Or.inl h)
      · exact absurd h htD
      · exact Or.inr (Or.inr h)
    · intro q hq
      exact p5 q (popList_mem _ _ _ q hq)
  · show t.h.size - 1 = _
    rw [hview2, hg.size, hviewL]
    simp only [List.length_append, List.length_cons]
    push_cast
    ring
  · show t.h.size - 1 ≤ t.h.threshold
    have := hg.load
    omega

theorem sameKey_real (e1 e2 : entry K V) (h : sameKey e1 e2) : e1.real = e2.real := by
  unfold entry.real; rw [h.1]

theorem entRel_sameKey (H : Hashable K) (e1 e2 f1 f2 : entry K V) (h1 : sameKey f1 e1)
    (h2 : sameKey f2 e2) (h : entRel H e1 e2) : entRel H f1 f2 := by
  obtain ⟨a1, a2, a3⟩ := h1
  obtain ⟨b1, b2, b3⟩ := h2
  obtain ⟨r1, r2⟩ := h
  refine ⟨by rw [a1, b1]; exact r1, ?_⟩
  intro heq
  obtain ⟨c1, c2, c3⟩ := r2 (by rw [← a1, ← b1]; exact heq)
  refine ⟨by rw [sameKey_real f1 e1 ⟨a1, a2, a3⟩]; exact c1, by rw [a2, b2]; exact c2, ?_⟩
  intro k1 k2 hk1 hk2
  exact c3 k1 k2 (by rw [← a3]; exact hk1) (by rw [← b3]; exact hk2)

theorem storeValue_some (m : Mem K V) (n : Nat) (v : Option (Option V)) (j : Nat)
    (nd2 : node K V) (h : (m.storeValue n v).nodes[j]? = some nd2) :
    ∃ nd, m.nodes[j]? = some nd ∧ nd2.next = nd.next ∧ sameKey nd2.value nd.value ∧
      (j ≠ n → nd2 = nd) ∧ (j = n → nd2.value = { nd.value with value := v }) := by
  rw [storeValue_nodes] at h
  cases hj : m.nodes[j]? with
  | none => rw [hj] at h; simp at h
  | some nd =>
    rw [hj] at h
    simp only [Option.map_some', Option.some.injEq] at h
    refine ⟨nd, rfl, ?_⟩
    by_cases hjn : j = n
    · rw [if_pos hjn] at h
      subst h
      exact ⟨rfl, ⟨rfl, rfl, rfl⟩, fun hc => absurd hjn hc, fun _ => rfl⟩
    · rw [if_neg hjn] at h
      subst h
      exact ⟨rfl, ⟨rfl, rfl, rfl⟩, fun _ => rfl, fun hc => absurd hc hjn⟩

theorem storeValue_of_some (m : Mem K V) (n : Nat) (v : Option (Option V)) (j : Nat)
    (nd : node K V) (h : m.nodes[j]? = some nd) :
    (m.storeValue n v).nodes[j]? =
      some (if j = n then { nd with value := { nd.value with value := v } } else nd) := by
  rw [storeValue_nodes, h]; rfl

theorem viewOf_of_some (m : Mem K V) (n : Nat) (nd : node K V) (h : m.nodes[n]? = some nd) :
    m.viewOf n = entView nd.value := by
  simp [Mem.viewOf, h]

/-- The invariant after the value pointer of the real node `n` is overwritten. -/
theorem Good_store (H : Hashable K) {t : Table K V} {L : List Nat} {c0 : Nat}
    (hg : Good H t L c0) (A B : List Nat) (n : Nat) (hL : L = A ++ n :: B)
    (nd : node K V) (hn : t.mem.nodes[n]? = some nd) (k : K) (v : V)
    (hnd : nd.value = newRealEntry H k (some v)) (v2 : V) :
    Good H { mem := t.mem.storeValue n (some (some v2)), h := t.h } L c0 ∧
    (t.mem.storeValue n (some (some v2))).view L = t.mem.view A ++ (k, v2) :: t.mem.view B ∧
    t.mem.view L = t.mem.view A ++ (k, v) :: t.mem.view B := by
  subst hL
  have hnd2 := hg.nodup
  have hnA : n ∉ A := by
    intro hc
    have := (List.nodup_append.1 hnd2).2.2
    exact this hc (by simp)
  have hnB : n ∉ B := by
    have h1 := (List.nodup_append.1 hnd2).2.1
    exact (List.nodup_cons.1 h1).1
  have hreal : nd.value.real = true := by rw [hnd]; exact newRealEntry_real H k _
  have hviewn : t.mem.viewOf n = some (k, v) := by
    rw [viewOf_of_some _ _ _ hn, hnd]; exact entView_real H k v
  have hviewn2 : (t.mem.storeValue n (some (some v2))).viewOf n = some (k, v2) := by
    rw [viewOf_of_some _ _ _ (storeValue_of_some _ _ _ _ _ hn), if_pos rfl]
    simp only [hnd]
    exact entView_real H k v2
  have hviewo : ∀ j, j ≠ n → (t.mem.storeValue n (some (some v2))).viewOf j = t.mem.viewOf j := by
    intro j hj
    unfold Mem.viewOf
    rw [storeValue_nodes]
    cases t.mem.nodes[j]? with
    | none => rfl
    | some jd => simp [hj]
  have hview : t.mem.view (A ++ n :: B) = t.mem.view A ++ (k, v) :: t.mem.view B := by
    rw [view_append, view_cons, hviewn]; rfl
  have hview2 : (t.mem.storeValue n (some (some v2))).view (A ++ n :: B) =
      t.mem.view A ++ (k, v2) :: t.mem.view B := by
    rw [view_append, view_cons, hviewn2]
    rw [view_congr t.mem _ A (fun j hj => hviewo j (fun hc => hnA (hc ▸ hj)))]
    rw [view_congr t.mem _ B (fun j hj => hviewo j (fun hc => hnB (hc ▸ hj)))]
    rfl
  have hmock : ∀ j jd b, t.mem.nodes[j]? = some jd → jd.value = newMockEntry b → j ≠ n := by
    intro j jd b h1 h2 hc
    subst hc
    rw [hn] at h1
    simp only [Option.some.injEq] at h1
    subst h1
    rw [h2, newMockEntry_real] at hreal
    exact absurd hreal (by simp)
  refine ⟨?_, hview2, hview⟩
  refine
    { dir := hg.dir
      lf := hg.lf
      next_lt := ?_
      next_inj := ?_
      head_slot := hg.head_slot
      head_ne := ?_
      chain := Path_storeValue _ _ hg.chain
      nodup := hnd2
      first := ?_
      entries := ?_
      sorted := ?_
      anchors := ?_
      size := ?_
      load := hg.load }
  · intro j jd h
    obtain ⟨od, h1, h2, _⟩ := storeValue_some _ _ _ _ _ h
    show jd.next < (t.mem.storeValue n _).cells.length
    rw [storeValue_cells, h2]
    exact hg.next_lt j od h1
  · intro j1 j2 d1 d2 h1 h2 hnext
    obtain ⟨o1, a1, a2, _⟩ := storeValue_some _ _ _ _ _ h1
    obtain ⟨o2, b1, b2, _⟩ := storeValue_some _ _ _ _ _ h2
    exact hg.next_inj j1 j2 o1 o2 a1 b1 (by rw [← a2, ← b2]; exact hnext)
  · intro j jd h
    obtain ⟨od, h1, h2, _⟩ := storeValue_some _ _ _ _ _ h
    rw [h2]; exact hg.head_ne j od h1
  · obtain ⟨n0, rest, nd0, h1, h2, h3⟩ := hg.first
    refine ⟨n0, rest, nd0, h1, ?_, h3⟩
    rw [storeValue_of_some _ _ _ _ _ h2, if_neg (hmock n0 nd0 0 h2 h3)]
  · intro j hj
    obtain ⟨jd, h1, h2⟩ := hg.entries j hj
    by_cases hjn : j = n
    · subst hjn
      rw [hn] at h1
      simp only [Option.some.injEq] at h1
      subst h1
      refine ⟨_, storeValue_of_some _ _ _ _ _ hn, ?_⟩
      rw [if_pos rfl]
      left
      exact ⟨k, v2, by simp only [hnd]; rfl⟩
    · refine ⟨jd, ?_, h2⟩
      rw [storeValue_of_some _ _ _ _ _ h1, if_neg hjn]
  · refine hg.sorted.imp ?_
    intro a b hab na nb h1 h2
    obtain ⟨oa, a1, _, a3, _⟩ := storeValue_some _ _ _ _ _ h1
    obtain ⟨ob, b1, _, b3, _⟩ := storeValue_some _ _ _ _ _ h2
    exact entRel_sameKey H _ _ _ _ a3 b3 (hab oa ob a1 b1)
  · intro b c hb hs
    obtain ⟨pre, target, td, p1, p2, p3, p4, p5⟩ := hg.anchors b c hb hs
    refine ⟨pre, target, td, Path_storeValue _ _ p1, p2, ?_, p4, ?_⟩
    · rw [storeValue_of_some _ _ _ _ _ p3, if_neg (hmock target td b p3 p4)]
    · intro q hq
      rw [storeValue_keyOf]; exact p5 q hq
  · show t.h.size = _
    rw [hview2, hg.size, hview]
    simp

/-! ### More fuel does not change a result -/

theorem searchLoop_mono (m : Mem K V) (pe : entry K V) : ∀ (f f2 : Nat) (rv r : hit),
    nodeRef.searchLoop m pe f rv = some r → f ≤ f2 → nodeRef.searchLoop m pe f2 rv = some r := by
  intro f
  induction f with
  | zero => intro f2 rv r h; simp [nodeRef.searchLoop] at h
  | succ f ih =>
    intro f2 rv r h hle
    obtain ⟨g, hg⟩ : ∃ g, f2 = g + 1 := ⟨f2 - 1, by omega⟩
    subst hg
    rw [nodeRef.searchLoop] at h ⊢
    cases hn : rv.node with
    | none => rw [hn] at h; exact h
    | some n =>
      rw [hn] at h
      simp only at h ⊢
      cases hnd : m.nodes[n]? with
      | none => rw [hnd] at h; simp at h
      | some nd =>
        rw [hnd] at h
        simp only at h ⊢
        by_cases h1 : pe.Compare nd.value < 0
        · rw [if_pos h1] at h ⊢; exact h
        · rw [if_neg h1] at h ⊢
          by_cases h2 : pe.Compare nd.value = 0
          · rw [if_pos h2] at h ⊢; exact h
          · rw [if_neg h2] at h ⊢
            exact ih g _ r h (by omega)

theorem search_mono (m : Mem K V) (f f2 : Nat) (c : Nat) (e : entry K V) (r : hit)
    (h : nodeRef.search m f c e = some r) (hle : f ≤ f2) : nodeRef.search m f2 c e = some r :=
  searchLoop_mono m _ f f2 _ r h hle

theorem hashHit_mono (H : Hashable K) (m : Mem K V) (cmp : entry K V) :
    ∀ (f f2 : Nat) (rv r : hit),
    hashHit.searchLoop H m cmp f rv = some r → f ≤ f2 →
    hashHit.searchLoop H m cmp f2 rv = some r := by
  intro f
  induction f with
  | zero => intro f2 rv r h; simp [hashHit.searchLoop] at h
  | succ f ih =>
    intro f2 rv r h hle
    obtain ⟨g, hg⟩ : ∃ g, f2 = g + 1 := ⟨f2 - 1, by omega⟩
    subst hg
    rw [hashHit.searchLoop] at h ⊢
    cases hn : rv.node with
    | none => rw [hn] at h; exact h
    | some n =>
      rw [hn] at h
      simp only at h ⊢
      cases hnd : m.nodes[n]? with
      | none => rw [hnd] at h; simp at h
      | some nd =>
        rw [hnd] at h
        simp only at h ⊢
        by_cases h1 : (!nd.value.real || nd.value.hashCode != cmp.hashCode) = true
        · rw [if_pos h1] at h ⊢; exact h
        · rw [if_neg h1] at h ⊢
          cases hck : cmp.key with
          | none => rw [hck] at h; simp at h
          | some ck =>
            cases hek : nd.value.key with
            | none => rw [hck, hek] at h; simp at h
            | some ek =>
              rw [hck, hek] at h
              simp only at h ⊢
              by_cases h2 : H.Equals ck ek = true
              · rw [if_pos h2] at h ⊢; exact h
              · rw [if_neg h2] at h ⊢
                exact ih g _ r h (by omega)

theorem hashHit_search_mono (H : Hashable K) (m : Mem K V) (f f2 : Nat) (rv : hit)
    (cmp : entry K V) (r : hit) (h : hashHit.search H m f rv cmp = some r) (hle : f ≤ f2) :
    hashHit.search H m f2 rv cmp = some r :=
  hashHit_mono H m cmp f f2 rv r h hle

/-- One pass of `getBucketByIndex`, with the coordinates written with `slotOf`. -/
theorem getBucketByIndex_succ (fuel : Nat) (t : Table K V) (index : Nat) :
    getBucketByIndex (fuel + 1) t index =
      match t.h.slotOf index with
      | none => none
      | some (some bucket) => some (t, bucket)
      | some none =>
        if index = 0 then
          getBucketByIndex fuel
            { mem := nodeRef.push t.mem.newRef.1 t.mem.newRef.2 (newMockEntry index),
              h := (t.h.casSlot (getBucketIndices index).1 (getBucketIndices index).2
                t.mem.newRef.2) } index
        else
          match getBucketByIndex fuel t
              (t.h.getPreviousBucketIndex (newMockEntry index : entry K V).hashKey) with
          | none => none
          | some (t1, previousBucket) =>
            match nodeRef.search t1.mem fuel previousBucket (newMockEntry index) with
            | none => none
            | some hitA =>
              match hitA.node with
              | none =>
                match hitA.leftNode with
                | none => none
                | some ln =>
                  match t1.mem.nodes[ln]? with
                  | none => none
                  | some lnd =>
                    getBucketByIndex fuel
                      { t1 with mem := (nodeRef.pushBefore t1.mem lnd.next (newMockEntry index)
                          hitA.rightNode).1 } index
              | some _ =>
                match hitA.ref with
                | none => none
                | some r =>
                  getBucketByIndex fuel
                    { t1 with h := (t1.h.casSlot (getBucketIndices index).1
                        (getBucketIndices index).2 r) } index := by
  rfl

theorem getBucketByIndex_mono : ∀ (f f2 : Nat) (t : Table K V) (b : Nat)
    (r : Table K V × Nat), getBucketByIndex f t b = some r → f ≤ f2 →
    getBucketByIndex f2 t b = some r := by
  intro f
  induction f with
  | zero => intro f2 t b r h; simp [getBucketByIndex] at h
  | succ f ih =>
    intro f2 t b r h hle
    obtain ⟨g, hg⟩ : ∃ g, f2 = g + 1 := ⟨f2 - 1, by omega⟩
    subst hg
    have hfg : f ≤ g := by omega
    rw [getBucketByIndex_succ] at h ⊢
    cases hs : t.h.slotOf b with
    | none => rw [hs] at h; simp at h
    | some o =>
      cases o with
      | some c => rw [hs] at h; exact h
      | none =>
        rw [hs] at h
        simp only at h ⊢
        by_cases hb : b = 0
        · rw [if_pos hb] at h ⊢
          exact ih g _ _ r h hfg
        · rw [if_neg hb] at h ⊢
          cases hp : getBucketByIndex f t
              (t.h.getPreviousBucketIndex (newMockEntry b : entry K V).hashKey) with
          | none => rw [hp] at h; simp at h
          | some p =>
            obtain ⟨t1, pb⟩ := p
            rw [hp] at h
            rw [ih g _ _ _ hp hfg]
            simp only at h ⊢
            cases hh : nodeRef.search t1.mem f pb (newMockEntry b) with
            | none => rw [hh] at h; simp at h
            | some hitA =>
              rw [hh] at h
              rw [search_mono _ f g _ _ _ hh hfg]
              simp only at h ⊢
              cases hn : hitA.node with
              | none =>
                rw [hn] at h
                simp only at h ⊢
                cases hl : hitA.leftNode with
                | none => rw [hl] at h; simp at h
                | some ln =>
                  rw [hl] at h
                  simp only at h ⊢
                  cases hld : t1.mem.nodes[ln]? with
                  | none => rw [hld] at h; simp at h
                  | some lnd =>
                    rw [hld] at h
                    simp only at h ⊢
                    exact ih g _ _ r h hfg
              | some y =>
                rw [hn] at h
                simp only at h ⊢
                cases hr : hitA.ref with
                | none => rw [hr] at h; simp at h
                | some rr =>
                  rw [hr] at h
                  simp only at h ⊢
                  exact ih g _ _ r h hfg

theorem locate_mono (H : Hashable K) (f f2 : Nat) (t : Table K V) (probe : entry K V)
    (r : Table K V × hit × hit) (h : locate H f t probe = some r) (hle : f ≤ f2) :
    locate H f2 t probe = some r := by
  unfold locate getBucketByHashCode at h ⊢
  cases hb : getBucketByIndex f t (t.h.bucketIndex probe.hashCode) with
  | none => rw [hb] at h; simp at h
  | some p =>
    obtain ⟨t1, c⟩ := p
    rw [hb] at h
    rw [getBucketByIndex_mono f f2 _ _ _ hb hle]
    simp only at h ⊢
    cases hs : nodeRef.search t1.mem f c probe with
    | none => rw [hs] at h; simp at h
    | some hitA =>
      rw [hs] at h
      rw [search_mono _ f f2 _ _ _ hs hle]
      simp only at h ⊢
      cases hh : hashHit.search H t1.mem f hitA probe with
      | none => rw [hh] at h; simp at h
      | some hitB =>
        rw [hh] at h
        rw [hashHit_search_mono H _ f f2 _ _ _ hh hle]
        exact h

theorem Get_mono (H : Hashable K) (f f2 : Nat) (t : Table K V) (k : K)
    (r : Table K V × Option V) (h : Get H f t k = some r) (hle : f ≤ f2) :
    Get H f2 t k = some r := by
  unfold Get at h ⊢
  dsimp only at h ⊢
  cases hl : locate H f t (newRealEntry H k none) with
  | none => rw [hl] at h; simp at h
  | some p =>
    rw [hl] at h
    rw [locate_mono H f f2 _ _ _ hl hle]
    exact h

theorem Put_loop_mono (H : Hashable K) (e : entry K V) : ∀ (n n2 f f2 : Nat) (t : Table K V)
    (r : Table K V × Option V), Put.loop H f e n t = some r → f ≤ f2 → n ≤ n2 →
    Put.loop H f2 e n2 t = some r := by
  intro n
  induction n with
  | zero => intro n2 f f2 t r h; simp [Put.loop] at h
  | succ n ih =>
    intro n2 f f2 t r h hle hn
    obtain ⟨g, hg⟩ : ∃ g, n2 = g + 1 := ⟨n2 - 1, by omega⟩
    subst hg
    rw [Put.loop] at h ⊢
    cases hl : locate H f t e with
    | none => rw [hl] at h; simp at h
    | some p =>
      obtain ⟨t1, hitA, hitB⟩ := p
      rw [hl] at h
      rw [locate_mono H f f2 _ _ _ hl hle]
      simp only at h ⊢
      cases hnode : hitB.node with
      | some y => rw [hnode] at h; exact h
      | none =>
        rw [hnode] at h
        simp only at h ⊢
        cases hln : hitB.leftNode with
        | none => rw [hln] at h; simp at h
        | some ln =>
          rw [hln] at h
          simp only at h ⊢
          cases hld : t1.mem.nodes[ln]? with
          | none => rw [hld] at h; simp at h
          | some lnd =>
            rw [hld] at h
            simp only at h ⊢
            cases hpb : nodeRef.pushBefore t1.mem lnd.next e hitA.rightNode with
            | mk m2 ok =>
              rw [hpb] at h
              cases ok with
              | true => exact h
              | false =>
                simp only at h ⊢
                exact ih g f f2 _ r h hle (by omega)

theorem Put_mono (H : Hashable K) (f f2 : Nat) (t : Table K V) (k : K) (v : Option V)
    (r : Table K V × Option V) (h : Put H f t k v = some r) (hle : f ≤ f2) :
    Put H f2 t k v = some r :=
  Put_loop_mono H _ f f2 f f2 t r h hle hle

theorem Delete_loop_mono (H : Hashable K) (e : entry K V) : ∀ (n n2 f f2 : Nat)
    (t : Table K V) (r : Table K V × Option V), Delete.loop H f e n t = some r → f ≤ f2 →
    n ≤ n2 → Delete.loop H f2 e n2 t = some r := by
  intro n
  induction n with
  | zero => intro n2 f f2 t r h; simp [Delete.loop] at h
  | succ n ih =>
    intro n2 f f2 t r h hle hn
    obtain ⟨g, hg⟩ : ∃ g, n2 = g + 1 := ⟨n2 - 1, by omega⟩
    subst hg
    rw [Delete.loop] at h ⊢
    cases hl : locate H f t e with
    | none => rw [hl] at h; simp at h
    | some p =>
      obtain ⟨t1, hitA, hitB⟩ := p
      rw [hl] at h
      rw [locate_mono H f f2 _ _ _ hl hle]
      simp only at h ⊢
      cases hnode : hitB.node with
      | none => rw [hnode] at h; exact h
      | some y =>
        rw [hnode] at h
        simp only at h ⊢
        cases hr : hitB.ref with
        | none => rw [hr] at h; simp at h
        | some rr =>
          rw [hr] at h
          simp only at h ⊢
          cases hpb : nodeRef.popExact t1.mem rr y with
          | mk m2 ok =>
            rw [hpb] at h
            cases ok with
            | true => exact h
            | false =>
              simp only at h ⊢
              exact ih g f f2 _ r h hle (by omega)

theorem Delete_mono (H : Hashable K) (f f2 : Nat) (t : Table K V) (k : K)
    (r : Table K V × Option V) (h : Delete H f t k = some r) (hle : f ≤ f2) :
    Delete H f2 t k = some r :=
  Delete_loop_mono H _ f f2 f f2 t r h hle hle

/-- A list splits into the longest front part on which `P` holds and the rest. -/
theorem split_pred (P : Nat → Prop) : ∀ R : List Nat, ∃ R1 R2, R = R1 ++ R2 ∧
    (∀ a ∈ R1, P a) ∧ (∀ y, R2.head? = some y → ¬ P y) := by
  intro R
  induction R with
  | nil => exact ⟨[], [], rfl, by simp, by simp⟩
  | cons a R ih =>
    by_cases h : P a
    · obtain ⟨R1, R2, e, h1, h2⟩ := ih
      refine ⟨a :: R1, R2, by rw [e]; rfl, ?_, h2⟩
      intro x hx
      rcases List.mem_cons.1 hx with hx | hx
      · rw [hx]; exact h
      · exact h1 x hx
    · refine ⟨[], a :: R, rfl, by simp, ?_⟩
      intro y hy
      simp only [List.head?_cons, Option.some.injEq] at hy
      rw [← hy]; exact h

theorem Good.key_le {H : Hashable K} {t : Table K V} {L : List Nat} {c0 : Nat}
    (hg : Good H t L c0) (X Y : List Nat) (hL : L = X ++ Y) :
    ∀ a ∈ X, ∀ b ∈ Y, t.mem.keyOf a ≤ t.mem.keyOf b := by
  intro a ha b hb
  have hs := hg.sorted
  rw [hL, List.pairwise_append] at hs
  obtain ⟨na, h1⟩ := hg.node_of_mem (show a ∈ L by rw [hL]; exact List.mem_append_left _ ha)
  obtain ⟨nb, h2⟩ := hg.node_of_mem (show b ∈ L by rw [hL]; exact List.mem_append_right _ hb)
  rw [keyOf_of_some _ _ _ h1, keyOf_of_some _ _ _ h2]
  exact (hs.2.2 a ha b hb na nb h1 h2).1

/-- The list search from an anchor of bucket `b`, for a probe key above the sentinel key
of `b`. -/
theorem search_spec (H : Hashable K) {t : Table K V} {L : List Nat} {c0 : Nat}
    (hg : Good H t L c0) (c b : Nat) (ha : Anchor t.mem L c b) (pe : entry K V)
    (hpk : sentinelKey b < pe.hashKey) :
    ∃ A left B fuel hitA, L = A ++ left :: B ∧
      (∀ a ∈ A ++ [left], t.mem.keyOf a < pe.hashKey) ∧
      (∀ y ∈ B, pe.hashKey ≤ t.mem.keyOf y) ∧
      nodeRef.search t.mem fuel c pe = some hitA ∧
      SearchRes t.mem pe.hashKey left B hitA := by
  obtain ⟨pre, target, td, p1, p2, p3, p4, p5⟩ := ha
  obtain ⟨F, R, hFR⟩ := List.append_of_mem p2
  have hchain := hg.chain
  rw [hFR] at hchain
  obtain ⟨pF, td2, htd2, pR⟩ := Path_split F hchain
  rw [p3] at htd2
  simp only [Option.some.injEq] at htd2
  subst htd2
  obtain ⟨R1, R2, hR, hR1, hR2⟩ := split_pred (fun n => t.mem.keyOf n < pe.hashKey) R
  have hne : target :: R1 ≠ [] := by simp
  obtain ⟨Q, left, hQ⟩ : ∃ Q left, target :: R1 = Q ++ [left] :=
    ⟨(target :: R1).dropLast, (target :: R1).getLast hne,
      (List.dropLast_concat_getLast hne).symm⟩
  have hkt : t.mem.keyOf target = sentinelKey b := by
    rw [keyOf_of_some _ _ _ p3, p4]; rfl
  have hL : L = (F ++ Q) ++ left :: R2 := by
    rw [hFR, hR]
    have : F ++ target :: (R1 ++ R2) = F ++ ((target :: R1) ++ R2) := by simp
    rw [this, hQ]; simp
  have hL2 : L = (F ++ (target :: R1)) ++ R2 := by
    rw [hFR, hR]; simp
  have hkeyA : ∀ a ∈ (F ++ Q) ++ [left], t.mem.keyOf a < pe.hashKey := by
    intro a haa
    have haa2 : a ∈ F ++ (target :: R1) := by
      rw [hQ]; simpa [List.append_assoc] using haa
    rcases List.mem_append.1 haa2 with h | h
    · have := hg.key_le F (target :: R) hFR a h target (by simp)
      omega
    · rcases List.mem_cons.1 h with h | h
      · rw [h]; omega
      · exact hR1 a h
  have hkeyB : ∀ y ∈ R2, pe.hashKey ≤ t.mem.keyOf y := by
    intro y hy
    cases R2 with
    | nil => simp at hy
    | cons z R3 =>
      have hz : pe.hashKey ≤ t.mem.keyOf z := by
        have := hR2 z rfl
        simpa using this
      rcases List.mem_cons.1 hy with h | h
      · rw [h]; exact hz
      · have hL3 : L = ((F ++ (target :: R1)) ++ [z]) ++ R3 := by rw [hL2]; simp
        have := hg.key_le _ R3 hL3 z (by simp) y h
        omega
  -- the path walked by the search
  have hpZ : Path t.mem c (pre ++ target :: R1) R2.head? := by
    rw [hR] at pR
    exact Path_append p1 p3 (Path_front R1 R2 pR)
  have hZ : pre ++ target :: R1 = (pre ++ Q) ++ [left] := by rw [hQ]; simp
  rw [hZ] at hpZ
  obtain ⟨pPQ, ld, hld, pend⟩ := Path_split (pre ++ Q) hpZ
  have hcellL : t.mem.cells[ld.next]? = some R2.head? := by
    cases pend with
    | nil _ _ h => exact h
  have hnextL : t.mem.nextOf left = ld.next := nextOf_of_some _ _ _ hld
  have hkeyZ : ∀ n ∈ (pre ++ Q) ++ [left], t.mem.keyOf n < pe.hashKey := by
    intro n hn
    rw [← hZ] at hn
    rcases List.mem_append.1 hn with h | h
    · have := p5 n h; omega
    · rcases List.mem_cons.1 h with h | h
      · rw [h]; omega
      · exact hR1 n h
  let rv0 : hit := { leftRef := none, leftNode := none, ref := some c,
                     node := nodeRef.node t.mem c, rightRef := none, rightNode := none }
  have hskip := searchLoop_skip pe hpZ rv0 1 rfl hkeyZ
  have hsnoc := skipHit_snoc t.mem (pre ++ Q) left rv0
  have hnodePQ : (skipHit t.mem rv0 (pre ++ Q)).node = some left :=
    skipHit_node pPQ rv0 rfl rfl
  have hnodeL : nodeRef.node t.mem (t.mem.nextOf left) = R2.head? := by
    rw [hnextL]; exact node_eq_of_cells _ _ _ hcellL
  rw [hsnoc, hnodePQ, hnodeL] at hskip
  have key : ∃ hitA, nodeRef.searchLoop t.mem pe 1
      { leftRef := (skipHit t.mem rv0 (pre ++ Q)).ref, leftNode := some left,
        ref := some (t.mem.nextOf left), node := R2.head?, rightRef := none,
        rightNode := none } = some hitA ∧ SearchRes t.mem pe.hashKey left R2 hitA := by
    cases R2 with
    | nil =>
      exact ⟨_, searchLoop_stop_nil _ 0 _ rfl, rfl, rfl, rfl⟩
    | cons y R3 =>
      have hyL : y ∈ L := by rw [hL]; simp
      obtain ⟨yd, hyd⟩ := hg.node_of_mem hyL
      have hky : t.mem.keyOf y = yd.value.hashKey := keyOf_of_some _ _ _ hyd
      have hyge := hkeyB y (by simp)
      by_cases hgt : pe.hashKey < yd.value.hashKey
      · refine ⟨_, searchLoop_stop_gt _ 0 _ y yd rfl hyd hgt, rfl, ?_, ?_⟩
        · intro _; exact ⟨rfl, rfl⟩
        · intro heq; rw [hky] at heq; omega
      · have heq : pe.hashKey = yd.value.hashKey := by rw [hky] at hyge; omega
        have hpy : Path t.mem yd.next R3 none := by
          have hc2 := hg.chain
          rw [hL] at hc2
          have e1 : (F ++ Q) ++ left :: y :: R3 = ((F ++ Q) ++ [left]) ++ y :: R3 := by simp
          rw [e1] at hc2
          obtain ⟨_, yd2, hyd2, hp3⟩ := Path_split _ hc2
          rw [hyd] at hyd2
          simp only [Option.some.injEq] at hyd2
          subst hyd2
          exact hp3
        refine ⟨_, searchLoop_stop_eq _ 0 _ y yd rfl hyd heq, rfl, ?_, ?_⟩
        · intro hlt; rw [hky] at hlt; omega
        · intro _
          exact ⟨rfl, rfl, node_eq_of_cells _ _ _ (Path_cell_head hpy)⟩
  obtain ⟨hitA, hs, hres⟩ := key
  refine ⟨F ++ Q, left, R2, 1 + ((pre ++ Q) ++ [left]).length, hitA, hL, hkeyA, hkeyB, ?_, hres⟩
  show nodeRef.searchLoop t.mem pe _ rv0 = _
  rw [hskip]
  exact hs

theorem HExt_refl (h : Hash) (hd : DirOK h) : HExt h h :=
  ⟨hd, rfl, le_refl _, rfl, fun _ _ hb hs => ⟨hb, hs⟩⟩

/-- A node of the list whose sort key is the sentinel key of `b` holds the mock entry of
`b`. -/
theorem Good.mock_of_key {H : Hashable K} {t : Table K V} {L : List Nat} {c0 : Nat}
    (hg : Good H t L c0) (b : Nat) (hb : b < 2 ^ t.h.exponent) (y : Nat) (hy : y ∈ L)
    (hk : t.mem.keyOf y = sentinelKey b) :
    ∃ yd, t.mem.nodes[y]? = some yd ∧ yd.value = newMockEntry b := by
  obtain ⟨yd, h1, h2⟩ := hg.entries y hy
  refine ⟨yd, h1, ?_⟩
  rw [keyOf_of_some _ _ _ h1] at hk
  have he := hg.dir.1
  rcases h2 with ⟨k, v, hr⟩ | ⟨b2, hb2, hm⟩
  · rw [hr, newRealEntry_hashKey] at hk
    have h3 := realKey_odd (H.HashCode k % U32)
    have h4 := sentinelKey_even b
    omega
  · rw [hm, newMockEntry_hashKey] at hk
    have h31 : ∀ x, x < 2 ^ t.h.exponent → x < 2 ^ 31 := fun x hx =>
      lt_of_lt_of_le hx (Nat.pow_le_pow_right (by norm_num) he)
    rw [hm, sentinelKey_inj b2 b (h31 b2 hb2) (h31 b hb) hk]

/-- The outcome of the list search for the mock entry of `b` from an anchor of a bucket
`p` of smaller sentinel key, when the sentinel of `b` is on the list: the search finds it,
and the reference it returns is an anchor of `b`. -/
theorem pass_found (H : Hashable K) {t : Table K V} {L : List Nat} {c0 : Nat}
    (hg : Good H t L c0) (b p cp : Nat) (hb : b < 2 ^ t.h.exponent)
    (hp : p < 2 ^ t.h.exponent) (hcp : t.h.slotOf p = some (some cp))
    (hlt : sentinelKey p < sentinelKey b)
    (hex : ∃ y ∈ L, t.mem.keyOf y = sentinelKey b) :
    ∃ fuel hitA y r, nodeRef.search t.mem fuel cp (newMockEntry b) = some hitA ∧
      hitA.node = some y ∧ hitA.ref = some r ∧ Anchor t.mem L r b := by
  obtain ⟨A, left, B, fuel, hitA, hL, hkA, hkB, hs, hleft, hres⟩ :=
    search_spec H hg cp p (hg.anchors p cp hp hcp) (newMockEntry b)
      (by rw [newMockEntry_hashKey]; exact hlt)
  rw [newMockEntry_hashKey] at hkA hkB hres
  obtain ⟨y0, hy0, hky0⟩ := hex
  have hy0B : y0 ∈ B := by
    rw [hL] at hy0
    have e1 : A ++ left :: B = (A ++ [left]) ++ B := by simp
    rw [e1] at hy0
    rcases List.mem_append.1 hy0 with h | h
    · have := hkA y0 h; omega
    · exact h
  cases B with
  | nil => simp at hy0B
  | cons y B2 =>
    have hky : t.mem.keyOf y = sentinelKey b := by
      have h1 := hkB y (by simp)
      rcases List.mem_cons.1 hy0B with h | h
      · rw [← h]; exact hky0
      · have e2 : L = ((A ++ [left]) ++ [y]) ++ B2 := by rw [hL]; simp
        have := hg.key_le _ B2 e2 y (by simp) y0 h
        omega
    obtain ⟨h1, h2, h3⟩ := hres.2 hky
    have hyL : y ∈ L := by rw [hL]; simp
    obtain ⟨yd, hyd, hmock⟩ := hg.mock_of_key b hb y hyL hky
    have hleftL : left ∈ L := by rw [hL]; simp
    obtain ⟨ld, hld⟩ := hg.node_of_mem hleftL
    have hcell : t.mem.cells[t.mem.nextOf left]? = some (some y) := by
      have hc := hg.chain
      rw [hL] at hc
      obtain ⟨_, ld2, hld2, hp2⟩ := Path_split A hc
      rw [nextOf_of_some _ _ _ hld2]
      exact Path_cell_head hp2
    exact ⟨fuel, hitA, y, t.mem.nextOf left, hs, h1, h2,
      [], y, yd, Path.nil _ _ hcell, hyL, hyd, hmock, by simp⟩

/-- The outcome of the list search for the mock entry of `b` when no sentinel of `b` is on
the list: the search brackets the place of the sentinel, the insertion succeeds, and the
invariant holds for the list with the sentinel. -/
theorem pass_insert (H : Hashable K) {t : Table K V} {L : List Nat} {c0 : Nat}
    (hg : Good H t L c0) (b p cp : Nat) (hb : b < 2 ^ t.h.exponent)
    (hp : p < 2 ^ t.h.exponent) (hcp : t.h.slotOf p = some (some cp))
    (hlt : sentinelKey p < sentinelKey b)
    (hnex : ∀ y ∈ L, t.mem.keyOf y ≠ sentinelKey b) :
    ∃ fuel hitA ln lnd L2, nodeRef.search t.mem fuel cp (newMockEntry b) = some hitA ∧
      hitA.node = none ∧ hitA.leftNode = some ln ∧ t.mem.nodes[ln]? = some lnd ∧
      Good H { t with mem := (nodeRef.pushBefore t.mem lnd.next (newMockEntry b)
        hitA.rightNode).1 } L2 c0 ∧
      (nodeRef.pushBefore t.mem lnd.next (newMockEntry b) hitA.rightNode).1.view L2
        = t.mem.view L ∧
      (∃ y ∈ L2, (nodeRef.pushBefore t.mem lnd.next (newMockEntry b)
        hitA.rightNode).1.keyOf y = sentinelKey b) ∧ L2.head? = L.head? := by
  obtain ⟨A, left, B, fuel, hitA, hL, hkA, hkB, hs, hleft, hres⟩ :=
    search_spec H hg cp p (hg.anchors p cp hp hcp) (newMockEntry b)
      (by rw [newMockEntry_hashKey]; exact hlt)
  rw [newMockEntry_hashKey] at hkA hkB hres
  have hkB2 : ∀ y ∈ B, sentinelKey b < t.mem.keyOf y := by
    intro y hy
    have h1 := hkB y hy
    have h2 := hnex y (by rw [hL]; simp [hy])
    omega
  have hnode : hitA.node = none ∧ hitA.rightNode = B.head? := by
    cases B with
    | nil => exact hres
    | cons y B2 => exact hres.1 (hkB2 y (by simp))
  have hleftL : left ∈ L := by rw [hL]; simp
  obtain ⟨ld, hld⟩ := hg.node_of_mem hleftL
  have hnext : t.mem.nextOf left = ld.next := nextOf_of_some _ _ _ hld
  have hcell : t.mem.cells[ld.next]? = some B.head? := by
    have hc := hg.chain
    rw [hL] at hc
    obtain ⟨_, ld2, hld2, hp2⟩ := Path_split A hc
    rw [hld] at hld2
    simp only [Option.some.injEq] at hld2
    subst hld2
    exact Path_cell_head hp2
  have hpush : nodeRef.pushBefore t.mem ld.next (newMockEntry b) hitA.rightNode =
      (t.mem.ins (t.mem.nextOf left) (newMockEntry b) B.head?, true) := by
    rw [hnode.2, hnext]
    exact pushBefore_eq _ _ _ _ (node_eq_of_cells _ _ _ hcell)
  have hgood := Good_ins H hg A B left hL (newMockEntry b) t.h (HExt_refl _ hg.dir)
    (Or.inr ⟨b, hb, rfl⟩)
    (by
      intro a ha na hna
      have := hkA a ha
      rw [keyOf_of_some _ _ _ hna] at this
      refine ⟨by rw [newMockEntry_hashKey]; omega, ?_⟩
      intro heq
      rw [newMockEntry_hashKey] at heq; omega)
    (by
      intro y hy nb hnb
      have := hkB2 y hy
      rw [keyOf_of_some _ _ _ hnb] at this
      refine ⟨⟨by rw [newMockEntry_hashKey]; omega, ?_⟩, by rw [newMockEntry_hashKey]; exact this⟩
      intro heq
      rw [newMockEntry_hashKey] at heq; omega)
    (by rw [entView_mock]; simp)
    hg.load
  obtain ⟨hg2, hview⟩ := hgood
  refine ⟨fuel, hitA, left, ld, A ++ left :: t.mem.nodes.length :: B, hs, hnode.1, hleft, hld,
    ?_, ?_, ?_, ?_⟩
  · rw [hpush]; exact hg2
  · rw [hpush]
    simp only
    rw [hview, entView_mock, hL]
    have e1 : A ++ left :: B = (A ++ [left]) ++ B := by simp
    rw [e1, view_append (m := t.mem) (A ++ [left]) B]
    simp only [Option.toList, List.append_nil]
  · rw [hpush]
    exact ⟨t.mem.nodes.length, by simp, by simp only; rw [ins_keyOf_new]; rfl⟩
  · rw [hL]
    cases A <;> rfl

theorem bucket_ready (f : Nat) (t : Table K V) (b c : Nat)
    (hs : t.h.slotOf b = some (some c)) : getBucketByIndex (f + 1) t b = some (t, c) := by
  rw [getBucketByIndex_succ, hs]

theorem pass_compose_found (F : Nat) (t t1 : Table K V) (b cp y r : Nat) (hitA : hit)
    (hs : t.h.slotOf b = some none) (hb : b ≠ 0)
    (hp : getBucketByIndex F t
      (t.h.getPreviousBucketIndex (newMockEntry b : entry K V).hashKey) = some (t1, cp))
    (hsearch : nodeRef.search t1.mem F cp (newMockEntry b) = some hitA)
    (hnode : hitA.node = some y) (href : hitA.ref = some r) :
    getBucketByIndex (F + 1) t b =
      getBucketByIndex F
        { t1 with h := (t1.h.casSlot (getBucketIndices b).1 (getBucketIndices b).2 r) } b := by
  rw [getBucketByIndex_succ, hs]
  simp only [if_neg hb, hp, hsearch, hnode, href]

theorem pass_compose_insert (F : Nat) (t t1 : Table K V) (b cp ln : Nat) (lnd : node K V)
    (hitA : hit) (hs : t.h.slotOf b = some none) (hb : b ≠ 0)
    (hp : getBucketByIndex F t
      (t.h.getPreviousBucketIndex (newMockEntry b : entry K V).hashKey) = some (t1, cp))
    (hsearch : nodeRef.search t1.mem F cp (newMockEntry b) = some hitA)
    (hnode : hitA.node = none) (hleft : hitA.leftNode = some ln)
    (hln : t1.mem.nodes[ln]? = some lnd) :
    getBucketByIndex (F + 1) t b =
      getBucketByIndex F
        { t1 with mem := (nodeRef.pushBefore t1.mem lnd.next (newMockEntry b)
            hitA.rightNode).1 } b := by
  rw [getBucketByIndex_succ, hs]
  simp only [if_neg hb, hp, hsearch, hnode, hleft, hln]

theorem slotOf_casSlot_keep (h : Hash) (b r b2 c2 : Nat) (_hb : b < 2 ^ 32)
    (hs : h.slotOf b2 = some (some c2)) :
    (h.casSlot (getBucketIndices b).1 (getBucketIndices b).2 r).slotOf b2 = some (some c2) := by
  unfold Hash.slotOf at hs ⊢
  rw [slot_casSlot]
  by_cases hc : (getBucketIndices b2).1 = (getBucketIndices b).1 ∧
      (getBucketIndices b2).2 = (getBucketIndices b).2 ∧
      h.slot (getBucketIndices b).1 (getBucketIndices b).2 = some none
  · exfalso
    rw [hc.1, hc.2.1, hc.2.2] at hs
    simp at hs
  · rw [if_neg hc]; exact hs

/-- The pass of `getBucketByIndex` that publishes a sentinel already on the list. -/
theorem second_pass (H : Hashable K) {t : Table K V} {L : List Nat} {c0 : Nat}
    (hg : Good H t L c0) (b cp : Nat) (hb : b < 2 ^ t.h.exponent) (hb0 : b ≠ 0)
    (hp : t.h.getPreviousBucketIndex (sentinelKey b) < 2 ^ t.h.exponent)
    (hcp : t.h.slotOf (t.h.getPreviousBucketIndex (sentinelKey b)) = some (some cp))
    (hlt : sentinelKey (t.h.getPreviousBucketIndex (sentinelKey b)) < sentinelKey b)
    (hex : ∃ y ∈ L, t.mem.keyOf y = sentinelKey b) :
    ∃ fuel t2 c, getBucketByIndex fuel t b = some (t2, c) ∧ Resolved H t L c0 b t2 c L := by
  have he := hg.dir.1
  have hb32 : b < 2 ^ 32 := lt_of_lt_of_le hb (Nat.pow_le_pow_right (by norm_num) (by omega))
  obtain ⟨o, ho⟩ := slotOf_isSome t.h hg.dir b hb
  cases o with
  | some c =>
    exact ⟨1, t, c, bucket_ready 0 t b c ho, hg, ho, rfl, rfl, fun _ _ h => h, rfl⟩
  | none =>
    obtain ⟨fs, hitA, y, r, hs, hnode, href, hanchor⟩ :=
      pass_found H hg b _ cp hb hp hcp hlt hex
    have hprev : getBucketByIndex (fs + 1) t
        (t.h.getPreviousBucketIndex (newMockEntry b : entry K V).hashKey) = some (t, cp) :=
      bucket_ready fs t _ cp hcp
    have hsearch := search_mono _ fs (fs + 1) _ _ _ hs (by omega)
    have hstep := pass_compose_found (fs + 1) t t b cp y r hitA ho hb0 hprev hsearch hnode href
    have hslot : (t.h.casSlot (getBucketIndices b).1 (getBucketIndices b).2 r).slotOf b =
        some (some r) := by
      rw [slotOf_casSlot t.h b r b hb32 hb32, if_pos ⟨rfl, ho⟩]
    refine ⟨fs + 2, { t with h := (t.h.casSlot (getBucketIndices b).1
      (getBucketIndices b).2 r) }, r, ?_, Good_cas H hg b r hb hanchor, hslot, rfl, ?_, ?_, rfl⟩
    · rw [hstep]
      exact bucket_ready fs _ b r hslot
    · exact casSlot_exponent _ _ _ _
    · intro b2 c2 h2
      exact slotOf_casSlot_keep t.h b r b2 c2 hb32 h2

/-- Bucket resolution returns on every table that satisfies the invariant, and keeps it. -/
theorem materialise (H : Hashable K) : ∀ (N b : Nat), sentinelKey b < N →
    ∀ (t : Table K V) (L : List Nat) (c0 : Nat), Good H t L c0 → b < 2 ^ t.h.exponent →
    ∃ fuel t2 c L2, getBucketByIndex fuel t b = some (t2, c) ∧ Resolved H t L c0 b t2 c L2 := by
  intro N
  induction N with
  | zero => intro b hb; omega
  | succ N ih =>
    intro b hbN t L c0 hg hb
    have he := hg.dir.1
    have hb32 : b < 2 ^ 32 := lt_of_lt_of_le hb (Nat.pow_le_pow_right (by norm_num) (by omega))
    obtain ⟨o, ho⟩ := slotOf_isSome t.h hg.dir b hb
    cases o with
    | some c =>
      exact ⟨1, t, c, L, bucket_ready 0 t b c ho, hg, ho, rfl, rfl, fun _ _ h => h, rfl⟩
    | none =>
      have hb0 : b ≠ 0 := by
        intro h0
        rw [h0, hg.head_slot] at ho
        simp at ho
      have he1 : 1 ≤ t.h.exponent := by
        rcases Nat.eq_zero_or_pos t.h.exponent with h0 | h0
        · rw [h0] at hb; simp at hb; exact absurd hb hb0
        · exact h0
      obtain ⟨hp, hlt, _⟩ := getPreviousBucketIndex_spec t.h b he1 he hb hb0
      obtain ⟨f1, t1, cp, L1, hres1, hg1, hcp1, hview1, hexp1, hkeep1, hhead1⟩ :=
        ih _ (by omega) t L c0 hg hp
      have hb1 : b < 2 ^ t1.h.exponent := by rw [hexp1]; exact hb
      have hp1 : t.h.getPreviousBucketIndex (sentinelKey b) < 2 ^ t1.h.exponent := by
        rw [hexp1]; exact hp
      have hprevEq : t1.h.getPreviousBucketIndex (sentinelKey b) =
          t.h.getPreviousBucketIndex (sentinelKey b) := by
        unfold Hash.getPreviousBucketIndex; rw [hexp1]
      by_cases hex : ∃ y ∈ L1, t1.mem.keyOf y = sentinelKey b
      · obtain ⟨fs, hitA, y, r, hs, hnode, href, hanchor⟩ :=
          pass_found H hg1 b _ cp hb1 hp1 hcp1 hlt hex
        have hF1 : f1 ≤ f1 + fs + 1 := by omega
        have hF2 : fs ≤ f1 + fs + 1 := by omega
        have hstep := pass_compose_found (f1 + fs + 1) t t1 b cp y r hitA ho hb0
          (getBucketByIndex_mono f1 _ _ _ _ hres1 hF1)
          (search_mono _ fs _ _ _ _ hs hF2) hnode href
        obtain ⟨o1, ho1⟩ := slotOf_isSome t1.h hg1.dir b hb1
        have hslot : ∃ c, (t1.h.casSlot (getBucketIndices b).1 (getBucketIndices b).2 r).slotOf b
            = some (some c) := by
          rw [slotOf_casSlot t1.h b r b hb32 hb32]
          cases o1 with
          | none => exact ⟨r, by rw [if_pos ⟨rfl, ho1⟩]⟩
          | some c1 => exact ⟨c1, by rw [if_neg (by rw [ho1]; simp), ho1]⟩
        obtain ⟨c, hc⟩ := hslot
        refine ⟨f1 + fs + 2, { t1 with h := (t1.h.casSlot (getBucketIndices b).1
          (getBucketIndices b).2 r) }, c, L1, ?_, Good_cas H hg1 b r hb1 hanchor, hc, hview1,
          ?_, ?_, hhead1⟩
        · rw [hstep]
          exact bucket_ready (f1 + fs) _ b c hc
        · rw [← hexp1]; exact casSlot_exponent _ _ _ _
        · intro b2 c2 h2
          exact slotOf_casSlot_keep t1.h b r b2 c2 hb32 (hkeep1 b2 c2 h2)
      · have hnex : ∀ y ∈ L1, t1.mem.keyOf y ≠ sentinelKey b := fun y hy hc => hex ⟨y, hy, hc⟩
        obtain ⟨fs, hitA, ln, lnd, L2, hs, hnode, hleft, hln, hg2, hview2, hex2, hhead2⟩ :=
          pass_insert H hg1 b _ cp hb1 hp1 hcp1 hlt hnex
        obtain ⟨f3, t3, c, hres3, hg3, hc3, hview3, hexp3, hkeep3, _⟩ :=
          second_pass H hg2 b cp hb1 hb0 (by rw [hprevEq]; exact hp1)
            (by rw [hprevEq]; exact hcp1) (by rw [hprevEq]; exact hlt) hex2
        have hF1 : f1 ≤ f1 + fs + f3 := by omega
        have hF2 : fs ≤ f1 + fs + f3 := by omega
        have hF3 : f3 ≤ f1 + fs + f3 := by omega
        have hstep := pass_compose_insert (f1 + fs + f3) t t1 b cp ln lnd hitA ho hb0
          (getBucketByIndex_mono f1 _ _ _ _ hres1 hF1)
          (search_mono _ fs _ _ _ _ hs hF2) hnode hleft hln
        refine ⟨f1 + fs + f3 + 1, t3, c, L2, ?_, hg3, hc3, ?_, ?_, ?_, ?_⟩
        · rw [hstep]
          exact getBucketByIndex_mono f3 _ _ _ _ hres3 hF3
        · rw [hview3, hview2, hview1]
        · rw [hexp3]; exact hexp1
        · intro b2 c2 h2
          exact hkeep3 b2 c2 (hkeep1 b2 c2 h2)
        · rw [hhead2, hhead1]

theorem NewHash_resolve (f : Nat) :
    getBucketByIndex (f + 2) (NewHash : Table K V) 0 = some (firstTable, 0) := by
  rfl

theorem firstTable_dir : DirOK (firstTable : Table K V).h := by
  refine ⟨by simp [firstTable], by simp [firstTable, MAX_EXPONENT], ?_⟩
  intro k hk
  constructor
  · intro hle
    have hk0 : k = 0 := by
      have : k ≤ 0 := hle
      omega
    subst hk0
    exact ⟨[some 0], rfl, rfl⟩
  · intro hlt
    have hk0 : 0 < k := hlt
    show ((List.replicate MAX_EXPONENT none).set 0 (some [some 0]))[k]? = some none
    rw [List.getElem?_set_ne (by omega), List.getElem?_replicate]
    simp [MAX_EXPONENT, hk]

theorem firstTable_view : (firstTable : Table K V).mem.view [0] = [] := by
  unfold Mem.view
  simp only [List.filterMap_cons, List.filterMap_nil]
  have : (firstTable : Table K V).mem.viewOf 0 = none := by
    rw [viewOf_of_some (firstTable : Table K V).mem 0 { value := newMockEntry 0, next := 1 } rfl]
    exact entView_mock 0
  rw [this]

theorem firstTable_good (H : Hashable K) : Good H (firstTable : Table K V) [0] 0 := by
  have hnodes : ∀ (n : Nat) (nd : node K V), (firstTable : Table K V).mem.nodes[n]? = some nd →
      n = 0 ∧ nd = { value := newMockEntry 0, next := 1 } := by
    intro n nd h
    cases n with
    | zero =>
      simp only [firstTable, List.getElem?_cons_zero, Option.some.injEq] at h
      exact ⟨rfl, h.symm⟩
    | succ n => simp [firstTable] at h
  have hview : (firstTable : Table K V).mem.view [0] = [] := firstTable_view
  exact
    { dir := firstTable_dir
      lf := rfl
      next_lt := fun n nd h => by
        obtain ⟨_, h2⟩ := hnodes n nd h
        rw [h2]; simp [firstTable]
      next_inj := fun n1 n2 nd1 nd2 h1 h2 _ => by
        rw [(hnodes n1 nd1 h1).1, (hnodes n2 nd2 h2).1]
      head_slot := rfl
      head_ne := fun n nd h => by
        obtain ⟨_, h2⟩ := hnodes n nd h
        rw [h2]; simp
      chain := Path.cons 0 0 { value := newMockEntry 0, next := 1 } [] none rfl rfl
        (Path.nil 1 none rfl)
      nodup := by simp
      first := ⟨0, [], { value := newMockEntry 0, next := 1 }, rfl, rfl, rfl⟩
      entries := fun n hn => by
        simp only [List.mem_singleton] at hn
        subst hn
        exact ⟨{ value := newMockEntry 0, next := 1 }, rfl, Or.inr ⟨0, by simp [firstTable], rfl⟩⟩
      sorted := by simp
      anchors := fun b c hb hs => by
        have hb0 : b = 0 := by
          have : b < 2 ^ 0 := hb
          simpa using this
        subst hb0
        have hc : c = 0 := by
          have h1 : (firstTable : Table K V).h.slotOf 0 = some (some 0) := rfl
          rw [h1] at hs
          simp only [Option.some.injEq] at hs
          exact hs.symm
        subst hc
        exact ⟨[], 0, { value := newMockEntry 0, next := 1 }, Path.nil 0 (some 0) rfl,
          by simp, rfl, rfl, by simp⟩
      size := by rw [hview]; rfl
      load := by
        show (0 : Int) ≤ _
        unfold Hash.threshold
        exact Int.ofNat_nonneg _ }

/-- Bucket resolution on a table that satisfies the abstraction relation. -/
theorem resolve (H : Hashable K) (t : Table K V) (mp : List (K × V)) (ha : Abs H t mp)
    (b : Nat) (hb : b < 2 ^ t.h.exponent) :
    ∃ fuel t2 c L2 c0, getBucketByIndex fuel t b = some (t2, c) ∧ Good H t2 L2 c0 ∧
      Anchor t2.mem L2 c b ∧ t2.mem.view L2 = mp ∧ t2.h.exponent = t.h.exponent ∧
      t2.h.size = t.h.size := by
  rcases ha with ⟨ht, hmp⟩ | ⟨L, c0, hg, hv⟩
  · subst ht hmp
    have hb0 : b = 0 := by
      have : b < 2 ^ 0 := hb
      simpa using this
    subst hb0
    have hg := firstTable_good (V := V) H
    exact ⟨2, firstTable, 0, [0], 0, NewHash_resolve 0, hg,
      hg.anchors 0 0 (by simp [firstTable]) rfl, firstTable_view, rfl, rfl⟩
  · obtain ⟨fuel, t2, c, L2, hres, hg2, hc, hview, hexp, _⟩ :=
      materialise H (sentinelKey b + 1) b (by omega) t L c0 hg hb
    refine ⟨fuel, t2, c, L2, c0, hres, hg2, hg2.anchors b c (by rw [hexp]; exact hb) hc,
      by rw [hview, hv], hexp, ?_⟩
    rw [hg2.size, hg.size, hview]

theorem Good.real_of_mem {H : Hashable K} {t : Table K V} {L : List Nat} {c0 : Nat}
    (hg : Good H t L c0) (n : Nat) (hn : n ∈ L) (nd : node K V)
    (hnd : t.mem.nodes[n]? = some nd) (hr : nd.value.real = true) :
    ∃ kz vz, nd.value = newRealEntry H kz (some vz) := by
  obtain ⟨nd2, h1, h2⟩ := hg.entries n hn
  rw [hnd] at h1
  simp only [Option.some.injEq] at h1
  subst h1
  rcases h2 with ⟨k, v, e⟩ | ⟨b, _, e⟩
  · exact ⟨k, v, e⟩
  · rw [e, newMockEntry_real] at hr
    exact absurd hr (by simp)

theorem Good.rel {H : Hashable K} {t : Table K V} {L : List Nat} {c0 : Nat}
    (hg : Good H t L c0) (X Y : List Nat) (hL : L = X ++ Y) (a : Nat) (ha : a ∈ X) (b : Nat)
    (hb : b ∈ Y) : t.mem.Rel H a b := by
  have hs := hg.sorted
  rw [hL, List.pairwise_append] at hs
  exact hs.2.2 a ha b hb

/-- A real node of the list whose key equals `k` has the hash code and sort key of `k`. -/
theorem Good.equal_key {H : Hashable K} (hl : Lawful H) {t : Table K V} {L : List Nat}
    {c0 : Nat} (hg : Good H t L c0) (k : K) (n : Nat) (hn : n ∈ L) (nd : node K V) (kz : K)
    (hnd : t.mem.nodes[n]? = some nd) (hr : nd.value.real = true)
    (hkey : nd.value.key = some kz) (heq : H.Equals k kz = true) :
    nd.value.hashKey = realKey (H.HashCode k % U32) ∧
      nd.value.hashCode = H.HashCode k % U32 := by
  obtain ⟨k2, v2, e⟩ := hg.real_of_mem n hn nd hnd hr
  rw [e] at hkey ⊢
  have h1 : some k2 = some kz := hkey
  simp only [Option.some.injEq] at h1
  subst h1
  have h2 := hl.hash k k2 heq
  constructor
  · rw [newRealEntry_hashKey, h2]
  · show H.HashCode k2 % U32 = _
    rw [h2]

/-- A real node of the list of hash code `hc` has sort key `realKey hc`. -/
theorem Good.tied_key {H : Hashable K} {t : Table K V} {L : List Nat} {c0 : Nat}
    (hg : Good H t L c0) (hc : Nat) (n : Nat) (hn : n ∈ L) (nd : node K V)
    (hnd : t.mem.nodes[n]? = some nd) (hr : nd.value.real = true)
    (hcode : nd.value.hashCode = hc) : nd.value.hashKey = realKey hc := by
  obtain ⟨k2, v2, e⟩ := hg.real_of_mem n hn nd hnd hr
  rw [e] at hcode ⊢
  have h1 : H.HashCode k2 % U32 = hc := hcode
  rw [newRealEntry_hashKey, h1]

theorem skipHit_last {m : Mem K V} {c : Nat} {T : List Nat} {o : Option Nat}
    (hp : Path m c T o) (rv : hit) (left : Nat) (hr : rv.ref = some c)
    (hn : rv.node = nodeRef.node m c) (hl : rv.leftNode = some left)
    (hc : c = m.nextOf left) :
    ∃ Q p, left :: T = Q ++ [p] ∧ (skipHit m rv T).leftNode = some p ∧
      (skipHit m rv T).ref = some (m.nextOf p) := by
  rcases List.eq_nil_or_concat T with h | ⟨T2, p, h⟩
  · subst h
    refine ⟨[], left, rfl, hl, ?_⟩
    rw [← hc]; exact hr
  · rw [List.concat_eq_append] at h
    subst h
    obtain ⟨pT, pd, hpd, _⟩ := Path_split T2 hp
    refine ⟨left :: T2, p, rfl, ?_, ?_⟩
    · rw [skipHit_snoc]; exact skipHit_node pT rv hr hn
    · rw [skipHit_snoc]

/-- The walk ended without a match: the nodes `T1` walked over are tied entries of other
keys, and the node the walk stopped at, if any, is not an entry of the probed hash
code. -/
theorem absent_of (H : Hashable K) (hl : Lawful H) {t : Table K V} {L : List Nat} {c0 : Nat}
    (hg : Good H t L c0) (k : K) (pe : entry K V)
    (hpc : pe.hashCode = H.HashCode k % U32)
    (hpk : pe.hashKey = realKey (H.HashCode k % U32)) (hpkey : pe.key = some k)
    (A : List Nat) (left : Nat) (T1 B3 : List Nat) (hL : L = A ++ left :: (T1 ++ B3))
    (hkA : ∀ a ∈ A ++ [left], t.mem.keyOf a < pe.hashKey)
    (hkB : ∀ y ∈ T1 ++ B3, pe.hashKey ≤ t.mem.keyOf y)
    (hT : ∀ n ∈ T1, t.mem.tiedOther H pe n)
    (hz : ∀ z zd, B3.head? = some z → t.mem.nodes[z]? = some zd →
      zd.value.real = false ∨ zd.value.hashCode ≠ pe.hashCode)
    (Q : List Nat) (p : Nat) (hQ : left :: T1 = Q ++ [p])
    (hitA hitB : hit) (hnode : hitB.node = none) (hleft : hitB.leftNode = some p)
    (hstrict : ∀ pd, t.mem.nodes[p]? = some pd → nodeRef.node t.mem pd.next = hitA.rightNode →
      ∀ y ∈ B3, pe.hashKey < t.mem.keyOf y) :
    LocAbsent H t.mem L k pe hitA hitB := by
  have hL1 : L = (A ++ [left]) ++ (T1 ++ B3) := by rw [hL]; simp
  have hL2 : L = (A ++ Q) ++ p :: B3 := by
    rw [hL]
    have : A ++ left :: (T1 ++ B3) = A ++ ((left :: T1) ++ B3) := by simp
    rw [this, hQ]; simp
  have hpL : p ∈ L := by rw [hL2]; simp
  obtain ⟨pd, hpd⟩ := hg.node_of_mem hpL
  refine ⟨hnode, ?_, A ++ Q, p, B3, pd, hL2, hleft, hpd, ?_⟩
  · intro n hn nd kz hnd hr hkey
    cases heq : H.Equals k kz with
    | false => rfl
    | true =>
      exfalso
      obtain ⟨hk1, hk2⟩ := hg.equal_key hl k n hn nd kz hnd hr hkey heq
      have hkn : t.mem.keyOf n = pe.hashKey := by rw [keyOf_of_some _ _ _ hnd, hk1, hpk]
      rw [hL1] at hn
      rcases List.mem_append.1 hn with h | h
      · have := hkA n h; omega
      · rcases List.mem_append.1 h with h | h
        · obtain ⟨nd2, ck, ek, e1, e2, e3, e4, e5, e6⟩ := hT n h
          rw [hnd] at e1
          simp only [Option.some.injEq] at e1
          subst e1
          rw [hpkey] at e4
          rw [hkey] at e5
          simp only [Option.some.injEq] at e4 e5
          subst e4 e5
          rw [heq] at e6
          exact absurd e6 (by simp)
        · cases B3 with
          | nil => simp at h
          | cons z B4 =>
            rcases List.mem_cons.1 h with h | h
            · subst h
              rcases hz n nd rfl hnd with h1 | h1
              · rw [hr] at h1; exact absurd h1 (by simp)
              · exact h1 (by rw [hk2, hpc])
            · have hzL : z ∈ L := by rw [hL]; simp
              obtain ⟨zd, hzd⟩ := hg.node_of_mem hzL
              have hL3 : L = (A ++ left :: (T1 ++ [z])) ++ B4 := by rw [hL]; simp
              have hrel := hg.rel _ B4 hL3 z (by simp) n h zd nd hzd hnd
              have hzk := hkB z (by simp)
              rw [keyOf_of_some _ _ _ hzd] at hzk
              rw [keyOf_of_some _ _ _ hnd] at hkn
              have hkeq : zd.value.hashKey = nd.value.hashKey := by
                have := hrel.1; omega
              obtain ⟨r1, r2, _⟩ := hrel.2 hkeq
              rcases hz z zd rfl hzd with h1 | h1
              · rw [r1] at h1; exact absurd h1 (by simp)
              · exact h1 (by rw [r2, hk2, hpc])
  · intro hpush
    constructor
    · intro a ha na hna
      have ha2 : a ∈ A ++ (left :: T1) := by
        rw [hQ]; simpa [List.append_assoc] using ha
      have hlow : t.mem.keyOf a < pe.hashKey → entRel H na.value pe := by
        intro hlt
        rw [keyOf_of_some _ _ _ hna] at hlt
        exact ⟨by omega, fun h => by omega⟩
      rcases List.mem_append.1 ha2 with h | h
      · exact hlow (hkA a (by simp [h]))
      · rcases List.mem_cons.1 h with h | h
        · exact hlow (hkA a (by simp [h]))
        · obtain ⟨nd2, ck, ek, e1, e2, e3, e4, e5, e6⟩ := hT a h
          rw [hna] at e1
          simp only [Option.some.injEq] at e1
          subst e1
          have haL : a ∈ L := by rw [hL]; simp [h]
          have hka := hg.tied_key pe.hashCode a haL na hna e2 e3
          rw [hpc, ← hpk] at hka
          refine ⟨by omega, fun _ => ⟨e2, e3, ?_⟩⟩
          intro k1 k2 h1 h2
          rw [e5] at h1
          rw [e4] at h2
          simp only [Option.some.injEq] at h1 h2
          subst h1 h2
          cases hx : H.Equals ek ck with
          | false => rfl
          | true =>
            have := hl.symm ek ck hx
            rw [this] at e6
            exact absurd e6 (by simp)
    · intro y hy nb hnb
      have := hstrict pd hpd hpush y hy
      rw [keyOf_of_some _ _ _ hnb] at this
      exact ⟨⟨by omega, fun h => by omega⟩, this⟩

/-- The walk of `hashHit.search` from the result of the list search, on a table that
satisfies the invariant. -/
theorem walk_spec (H : Hashable K) (hl : Lawful H) {t : Table K V} {L : List Nat} {c0 : Nat}
    (hg : Good H t L c0) (k : K) (pe : entry K V)
    (hpc : pe.hashCode = H.HashCode k % U32)
    (hpk : pe.hashKey = realKey (H.HashCode k % U32)) (hpkey : pe.key = some k)
    (A : List Nat) (left : Nat) (B : List Nat) (hitA : hit) (hL : L = A ++ left :: B)
    (hkA : ∀ a ∈ A ++ [left], t.mem.keyOf a < pe.hashKey)
    (hkB : ∀ y ∈ B, pe.hashKey ≤ t.mem.keyOf y)
    (hres : SearchRes t.mem pe.hashKey left B hitA) :
    ∃ fuel hitB, hashHit.search H t.mem fuel hitA pe = some hitB ∧
      (LocFound H t.mem L k hitB ∨ LocAbsent H t.mem L k pe hitA hitB) := by
  obtain ⟨hleftA, hresB⟩ := hres
  have hleftL : left ∈ L := by rw [hL]; simp
  obtain ⟨ld, hld⟩ := hg.node_of_mem hleftL
  have hnext : t.mem.nextOf left = ld.next := nextOf_of_some _ _ _ hld
  have hpathB : Path t.mem ld.next B none := by
    have hc := hg.chain
    rw [hL] at hc
    obtain ⟨_, ld2, hld2, hp2⟩ := Path_split A hc
    rw [hld] at hld2
    simp only [Option.some.injEq] at hld2
    subst hld2
    exact hp2
  cases B with
  | nil =>
    refine ⟨1, hitA, hashHit_stop_nil H pe 0 hitA hresB.1, Or.inr ?_⟩
    exact absent_of H hl hg k pe hpc hpk hpkey A left [] [] (by simpa using hL) hkA
      (by simp) (by simp) (by simp) [] left rfl hitA hitA hresB.1 hleftA (by simp)
  | cons y B2 =>
    have hyL : y ∈ L := by rw [hL]; simp
    obtain ⟨yd, hyd⟩ := hg.node_of_mem hyL
    have hyge := hkB y (by simp)
    have htail : ∀ y2 ∈ B2, t.mem.keyOf y ≤ t.mem.keyOf y2 := by
      intro y2 hy2
      have e2 : L = ((A ++ [left]) ++ [y]) ++ B2 := by rw [hL]; simp
      exact hg.key_le _ B2 e2 y (by simp) y2 hy2
    by_cases hgt : pe.hashKey < t.mem.keyOf y
    · obtain ⟨h1, h2⟩ := hresB.1 hgt
      refine ⟨1, hitA, hashHit_stop_nil H pe 0 hitA h1, Or.inr ?_⟩
      refine absent_of H hl hg k pe hpc hpk hpkey A left [] (y :: B2) (by simpa using hL) hkA
        (by simpa using hkB) (by simp) ?_ [] left rfl hitA hitA h1 hleftA ?_
      · intro z zd hz hzd
        simp only [List.head?_cons, Option.some.injEq] at hz
        subst hz
        rw [hyd] at hzd
        simp only [Option.some.injEq] at hzd
        subst hzd
        cases hr : yd.value.real with
        | false => exact Or.inl rfl
        | true =>
          right
          intro hc
          have := hg.tied_key pe.hashCode y hyL yd hyd hr hc
          rw [hpc, ← hpk] at this
          rw [keyOf_of_some _ _ _ hyd] at hgt
          omega
      · intro _ _ _ y2 hy2
        rcases List.mem_cons.1 hy2 with h | h
        · rw [h]; exact hgt
        · have := htail y2 h; omega
    · have heq : t.mem.keyOf y = pe.hashKey := by omega
      obtain ⟨hnodeA, hrefA, hrightA⟩ := hresB.2 heq
      obtain ⟨T1, B3, hsplit, hT, hB3⟩ := split_pred (fun n => t.mem.tiedOther H pe n) (y :: B2)
      rw [hsplit] at hpathB hL hkB
      have hpT : Path t.mem ld.next T1 B3.head? := Path_front T1 B3 hpathB
      have hcellY : nodeRef.node t.mem ld.next = some y := by
        have := node_eq_of_cells _ _ _ (Path_cell_head hpathB)
        rw [← hsplit] at this
        exact this
      have hnodeA2 : hitA.node = nodeRef.node t.mem ld.next := by rw [hnodeA, hcellY]
      have hrefA2 : hitA.ref = some ld.next := by rw [hrefA, hnext]
      have hskip := hashHit_skip H pe hpT hitA 1 hnodeA2 hT
      obtain ⟨Q, p, hQ, hleftB, hrefB⟩ :=
        skipHit_last hpT hitA left hrefA2 hnodeA2 hleftA hnext.symm
      have hnodeB : (skipHit t.mem hitA T1).node = B3.head? :=
        skipHit_node hpT hitA hrefA2 hnodeA2
      have hL2 : L = (A ++ Q) ++ p :: B3 := by
        rw [hL]
        have : A ++ left :: (T1 ++ B3) = A ++ ((left :: T1) ++ B3) := by simp
        rw [this, hQ]; simp
      cases B3 with
      | nil =>
        refine ⟨1 + T1.length, skipHit t.mem hitA T1, ?_, Or.inr ?_⟩
        · show hashHit.searchLoop H t.mem pe (1 + T1.length) hitA = _
          rw [hskip]
          exact hashHit_stop_nil H pe 0 _ hnodeB
        · exact absent_of H hl hg k pe hpc hpk hpkey A left T1 [] hL hkA hkB hT (by simp)
            Q p hQ hitA _ hnodeB hleftB (by simp)
      | cons z B4 =>
        have hzL : z ∈ L := by rw [hL]; simp
        obtain ⟨zd, hzd⟩ := hg.node_of_mem hzL
        have hnodeZ : (skipHit t.mem hitA T1).node = some z := hnodeB
        by_cases hzr : zd.value.real = true ∧ zd.value.hashCode = pe.hashCode
        · obtain ⟨kz, vz, ez⟩ := hg.real_of_mem z hzL zd hzd hzr.1
          have hzkey : zd.value.key = some kz := by rw [ez]; rfl
          cases hE : H.Equals k kz with
          | false =>
            exact absurd ⟨zd, k, kz, hzd, hzr.1, hzr.2, hpkey, hzkey, hE⟩ (hB3 z rfl)
          | true =>
            refine ⟨1 + T1.length, skipHit t.mem hitA T1, ?_, Or.inl ?_⟩
            · show hashHit.searchLoop H t.mem pe (1 + T1.length) hitA = _
              rw [hskip]
              exact hashHit_stop_found H pe 0 _ z zd k kz hnodeZ hzd hzr.1 hzr.2 hpkey hzkey hE
            · exact ⟨A ++ Q, p, z, B4, zd, kz, vz, hL2, hnodeZ, hrefB, hzd, ez, hE⟩
        · have hother : zd.value.real = false ∨ zd.value.hashCode ≠ pe.hashCode := by
            cases hr : zd.value.real with
            | false => exact Or.inl rfl
            | true => exact Or.inr (fun hc => hzr ⟨hr, hc⟩)
          have hstop := hashHit_stop_other H pe 0 _ z zd hnodeZ hzd hother
          rw [← hskip] at hstop
          refine ⟨1 + T1.length, _, hstop, Or.inr ?_⟩
          · refine absent_of H hl hg k pe hpc hpk hpkey A left T1 (z :: B4) hL hkA hkB hT ?_
              Q p hQ hitA _ rfl hleftB ?_
            · intro z2 zd2 hz2 hzd2
              simp only [List.head?_cons, Option.some.injEq] at hz2
              subst hz2
              rw [hzd] at hzd2
              simp only [Option.some.injEq] at hzd2
              subst hzd2
              exact hother
            · intro pd hpd hpush y2 hy2
              have hzgt : pe.hashKey < t.mem.keyOf z := by
                cases T1 with
                | nil =>
                  exfalso
                  simp only [List.nil_append, List.cons.injEq] at hsplit
                  obtain ⟨hyz, hB24⟩ := hsplit
                  have hpl : p = left := by
                    have h1 : [left] = Q ++ [p] := hQ
                    have h2 := congrArg List.getLast? h1
                    simp at h2
                    exact h2.symm
                  subst hpl
                  rw [hld] at hpd
                  simp only [Option.some.injEq] at hpd
                  subst hpd
                  rw [hcellY, hrightA] at hpush
                  have hyB2 : y ∈ B2 := List.mem_of_mem_head? hpush.symm
                  have hnd := hg.nodup
                  rw [hL] at hnd
                  simp only [List.nil_append] at hnd
                  rw [← hyz, ← hB24] at hnd
                  have h3 := (List.nodup_append.1 hnd).2.1
                  have h4 := (List.nodup_cons.1 h3).2
                  exact (List.nodup_cons.1 h4).1 hyB2
                | cons a T2 =>
                  by_contra hcon
                  have hzk := hkB z (by simp)
                  have hzeq : t.mem.keyOf z = pe.hashKey := by omega
                  simp only [List.cons_append, List.cons.injEq] at hsplit
                  obtain ⟨hya, _⟩ := hsplit
                  subst hya
                  obtain ⟨nd2, ck, ek, e1, e2, e3, e4, e5, e6⟩ := hT y (by simp)
                  rw [hyd] at e1
                  simp only [Option.some.injEq] at e1
                  subst e1
                  have hL3 : L = (A ++ left :: y :: T2) ++ z :: B4 := by rw [hL]; simp
                  have hrel := hg.rel _ _ hL3 y (by simp) z (by simp) yd zd hyd hzd
                  rw [keyOf_of_some _ _ _ hyd] at heq
                  rw [keyOf_of_some _ _ _ hzd] at hzeq
                  obtain ⟨_, r2, _⟩ := hrel.2 (by omega)
                  have hzreal : zd.value.real = true := by
                    rw [real_iff, hzeq, hpk]
                    exact realKey_odd _
                  exact hzr ⟨hzreal, by rw [← r2, e3]⟩
              rcases List.mem_cons.1 hy2 with h | h
              · rw [h]; exact hzgt
              · have hL4 : L = (A ++ left :: (T1 ++ [z])) ++ B4 := by rw [hL]; simp
                have := hg.key_le _ B4 hL4 z (by simp) y2 h
                omega

theorem Abs.exponent_le {H : Hashable K} {t : Table K V} {mp : List (K × V)}
    (ha : Abs H t mp) : t.h.exponent ≤ 31 := by
  rcases ha with ⟨ht, _⟩ | ⟨L, c0, hg, _⟩
  · subst ht; exact Nat.zero_le _
  · exact hg.dir.1

/-- The two searches shared by `Get`, `Put` and `Delete` return on every table that
satisfies the abstraction relation: the table they leave satisfies the invariant and holds
the same map, and the second hit tells whether the key is present. -/
theorem locate_spec (H : Hashable K) (hl : Lawful H) (t : Table K V) (mp : List (K × V))
    (ha : Abs H t mp) (k : K) (v : Option V) :
    ∃ fuel t2 hitA hitB L c0,
      locate H fuel t (newRealEntry H k v) = some (t2, hitA, hitB) ∧
      Good H t2 L c0 ∧ t2.mem.view L = mp ∧ t2.h.exponent = t.h.exponent ∧
      t2.h.size = t.h.size ∧
      (LocFound H t2.mem L k hitB ∨
        LocAbsent H t2.mem L k (newRealEntry H k v) hitA hitB) := by
  have he := ha.exponent_le
  have hbi := bucketIndex_eq t.h (H.HashCode k % U32) he
  have hb : H.HashCode k % U32 % 2 ^ t.h.exponent < 2 ^ t.h.exponent :=
    Nat.mod_lt _ (Nat.two_pow_pos _)
  obtain ⟨f1, t2, c, L, c0, hres, hg, hanchor, hview, hexp, hsize⟩ :=
    resolve H t mp ha _ hb
  obtain ⟨A, left, B, f2, hitA, hL, hkA, hkB, hs, hsr⟩ :=
    search_spec H hg c _ hanchor (newRealEntry H k v)
      (by rw [newRealEntry_hashKey]; exact sentinelKey_lt_realKey _ _)
  obtain ⟨f3, hitB, hw, hcase⟩ :=
    walk_spec H hl hg k (newRealEntry H k v) rfl rfl rfl A left B hitA hL hkA hkB hsr
  refine ⟨f1 + f2 + f3, t2, hitA, hitB, L, c0, ?_, hg, hview, hexp, hsize, hcase⟩
  unfold locate getBucketByHashCode
  have e1 : (newRealEntry H k v).hashCode = H.HashCode k % U32 := rfl
  rw [e1, hbi, getBucketByIndex_mono f1 (f1 + f2 + f3) _ _ _ hres (by omega)]
  simp only
  rw [search_mono _ f2 (f1 + f2 + f3) _ _ _ hs (by omega)]
  simp only
  rw [hashHit_search_mono H _ f3 (f1 + f2 + f3) _ _ _ hw (by omega)]

theorem lookupE_absent (H : Hashable K) (k : K) (mp : List (K × V))
    (h : ∀ p ∈ mp, H.Equals k p.1 = false) : lookupE H k mp = none := by
  unfold lookupE
  rw [List.find?_eq_none.2 (fun p hp => by simp [h p hp])]
  rfl

theorem lookupE_none (H : Hashable K) (k : K) (mp : List (K × V))
    (h : lookupE H k mp = none) : ∀ p ∈ mp, H.Equals k p.1 = false := by
  unfold lookupE at h
  simp only [Option.map_eq_none'] at h
  intro p hp
  have := List.find?_eq_none.1 h p hp
  simpa using this

theorem lookupE_append_absent (H : Hashable K) (k : K) (X Y : List (K × V))
    (h : ∀ p ∈ X, H.Equals k p.1 = false) : lookupE H k (X ++ Y) = lookupE H k Y := by
  unfold lookupE
  rw [List.find?_append, List.find?_eq_none.2 (fun p hp => by simp [h p hp])]
  rfl

theorem lookupE_cons_eq (H : Hashable K) (k kz : K) (vz : V) (Y : List (K × V))
    (h : H.Equals k kz = true) : lookupE H k ((kz, vz) :: Y) = some vz := by
  unfold lookupE
  rw [List.find?_cons_of_pos _ (by simpa using h)]
  rfl

/-- In a map without equal keys, the entries around an entry of key equal to `k` have
keys different from `k`. -/
theorem Distinct.others (H : Hashable K) (hl : Lawful H) (k kz : K) (vz : V)
    (X Y : List (K × V)) (hd : Distinct H (X ++ (kz, vz) :: Y)) (he : H.Equals k kz = true) :
    (∀ p ∈ X, H.Equals k p.1 = false) ∧ (∀ p ∈ Y, H.Equals k p.1 = false) := by
  unfold Distinct at hd
  rw [List.pairwise_append] at hd
  obtain ⟨_, h2, h3⟩ := hd
  rw [List.pairwise_cons] at h2
  constructor
  · intro p hp
    have h4 := h3 p hp (kz, vz) (by simp)
    cases hx : H.Equals k p.1 with
    | false => rfl
    | true =>
      have h5 := hl.trans p.1 k kz (hl.symm k p.1 hx) he
      simp only at h4
      rw [h5] at h4
      exact absurd h4 (by simp)
  · intro p hp
    have h4 := h2.1 p hp
    cases hx : H.Equals k p.1 with
    | false => rfl
    | true =>
      have h5 := hl.trans kz k p.1 (hl.symm k kz he) hx
      simp only at h4
      rw [h5] at h4
      exact absurd h4 (by simp)

theorem lookupE_found (H : Hashable K) (hl : Lawful H) (k kz : K) (vz : V)
    (X Y : List (K × V)) (hd : Distinct H (X ++ (kz, vz) :: Y)) (he : H.Equals k kz = true) :
    lookupE H k (X ++ (kz, vz) :: Y) = some vz := by
  rw [lookupE_append_absent H k X _ (Distinct.others H hl k kz vz X Y hd he).1]
  exact lookupE_cons_eq H k kz vz Y he

theorem map_absent (H : Hashable K) (k : K) (v : V) (X : List (K × V))
    (h : ∀ p ∈ X, H.Equals k p.1 = false) :
    X.map (fun p => if H.Equals k p.1 then (p.1, v) else p) = X := by
  induction X with
  | nil => rfl
  | cons a X ih =>
    rw [List.map_cons, ih (fun p hp => h p (List.mem_cons_of_mem _ hp))]
    rw [h a (by simp)]
    rfl

theorem filter_absent (H : Hashable K) (k : K) (X : List (K × V))
    (h : ∀ p ∈ X, H.Equals k p.1 = false) :
    X.filter (fun p => !H.Equals k p.1) = X := by
  rw [List.filter_eq_self]
  intro p hp
  rw [h p hp]
  rfl

theorem specPut_found (H : Hashable K) (hl : Lawful H) (k kz : K) (vz v : V)
    (X Y : List (K × V)) (hd : Distinct H (X ++ (kz, vz) :: Y)) (he : H.Equals k kz = true) :
    specPut H (X ++ (kz, vz) :: Y) k v = X ++ (kz, v) :: Y := by
  obtain ⟨h1, h2⟩ := Distinct.others H hl k kz vz X Y hd he
  unfold specPut
  have hany : (X ++ (kz, vz) :: Y).any (fun p => H.Equals k p.1) = true := by
    rw [List.any_eq_true]
    exact ⟨(kz, vz), by simp, he⟩
  rw [if_pos hany, List.map_append, List.map_cons, map_absent H k v X h1,
    map_absent H k v Y h2]
  simp only [he, if_true]

theorem specPut_absent (H : Hashable K) (k : K) (v : V) (mp : List (K × V))
    (h : ∀ p ∈ mp, H.Equals k p.1 = false) : specPut H mp k v = (k, v) :: mp := by
  unfold specPut
  have hany : ¬ (mp.any (fun p => H.Equals k p.1) = true) := by
    rw [List.any_eq_true]
    rintro ⟨p, hp, hx⟩
    rw [h p hp] at hx
    exact absurd hx (by simp)
  rw [if_neg hany]

theorem specDelete_found (H : Hashable K) (hl : Lawful H) (k kz : K) (vz : V)
    (X Y : List (K × V)) (hd : Distinct H (X ++ (kz, vz) :: Y)) (he : H.Equals k kz = true) :
    specDelete H (X ++ (kz, vz) :: Y) k = X ++ Y := by
  obtain ⟨h1, h2⟩ := Distinct.others H hl k kz vz X Y hd he
  unfold specDelete
  rw [List.filter_append, List.filter_cons, filter_absent H k X h1, filter_absent H k Y h2]
  simp only [he, Bool.not_true]
  rfl

theorem specDelete_absent (H : Hashable K) (k : K) (mp : List (K × V))
    (h : ∀ p ∈ mp, H.Equals k p.1 = false) : specDelete H mp k = mp :=
  filter_absent H k mp h

theorem Distinct.perm (H : Hashable K) (hl : Lawful H) {mp m : List (K × V)}
    (hp : mp.Perm m) (hd : Distinct H mp) : Distinct H m := by
  unfold Distinct at hd ⊢
  refine (hp.pairwise_iff ?_).1 hd
  intro a b hab
  cases hx : H.Equals b.1 a.1 with
  | false => rfl
  | true =>
    have := hl.symm b.1 a.1 hx
    rw [this] at hab
    exact absurd hab (by simp)

theorem lookupE_some (H : Hashable K) (k : K) (v : V) (mp : List (K × V))
    (h : lookupE H k mp = some v) :
    ∃ X kz Y, mp = X ++ (kz, v) :: Y ∧ H.Equals k kz = true := by
  unfold lookupE at h
  cases hf : mp.find? (fun p => H.Equals k p.1) with
  | none => rw [hf] at h; simp at h
  | some a =>
    rw [hf] at h
    simp only [Option.map_some', Option.some.injEq] at h
    obtain ⟨h1, X, Y, h2, _⟩ := List.find?_eq_some.1 hf
    obtain ⟨kz, vz⟩ := a
    simp only at h h1
    subst h
    exact ⟨X, kz, Y, h2, h1⟩

theorem lookupE_perm (H : Hashable K) (hl : Lawful H) (k : K) {mp m : List (K × V)}
    (hp : mp.Perm m) (hd : Distinct H mp) : lookupE H k mp = lookupE H k m := by
  cases h : lookupE H k mp with
  | none =>
    have h1 := lookupE_none H k mp h
    exact (lookupE_absent H k m (fun p hpm => h1 p (hp.mem_iff.2 hpm))).symm
  | some v =>
    obtain ⟨X, kz, Y, h1, h2⟩ := lookupE_some H k v mp h
    have hmem : (kz, v) ∈ m := hp.mem_iff.1 (by rw [h1]; simp)
    obtain ⟨X2, Y2, h3⟩ := List.append_of_mem hmem
    have hd2 := Distinct.perm H hl hp hd
    rw [h3] at hd2 ⊢
    exact (lookupE_found H hl k kz v X2 Y2 hd2 h2).symm

theorem specStep_perm (H : Hashable K) {mp m : List (K × V)} (hp : mp.Perm m)
    (op : Op K V) : (specStep H mp op).Perm (specStep H m op) := by
  cases op with
  | Put k v =>
    show (specPut H mp k v).Perm (specPut H m k v)
    unfold specPut
    have hany : mp.any (fun p => H.Equals k p.1) = m.any (fun p => H.Equals k p.1) := by
      rw [Bool.eq_iff_iff, List.any_eq_true, List.any_eq_true]
      constructor
      · rintro ⟨p, h1, h2⟩; exact ⟨p, hp.mem_iff.1 h1, h2⟩
      · rintro ⟨p, h1, h2⟩; exact ⟨p, hp.mem_iff.2 h1, h2⟩
    rw [hany]
    split
    · exact hp.map _
    · exact hp.cons _
  | Delete k => exact hp.filter _
  | Get k => exact hp

theorem entView_some (e : entry K V) (k : K) (v : V) (h : entView e = some (k, v)) :
    e.real = true ∧ e.key = some k ∧ e.value = some (some v) := by
  unfold entView at h
  cases hr : e.real with
  | false => rw [hr] at h; simp at h
  | true =>
    rw [hr] at h
    simp only [if_true] at h
    cases hk : e.key with
    | none => rw [hk] at h; simp at h
    | some k2 =>
      cases hv : e.value with
      | none => rw [hk, hv] at h; simp at h
      | some ov =>
        cases ov with
        | none => rw [hk, hv] at h; simp at h
        | some v2 =>
          rw [hk, hv] at h
          simp only [Option.some.injEq, Prod.mk.injEq] at h
          exact ⟨rfl, by rw [h.1], by rw [h.2]⟩

theorem viewOf_some (m : Mem K V) (n : Nat) (p : K × V) (h : m.viewOf n = some p) :
    ∃ nd, m.nodes[n]? = some nd ∧ entView nd.value = some p := by
  unfold Mem.viewOf at h
  cases hn : m.nodes[n]? with
  | none => rw [hn] at h; simp at h
  | some nd => rw [hn] at h; exact ⟨nd, rfl, h⟩

theorem mem_view (m : Mem K V) (L : List Nat) (p : K × V) (h : p ∈ m.view L) :
    ∃ n ∈ L, ∃ nd, m.nodes[n]? = some nd ∧ nd.value.real = true ∧ nd.value.key = some p.1 := by
  unfold Mem.view at h
  obtain ⟨n, hn, hv⟩ := List.mem_filterMap.1 h
  obtain ⟨nd, h1, h2⟩ := viewOf_some m n p hv
  obtain ⟨h3, h4, _⟩ := entView_some nd.value p.1 p.2 h2
  exact ⟨n, hn, nd, h1, h3, h4⟩

/-- The map held by the list has no two equal keys. -/
theorem Good.view_distinct {H : Hashable K} (hl : Lawful H) {t : Table K V} {L : List Nat}
    {c0 : Nat} (hg : Good H t L c0) : Distinct H (t.mem.view L) := by
  unfold Distinct Mem.view
  have hs : L.Pairwise (fun a b => a ∈ L ∧ b ∈ L ∧ t.mem.Rel H a b) :=
    hg.sorted.imp_of_mem (fun ha hb hr => ⟨ha, hb, hr⟩)
  refine List.Pairwise.filterMap _ ?_ hs
  rintro a b ⟨ha, hb, hr⟩ p hp q hq
  obtain ⟨na, h1, h2⟩ := viewOf_some _ a p hp
  obtain ⟨nb, h3, h4⟩ := viewOf_some _ b q hq
  obtain ⟨a1, a2, _⟩ := entView_some na.value p.1 p.2 h2
  obtain ⟨b1, b2, _⟩ := entView_some nb.value q.1 q.2 h4
  cases hx : H.Equals p.1 q.1 with
  | false => rfl
  | true =>
    obtain ⟨e1, _⟩ := hg.equal_key hl p.1 a ha na p.1 h1 a1 a2 (hl.refl _)
    obtain ⟨e2, _⟩ := hg.equal_key hl p.1 b hb nb q.1 h3 b1 b2 hx
    have := ((hr na nb h1 h3).2 (by rw [e1, e2])).2.2 p.1 q.1 a2 b2
    rw [this] at hx
    exact hx.symm

theorem Abs.distinct {H : Hashable K} (hl : Lawful H) {t : Table K V} {mp : List (K × V)}
    (ha : Abs H t mp) : Distinct H mp := by
  rcases ha with ⟨_, hm⟩ | ⟨L, c0, hg, hv⟩
  · subst hm; exact List.Pairwise.nil
  · rw [← hv]; exact hg.view_distinct hl

theorem Abs.size {H : Hashable K} {t : Table K V} {mp : List (K × V)}
    (ha : Abs H t mp) : t.h.Size = (mp.length : Int) := by
  rcases ha with ⟨ht, hm⟩ | ⟨L, c0, hg, hv⟩
  · subst ht hm; rfl
  · rw [← hv]; exact hg.size

theorem Good.abs {H : Hashable K} {t : Table K V} {L : List Nat} {c0 : Nat}
    (hg : Good H t L c0) : Abs H t (t.mem.view L) :=
  Or.inr ⟨L, c0, hg, rfl⟩

/-- When the walk did not find `k`, no key of the map equals `k`. -/
theorem LocAbsent.view {H : Hashable K} {m : Mem K V} {L : List Nat} {k : K}
    {pe : entry K V} {hitA hitB : hit} (h : LocAbsent H m L k pe hitA hitB) :
    ∀ p ∈ m.view L, H.Equals k p.1 = false := by
  intro p hp
  obtain ⟨n, hn, nd, h1, h2, h3⟩ := mem_view m L p hp
  exact h.2.1 n hn nd p.1 h1 h2 h3

/-- Whatever fuel the two searches return with, their result is the one of
`locate_spec`. -/
theorem locate_sound (H : Hashable K) (hl : Lawful H) (t : Table K V) (mp : List (K × V))
    (ha : Abs H t mp) (k : K) (v : Option V) (f : Nat) (t1 : Table K V) (hitA hitB : hit)
    (h : locate H f t (newRealEntry H k v) = some (t1, hitA, hitB)) :
    ∃ L c0, Good H t1 L c0 ∧ t1.mem.view L = mp ∧ t1.h.exponent = t.h.exponent ∧
      t1.h.size = t.h.size ∧
      (LocFound H t1.mem L k hitB ∨
        LocAbsent H t1.mem L k (newRealEntry H k v) hitA hitB) := by
  obtain ⟨f0, t2, hitA2, hitB2, L, c0, h0, hg, hv, he, hs, hc⟩ := locate_spec H hl t mp ha k v
  have h1 := locate_mono H f (f + f0) _ _ _ h (by omega)
  have h2 := locate_mono H f0 (f + f0) _ _ _ h0 (by omega)
  rw [h1] at h2
  simp only [Option.some.injEq, Prod.mk.injEq] at h2
  obtain ⟨e1, e2, e3⟩ := h2
  subst e1 e2 e3
  exact ⟨L, c0, hg, hv, he, hs, hc⟩

/-- The map held by a list around a real node. -/
theorem found_view (H : Hashable K) (m : Mem K V) (X B : List Nat) (z : Nat) (zd : node K V)
    (kz : K) (vz : V) (hzd : m.nodes[z]? = some zd)
    (hz : zd.value = newRealEntry H kz (some vz)) :
    m.view (X ++ z :: B) = m.view X ++ (kz, vz) :: m.view B := by
  rw [view_append, view_cons, viewOf_of_some m z zd hzd, hz, entView_real]
  rfl

/-- The method `Get` returns on every table that satisfies the abstraction relation, with
the value the map holds for the key; the table it leaves holds the same map. -/
theorem Get_total (H : Hashable K) (hl : Lawful H) (t : Table K V) (mp : List (K × V))
    (ha : Abs H t mp) (k : K) :
    ∃ fuel t1, Get H fuel t k = some (t1, lookupE H k mp) ∧ Abs H t1 mp ∧
      t1.h.exponent = t.h.exponent ∧ t1.h.size = t.h.size := by
  obtain ⟨f, t1, hitA, hitB, L, c0, hloc, hg, hv, he, hs, hc⟩ :=
    locate_spec H hl t mp ha k none
  have habs : Abs H t1 mp := by rw [← hv]; exact hg.abs
  refine ⟨f, t1, ?_, habs, he, hs⟩
  unfold Get
  dsimp only
  rw [hloc]
  rcases hc with ⟨A, p, z, B, zd, kz, vz, hL, hnode, _, hzd, hz, heq⟩ | hab
  · simp only [hnode, hzd]
    have hL2 : L = (A ++ [p]) ++ z :: B := by rw [hL]; simp
    have hview := found_view H t1.mem (A ++ [p]) B z zd kz vz hzd hz
    rw [← hL2, hv] at hview
    have hd := habs.distinct hl
    rw [hview] at hd ⊢
    rw [lookupE_found H hl k kz vz _ _ hd heq, hz]
    rfl
  · simp only [hab.1]
    rw [lookupE_absent H k mp (by rw [← hv]; exact hab.view)]

/-- Whatever fuel `Get` returns with, it returns the value the map holds for the key and
leaves a table that holds the same map. -/
theorem Get_sound (H : Hashable K) (hl : Lawful H) (t : Table K V) (mp : List (K × V))
    (ha : Abs H t mp) (k : K) (f : Nat) (t1 : Table K V) (r : Option V)
    (h : Get H f t k = some (t1, r)) :
    r = lookupE H k mp ∧ Abs H t1 mp ∧ t1.h.exponent = t.h.exponent ∧
      t1.h.size = t.h.size := by
  obtain ⟨f0, t2, h0, habs, he, hs⟩ := Get_total H hl t mp ha k
  have h1 := Get_mono H f (f + f0) _ _ _ h (by omega)
  have h2 := Get_mono H f0 (f + f0) _ _ _ h0 (by omega)
  rw [h1] at h2
  simp only [Option.some.injEq, Prod.mk.injEq] at h2
  obtain ⟨e1, e2⟩ := h2
  subst e1 e2
  exact ⟨rfl, habs, he, hs⟩

/-- The `next` cell of `p` points to the node behind `p` on the list. -/
theorem Good.cell_of_split {H : Hashable K} {t : Table K V} {L : List Nat} {c0 : Nat}
    (hg : Good H t L c0) (A B : List Nat) (p : Nat) (hL : L = A ++ p :: B) :
    nodeRef.node t.mem (t.mem.nextOf p) = B.head? := by
  have hc := hg.chain
  rw [hL] at hc
  obtain ⟨_, pd, hpd, hp2⟩ := Path_split A hc
  rw [nextOf_of_some _ _ _ hpd]
  exact node_eq_of_cells _ _ _ (Path_cell_head hp2)

/-- The method `Delete` returns on every table that satisfies the abstraction relation,
with the value the map holds for the key; the table it leaves holds the map without the
key. -/
theorem Delete_total (H : Hashable K) (hl : Lawful H) (t : Table K V) (mp : List (K × V))
    (ha : Abs H t mp) (k : K) :
    ∃ fuel t1, Delete H fuel t k = some (t1, lookupE H k mp) ∧
      Abs H t1 (specDelete H mp k) ∧ t1.h.exponent = t.h.exponent := by
  obtain ⟨f, t1, hitA, hitB, L, c0, hloc, hg, hv, he, hs, hc⟩ :=
    locate_spec H hl t mp ha k none
  have habs : Abs H t1 mp := by rw [← hv]; exact hg.abs
  have hd := habs.distinct hl
  have hloc2 := locate_mono H f (f + 1) _ _ _ hloc (by omega)
  rcases hc with ⟨A, p, z, B, zd, kz, vz, hL, hnode, href, hzd, hz, heq⟩ | hab
  · have hcell := hg.cell_of_split A (z :: B) p hL
    have hpop := popExact_eq t1.mem (t1.mem.nextOf p) z zd hcell hzd
    have hreal : zd.value.real = true := by rw [hz]; exact newRealEntry_real H kz (some vz)
    obtain ⟨hg2, hview2, _⟩ := Good_pop H hg A B p z hL zd hzd hreal
    have hL2 : L = (A ++ [p]) ++ z :: B := by rw [hL]; simp
    have hview := found_view H t1.mem (A ++ [p]) B z zd kz vz hzd hz
    rw [← hL2, hv] at hview
    rw [hview] at hd
    have habs2 := hg2.abs
    dsimp only at habs2
    rw [hview2, ← specDelete_found H hl k kz vz _ _ hd heq, ← hview] at habs2
    refine ⟨f + 1, _, ?_, habs2, he⟩
    show Delete.loop H (f + 1) (newRealEntry H k none) (f + 1) t = _
    rw [Delete.loop, hloc2]
    simp only [hnode, href, hpop, setCell_nodes, hzd, addSize_neg_spec t1.h hg.load]
    rw [hview, lookupE_found H hl k kz vz _ _ hd heq, hz]
    rfl
  · have hno : ∀ q ∈ mp, H.Equals k q.1 = false := by rw [← hv]; exact hab.view
    refine ⟨f + 1, t1, ?_, ?_, he⟩
    · show Delete.loop H (f + 1) (newRealEntry H k none) (f + 1) t = _
      rw [Delete.loop, hloc2]
      simp only [hab.1]
      rw [lookupE_absent H k mp hno]
    · rw [specDelete_absent H k mp hno]; exact habs

/-- Whatever fuel `Delete` returns with, it returns the value the map holds for the key
and leaves a table that holds the map without the key. -/
theorem Delete_sound (H : Hashable K) (hl : Lawful H) (t : Table K V) (mp : List (K × V))
    (ha : Abs H t mp) (k : K) (f : Nat) (t1 : Table K V) (r : Option V)
    (h : Delete H f t k = some (t1, r)) :
    r = lookupE H k mp ∧ Abs H t1 (specDelete H mp k) ∧ t1.h.exponent = t.h.exponent := by
  obtain ⟨f0, t2, h0, habs, he⟩ := Delete_total H hl t mp ha k
  have h1 := Delete_mono H f (f + f0) _ _ _ h (by omega)
  have h2 := Delete_mono H f0 (f + f0) _ _ _ h0 (by omega)
  rw [h1] at h2
  simp only [Option.some.injEq, Prod.mk.injEq] at h2
  obtain ⟨e1, e2⟩ := h2
  subst e1 e2
  exact ⟨rfl, habs, he⟩

theorem pushBefore_ne (m : Mem K V) (x : Nat) (e : entry K V) (r : Option Nat)
    (h : nodeRef.node m x ≠ r) : nodeRef.pushBefore m x e r = (m, false) := by
  simp [nodeRef.pushBefore, h]

/-- Whatever fuel and number of passes the retry loop of `Put` returns with, it returns the
value the map held for the key, and leaves a table that holds the map with the key
assigned. -/
theorem Put_loop_sound (H : Hashable K) (hl : Lawful H) (k : K) (v : V) (f : Nat) :
    ∀ (retries : Nat) (t : Table K V) (mp : List (K × V)) (t2 : Table K V) (r : Option V),
    Abs H t mp → Put.loop H f (newRealEntry H k (some v)) retries t = some (t2, r) →
    r = lookupE H k mp ∧ ∃ mp2, Abs H t2 mp2 ∧ mp2.Perm (specPut H mp k v) := by
  intro retries
  induction retries with
  | zero => intro t mp t2 r _ h; simp [Put.loop] at h
  | succ n ih =>
    intro t mp t2 r ha h
    rw [Put.loop] at h
    cases hloc : locate H f t (newRealEntry H k (some v)) with
    | none => rw [hloc] at h; simp at h
    | some res =>
      obtain ⟨t1, hitA, hitB⟩ := res
      rw [hloc] at h
      obtain ⟨L, c0, hg, hv, he, hs, hc⟩ :=
        locate_sound H hl t mp ha k (some v) f t1 hitA hitB hloc
      have habs : Abs H t1 mp := by rw [← hv]; exact hg.abs
      have hd := habs.distinct hl
      rcases hc with ⟨A, p, z, B, zd, kz, vz, hL, hnode, _, hzd, hz, heq⟩ | hab
      · have hval : zd.value.value = some (some vz) := by rw [hz]; rfl
        simp only [hnode, hzd, hval, Option.some.injEq, Prod.mk.injEq] at h
        obtain ⟨h1, h2⟩ := h
        have hL2 : L = (A ++ [p]) ++ z :: B := by rw [hL]; simp
        obtain ⟨hg2, hview2, hview⟩ := Good_store H hg (A ++ [p]) B z hL2 zd hzd kz vz hz v
        rw [hv] at hview
        rw [hview] at hd
        have habs2 := hg2.abs
        dsimp only at habs2
        rw [hview2, ← specPut_found H hl k kz vz v _ _ hd heq, ← hview] at habs2
        constructor
        · rw [← h2, hview, lookupE_found H hl k kz vz _ _ hd heq]
        · refine ⟨_, ?_, List.Perm.refl _⟩
          rw [← h1]
          exact habs2
      · obtain ⟨hnode, hno0, A, p, B, pd, hL, hleft, hpd, hins⟩ := hab
        have hno : ∀ q ∈ mp, H.Equals k q.1 = false := by
          rw [← hv]
          exact LocAbsent.view ⟨hnode, hno0, A, p, B, pd, hL, hleft, hpd, hins⟩
        simp only [hnode, hleft, hpd] at h
        by_cases hpush : nodeRef.node t1.mem pd.next = hitA.rightNode
        · rw [pushBefore_eq _ _ _ _ hpush] at h
          simp only at h
          cases hadd : t1.h.addSize 1 with
          | none => rw [hadd] at h; simp at h
          | some h2 =>
            rw [hadd] at h
            simp only [Option.some.injEq, Prod.mk.injEq] at h
            obtain ⟨h1, hr⟩ := h
            obtain ⟨hext, hsz, hload, _⟩ := addSize_one_spec t1.h h2 hg.dir hg.lf hg.load hadd
            obtain ⟨hA, hB⟩ := hins hpush
            have hnext : t1.mem.nextOf p = pd.next := nextOf_of_some _ _ _ hpd
            have hright : hitA.rightNode = B.head? := by
              rw [← hpush, ← hnext]; exact hg.cell_of_split A B p hL
            obtain ⟨hg2, hview2⟩ := Good_ins H hg A B p hL (newRealEntry H k (some v)) h2 hext
              (Or.inl ⟨k, v, rfl⟩) hA hB (by rw [hsz, entView_real]; rfl) hload
            rw [hnext, ← hright] at hg2 hview2
            have habs2 := hg2.abs
            dsimp only at habs2
            rw [hview2, entView_real] at habs2
            constructor
            · rw [← hr, lookupE_absent H k mp hno]
            · refine ⟨_, by rw [← h1]; exact habs2, ?_⟩
              have hmp : t1.mem.view (A ++ p :: B) =
                  t1.mem.view (A ++ [p]) ++ t1.mem.view B := by
                rw [← view_append]; simp
              rw [specPut_absent H k v mp hno, ← hv, hL, hmp]
              show (t1.mem.view (A ++ [p]) ++ [(k, v)] ++ t1.mem.view B).Perm _
              rw [List.append_assoc, List.singleton_append]
              exact List.perm_middle
        · rw [pushBefore_ne _ _ _ _ hpush] at h
          simp only at h
          exact ih t1 mp t2 r habs h

/-- Whatever fuel `Put` returns with, it returns the value the map held for the key, and
leaves a table that holds the map with the key assigned. -/
theorem Put_sound (H : Hashable K) (hl : Lawful H) (t : Table K V) (mp : List (K × V))
    (ha : Abs H t mp) (k : K) (v : V) (f : Nat) (t2 : Table K V) (r : Option V)
    (h : Put H f t k (some v) = some (t2, r)) :
    r = lookupE H k mp ∧ ∃ mp2, Abs H t2 mp2 ∧ mp2.Perm (specPut H mp k v) :=
  Put_loop_sound H hl k v f f t mp t2 r ha h

/-- The method `Put` returns when the key is present. -/
theorem Put_total_found (H : Hashable K) (hl : Lawful H) (t : Table K V)
    (mp : List (K × V)) (ha : Abs H t mp) (k : K) (v v1 : V)
    (hp : lookupE H k mp = some v1) :
    ∃ fuel t2, Put H fuel t k (some v) = some (t2, some v1) := by
  obtain ⟨f, t1, hitA, hitB, L, c0, hloc, hg, hv, he, hs, hc⟩ :=
    locate_spec H hl t mp ha k (some v)
  have hloc2 := locate_mono H f (f + 1) _ _ _ hloc (by omega)
  rcases hc with ⟨A, p, z, B, zd, kz, vz, hL, hnode, _, hzd, hz, heq⟩ | hab
  · have hval : zd.value.value = some (some vz) := by rw [hz]; rfl
    have hput : Put H (f + 1) t k (some v) =
        some ({ t1 with mem := t1.mem.storeValue z (some (some v)) }, some vz) := by
      show Put.loop H (f + 1) (newRealEntry H k (some v)) (f + 1) t = _
      rw [Put.loop, hloc2]
      simp only [hnode, hzd, hval]
      rfl
    have hr := (Put_sound H hl t mp ha k v (f + 1) _ _ hput).1
    rw [hp] at hr
    rw [hr] at hput
    exact ⟨f + 1, _, hput⟩
  · have := lookupE_absent H k mp (by rw [← hv]; exact hab.view)
    rw [this] at hp
    exact absurd hp (by simp)

/-- One call keeps the abstraction relation, along the reference map. -/
theorem runOp_abs (H : Hashable K) (hl : Lawful H) (t : Table K V) (mp : List (K × V))
    (ha : Abs H t mp) (op : Op K V) (f : Nat) (t2 : Table K V) (r : Option V)
    (h : runOp H f t op = some (t2, r)) :
    ∃ mp2, Abs H t2 mp2 ∧ mp2.Perm (specStep H mp op) := by
  cases op with
  | Put k v =>
    obtain ⟨_, mp2, h1, h2⟩ := Put_sound H hl t mp ha k v f t2 r h
    exact ⟨mp2, h1, h2⟩
  | Delete k =>
    obtain ⟨_, h1, _⟩ := Delete_sound H hl t mp ha k f t2 r h
    exact ⟨_, h1, List.Perm.refl _⟩
  | Get k =>
    obtain ⟨_, h1, _⟩ := Get_sound H hl t mp ha k f t2 r h
    exact ⟨mp, h1, List.Perm.refl _⟩

/-- A sequence of calls keeps the abstraction relation, along the reference map. -/
theorem runOps_abs (H : Hashable K) (hl : Lawful H) (f : Nat) :
    ∀ (ops : List (Op K V)) (t : Table K V) (mp m : List (K × V)) (t2 : Table K V)
      (rs : List (Option V)), Abs H t mp → mp.Perm m →
      runOps H f ops t = some (t2, rs) →
      ∃ mp2, Abs H t2 mp2 ∧ mp2.Perm (specRun H ops m) := by
  intro ops
  induction ops with
  | nil =>
    intro t mp m t2 rs ha hp h
    simp only [runOps, Option.some.injEq, Prod.mk.injEq] at h
    rw [← h.1]
    exact ⟨mp, ha, hp⟩
  | cons op ops ih =>
    intro t mp m t2 rs ha hp h
    rw [runOps] at h
    cases h1 : runOp H f t op with
    | none => rw [h1] at h; simp at h
    | some res =>
      obtain ⟨t1, r⟩ := res
      rw [h1] at h
      simp only at h
      cases h2 : runOps H f ops t1 with
      | none => rw [h2] at h; simp at h
      | some res2 =>
        obtain ⟨t3, rs3⟩ := res2
        rw [h2] at h
        simp only [Option.some.injEq, Prod.mk.injEq] at h
        obtain ⟨mp1, ha1, hp1⟩ := runOp_abs H hl t mp ha op f t1 r h1
        have hp2 := hp1.trans (specStep_perm H hp op)
        obtain ⟨mp2, ha2, hpf⟩ := ih t1 mp1 _ t3 rs3 ha1 hp2 h2
        rw [← h.1]
        exact ⟨mp2, ha2, hpf⟩

/-- A table reached from `NewHash()` by a sequence of calls satisfies the abstraction
relation with a map that is the reference map of the sequence, up to order. -/
theorem reach_abs (H : Hashable K) (hl : Lawful H) (f : Nat) (ops : List (Op K V))
    (t : Table K V) (rs : List (Option V)) (h : runOps H f ops NewHash = some (t, rs)) :
    ∃ mp, Abs H t mp ∧ mp.Perm (specRun H ops []) :=
  runOps_abs H hl f ops NewHash [] [] t rs (Or.inl ⟨rfl, rfl⟩) (List.Perm.refl _) h

theorem lookupE_specDelete_self (H : Hashable K) (k : K) (mp : List (K × V)) :
    lookupE H k (specDelete H mp k) = none := by
  apply lookupE_absent
  intro p hp
  unfold specDelete at hp
  have := (List.mem_filter.1 hp).2
  simpa using this

theorem specPut_length_found (H : Hashable K) (k : K) (v v1 : V) (mp : List (K × V))
    (hp : lookupE H k mp = some v1) : (specPut H mp k v).length = mp.length := by
  obtain ⟨X, kz, Y, h1, h2⟩ := lookupE_some H k v1 mp hp
  have hany : mp.any (fun p => H.Equals k p.1) = true := by
    rw [List.any_eq_true]
    exact ⟨(kz, v1), by rw [h1]; simp, h2⟩
  unfold specPut
  rw [if_pos hany, List.length_map]

theorem specDelete_length_found (H : Hashable K) (hl : Lawful H) (k : K) (v1 : V)
    (mp : List (K × V)) (hd : Distinct H mp) (hp : lookupE H k mp = some v1) :
    (specDelete H mp k).length + 1 = mp.length := by
  obtain ⟨X, kz, Y, h1, h2⟩ := lookupE_some H k v1 mp hp
  rw [h1] at hd ⊢
  rw [specDelete_found H hl k kz v1 X Y hd h2]
  simp only [List.length_append, List.length_cons]
  omega

theorem lookupE_cons (H : Hashable K) (k : K) (a : K × V) (m : List (K × V)) :
    lookupE H k (a :: m) = if H.Equals k a.1 = true then some a.2 else lookupE H k m := by
  unfold lookupE
  rw [List.find?_cons]
  cases h : H.Equals k a.1 with
  | true => rfl
  | false => simp

theorem Lawful.eq_false_left {H : Hashable K} (hl : Lawful H) (k k2 x : K)
    (h1 : H.Equals k k2 = false) (h2 : H.Equals k x = true) : H.Equals k2 x = false := by
  cases h : H.Equals k2 x with
  | false => rfl
  | true =>
    have := hl.trans k x k2 h2 (hl.symm k2 x h)
    rw [this] at h1
    exact absurd h1 (by simp)

theorem Lawful.eq_true_left {H : Hashable K} (hl : Lawful H) (k k2 x : K)
    (h1 : H.Equals k k2 = true) (h2 : H.Equals k x = true) : H.Equals k2 x = true :=
  hl.trans k2 k x (hl.symm k k2 h1) h2

theorem lookupE_map (H : Hashable K) (hl : Lawful H) (k k2 : K) (v : V)
    (m : List (K × V)) :
    lookupE H k (m.map (fun p => if H.Equals k2 p.1 then (p.1, v) else p)) =
      if H.Equals k k2 = true then (lookupE H k m).map (fun _ => v) else lookupE H k m := by
  induction m with
  | nil => simp [lookupE]
  | cons a m ih =>
    rw [List.map_cons, lookupE_cons, lookupE_cons, ih]
    have hkey : (if H.Equals k2 a.1 = true then (a.1, v) else a).1 = a.1 := by
      split <;> rfl
    rw [hkey]
    cases hka : H.Equals k a.1 with
    | false => simp
    | true =>
      cases hkk : H.Equals k k2 with
      | false =>
        rw [hl.eq_false_left k k2 a.1 hkk hka]
        simp
      | true =>
        rw [hl.eq_true_left k k2 a.1 hkk hka]
        simp

theorem lookupE_specPut (H : Hashable K) (hl : Lawful H) (k k2 : K) (v : V)
    (m : List (K × V)) :
    lookupE H k (specPut H m k2 v) = if H.Equals k k2 = true then some v else lookupE H k m := by
  unfold specPut
  by_cases hany : m.any (fun p => H.Equals k2 p.1) = true
  · rw [if_pos hany, lookupE_map H hl]
    cases hkk : H.Equals k k2 with
    | false => simp
    | true =>
      simp only [if_true]
      obtain ⟨p, hp, he⟩ := List.any_eq_true.1 hany
      cases hlk : lookupE H k m with
      | some x => rfl
      | none =>
        have h1 := lookupE_none H k m hlk p hp
        have h2 := hl.trans k k2 p.1 hkk he
        rw [h2] at h1
        exact absurd h1 (by simp)
  · rw [if_neg hany, lookupE_cons]

theorem lookupE_specDelete (H : Hashable K) (hl : Lawful H) (k k2 : K)
    (m : List (K × V)) :
    lookupE H k (specDelete H m k2) = if H.Equals k k2 = true then none else lookupE H k m := by
  unfold specDelete
  induction m with
  | nil => simp [lookupE]
  | cons a m ih =>
    rw [List.filter_cons, lookupE_cons]
    cases hka : H.Equals k a.1 with
    | false =>
      cases h2a : H.Equals k2 a.1 with
      | false =>
        simp only [Bool.not_false, if_true]
        rw [lookupE_cons, hka, ih]
        simp
      | true =>
        simp only [Bool.not_true, Bool.false_eq_true, if_false]
        rw [ih]
    | true =>
      cases hkk : H.Equals k k2 with
      | false =>
        rw [hl.eq_false_left k k2 a.1 hkk hka]
        simp only [Bool.not_false, if_true]
        rw [lookupE_cons, hka]
        simp
      | true =>
        rw [hl.eq_true_left k k2 a.1 hkk hka]
        simp only [Bool.not_true, Bool.false_eq_true, if_false]
        rw [ih, hkk]
        simp

/-- The reference map holds, for every key, the value most recently put for it. -/
theorem lookupE_specRun (H : Hashable K) (hl : Lawful H) (k : K) :
    ∀ (ops : List (Op K V)) (m : List (K × V)),
    lookupE H k (specRun H ops m) = lastPut H k ops (lookupE H k m) := by
  intro ops
  induction ops with
  | nil => intro m; rfl
  | cons op ops ih =>
    intro m
    cases op with
    | Put k2 v =>
      show lookupE H k (specRun H ops (specPut H m k2 v)) = _
      rw [ih, lookupE_specPut H hl]
      simp only [lastPut]
    | Delete k2 =>
      show lookupE H k (specRun H ops (specDelete H m k2)) = _
      rw [ih, lookupE_specDelete H hl]
      simp only [lastPut]
    | Get k2 => exact ih m

/-- A table reached from `NewHash()` by a sequence of calls holds a map without equal keys
in which every key has the value most recently put for it. -/
theorem reach_lookup (H : Hashable K) (hl : Lawful H) (f : Nat) (ops : List (Op K V))
    (t : Table K V) (rs : List (Option V)) (h : runOps H f ops NewHash = some (t, rs)) :
    ∃ mp, Abs H t mp ∧ ∀ k, lookupE H k mp = lastPut H k ops none := by
  obtain ⟨mp, ha, hp⟩ := reach_abs H hl f ops t rs h
  refine ⟨mp, ha, fun k => ?_⟩
  rw [lookupE_perm H hl k hp (ha.distinct hl), lookupE_specRun H hl k ops []]
  rfl

theorem hashInt_lawful : Lawful hashInt where
  refl := fun a => by simp [hashInt]
  symm := fun a b h => by
    simp only [hashInt, beq_iff_eq] at h ⊢
    exact h.symm
  trans := fun a b c h1 h2 => by
    simp only [hashInt, beq_iff_eq] at h1 h2 ⊢
    exact h1.trans h2
  hash := fun a b h => by
    simp only [hashInt, beq_iff_eq] at h
    rw [h]

theorem key_lawful : Lawful key where
  refl := fun a => by simp [key]
  symm := fun a b h => by
    simp only [key, beq_iff_eq] at h ⊢
    exact h.symm
  trans := fun a b c h1 h2 => by
    simp only [key, beq_iff_eq] at h1 h2 ⊢
    exact h1.trans h2
  hash := fun a b h => by
    simp only [key, beq_iff_eq] at h
    rw [h]

/-- Bucket 0 is resolved on every table that satisfies the abstraction relation, to the
head cell of the list. -/
theorem resolve_zero (H : Hashable K) (t : Table K V) (mp : List (K × V)) (ha : Abs H t mp) :
    ∃ fuel t2 L c0, getBucketByIndex fuel t 0 = some (t2, c0) ∧ Good H t2 L c0 ∧
      t2.mem.view L = mp ∧ t2.h.size = t.h.size := by
  rcases ha with ⟨ht, hmp⟩ | ⟨L, c0, hg, hv⟩
  · subst ht hmp
    exact ⟨2, firstTable, [0], 0, NewHash_resolve 0, firstTable_good H, firstTable_view, rfl⟩
  · exact ⟨1, t, L, c0, bucket_ready 0 t 0 c0 hg.head_slot, hg, hv, rfl⟩

theorem realCount_loop_spec (H : Hashable K) (e : Nat) (m : Mem K V) :
    ∀ (L : List Nat) (c g : Nat), Path m c L none →
    (∀ n ∈ L, ∃ nd, m.nodes[n]? = some nd ∧ EntryOK H nd.value e) →
    (realCount.loop m g (nodeRef.node m c) = none ∨
      realCount.loop m g (nodeRef.node m c) = some (m.view L).length) ∧
    (L.length < g → realCount.loop m g (nodeRef.node m c) = some (m.view L).length) := by
  intro L
  induction L with
  | nil =>
    intro c g hp _
    have hnode : nodeRef.node m c = none := node_eq_of_cells _ _ _ (Path_cell_head hp)
    rw [hnode]
    cases g with
    | zero => exact ⟨Or.inl rfl, fun h => absurd h (by simp)⟩
    | succ g => exact ⟨Or.inr rfl, fun _ => rfl⟩
  | cons n L ih =>
    intro c g hp hent
    have hnode : nodeRef.node m c = some n := node_eq_of_cells _ _ _ (Path_cell_head hp)
    obtain ⟨_, nd, hnd, hp2⟩ := Path_split [] hp
    rw [hnode]
    cases g with
    | zero => exact ⟨Or.inl rfl, fun h => absurd h (by simp)⟩
    | succ g =>
      obtain ⟨ih1, ih2⟩ := ih nd.next g hp2 (fun x hx => hent x (List.mem_cons_of_mem _ hx))
      obtain ⟨nd2, hnd2, hok⟩ := hent n (by simp)
      rw [hnd] at hnd2
      simp only [Option.some.injEq] at hnd2
      subst hnd2
      have hlen : (m.view (n :: L)).length =
          if nd.value.real then (m.view L).length + 1 else (m.view L).length := by
        rw [view_cons, viewOf_of_some m n nd hnd]
        rcases hok with ⟨k, v, he⟩ | ⟨b, _, he⟩
        · rw [he, entView_real, newRealEntry_real]
          simp only [Option.toList, List.singleton_append, List.length_cons, if_true]
        · rw [he, entView_mock, newMockEntry_real]
          simp [Option.toList]
      have hstep : realCount.loop m (g + 1) (some n) =
          match realCount.loop m g (nodeRef.node m nd.next) with
          | none => none
          | some c => some (if nd.value.real then c + 1 else c) := by
        rw [realCount.loop]
        simp only [hnd]
      rw [hstep, hlen]
      constructor
      · rcases ih1 with h | h
        · left; rw [h]
        · right; rw [h]
      · intro hg
        rw [ih2 (by simp only [List.length_cons] at hg; omega)]

/-- The count of real entries returns on every table that satisfies the abstraction
relation, and it is the size of the map. -/
theorem realCount_spec (H : Hashable K) (t : Table K V) (mp : List (K × V))
    (ha : Abs H t mp) :
    (∃ g, realCount g t = some mp.length) ∧ ∀ g n, realCount g t = some n → n = mp.length := by
  rcases ha with ⟨ht, hmp⟩ | ⟨L, c0, hg, hv⟩
  · subst ht hmp
    refine ⟨⟨0, rfl⟩, ?_⟩
    intro g n h
    have h2 : realCount g (NewHash : Table K V) = some 0 := rfl
    rw [h2] at h
    simp only [Option.some.injEq] at h
    exact h.symm
  · have hslot : t.h.slot 0 0 = some (some c0) := hg.head_slot
    have hrc : ∀ g, realCount g t = realCount.loop t.mem g (nodeRef.node t.mem c0) := by
      intro g
      unfold realCount
      rw [hslot]
    have hspec := fun g => realCount_loop_spec H t.h.exponent t.mem L c0 g hg.chain hg.entries
    rw [← hv]
    constructor
    · exact ⟨L.length + 1, by rw [hrc]; exact (hspec _).2 (by omega)⟩
    · intro g n h
      rw [hrc] at h
      rcases (hspec g).1 with h1 | h1
      · rw [h1] at h; simp at h
      · rw [h1] at h
        simp only [Option.some.injEq] at h
        exact h.symm

theorem ToMap_loop_spec [DecidableEq K] (H : Hashable K) (e : Nat) (m : Mem K V) :
    ∀ (L : List Nat) (c g : Nat) (acc : List (K × Option V)), Path m c L none →
    (∀ n ∈ L, ∃ nd, m.nodes[n]? = some nd ∧ EntryOK H nd.value e) →
    (∀ p ∈ acc, ∀ q ∈ m.view L, p.1 ≠ q.1) →
    (m.view L).Pairwise (fun p q => p.1 ≠ q.1) →
    (ToMap.loop m g (nodeRef.node m c) acc = none ∨
      ToMap.loop m g (nodeRef.node m c) acc =
        some (acc ++ (m.view L).map (fun p => (p.1, some p.2)))) ∧
    (L.length < g → ToMap.loop m g (nodeRef.node m c) acc =
        some (acc ++ (m.view L).map (fun p => (p.1, some p.2)))) := by
  intro L
  induction L with
  | nil =>
    intro c g acc hp _ _ _
    have hnode : nodeRef.node m c = none := node_eq_of_cells _ _ _ (Path_cell_head hp)
    rw [hnode]
    cases g with
    | zero => exact ⟨Or.inl rfl, fun h => absurd h (by simp)⟩
    | succ g =>
      have : ToMap.loop m (g + 1) none acc = some acc := rfl
      rw [this]
      simp [Mem.view]
  | cons n L ih =>
    intro c g acc hp hent hacc hpw
    have hnode : nodeRef.node m c = some n := node_eq_of_cells _ _ _ (Path_cell_head hp)
    obtain ⟨_, nd, hnd, hp2⟩ := Path_split [] hp
    rw [hnode]
    cases g with
    | zero => exact ⟨Or.inl rfl, fun h => absurd h (by simp)⟩
    | succ g =>
      obtain ⟨nd2, hnd2, hok⟩ := hent n (by simp)
      rw [hnd] at hnd2
      simp only [Option.some.injEq] at hnd2
      subst hnd2
      have hent2 : ∀ x ∈ L, ∃ nd, m.nodes[x]? = some nd ∧ EntryOK H nd.value e :=
        fun x hx => hent x (List.mem_cons_of_mem _ hx)
      rcases hok with ⟨k, v, he⟩ | ⟨b, _, he⟩
      · have hview : m.view (n :: L) = (k, v) :: m.view L := by
          rw [view_cons, viewOf_of_some m n nd hnd, he, entView_real]
          rfl
        rw [hview] at hacc hpw ⊢
        have hfilter : acc.filter (fun p => p.1 ≠ k) = acc := by
          rw [List.filter_eq_self]
          intro p hp
          exact decide_eq_true (hacc p hp (k, v) (by simp))
        have hstep : ToMap.loop m (g + 1) (some n) acc =
            ToMap.loop m g (nodeRef.node m nd.next)
              (acc.filter (fun p => p.1 ≠ k) ++ [(k, some v)]) := by
          rw [ToMap.loop]
          simp only [hnd, he, newRealEntry_real, if_true]
          rfl
        rw [hfilter] at hstep
        have hacc2 : ∀ p ∈ acc ++ [(k, some v)], ∀ q ∈ m.view L, p.1 ≠ q.1 := by
          intro p hp q hq
          rcases List.mem_append.1 hp with h | h
          · exact hacc p h q (List.mem_cons_of_mem _ hq)
          · simp only [List.mem_singleton] at h
            subst h
            exact (List.pairwise_cons.1 hpw).1 q hq
        obtain ⟨ih1, ih2⟩ := ih nd.next g (acc ++ [(k, some v)]) hp2 hent2 hacc2
          (List.pairwise_cons.1 hpw).2
        have hout : acc ++ [(k, some v)] ++ (m.view L).map (fun p => (p.1, some p.2)) =
            acc ++ ((k, v) :: m.view L).map (fun p => (p.1, some p.2)) := by simp
        rw [hstep, ← hout]
        exact ⟨ih1, fun hg => ih2 (by simp only [List.length_cons] at hg; omega)⟩
      · have hview : m.view (n :: L) = m.view L := by
          rw [view_cons, viewOf_of_some m n nd hnd, he, entView_mock]
          rfl
        rw [hview] at hacc hpw ⊢
        have hstep : ToMap.loop m (g + 1) (some n) acc =
            ToMap.loop m g (nodeRef.node m nd.next) acc := by
          rw [ToMap.loop]
          simp only [hnd, he, newMockEntry_real]
          rfl
        obtain ⟨ih1, ih2⟩ := ih nd.next g acc hp2 hent2 hacc hpw
        rw [hstep]
        exact ⟨ih1, fun hg => ih2 (by simp only [List.length_cons] at hg; omega)⟩

/-- The method `ToMap` returns on every table that satisfies the abstraction relation, and
whenever it returns, it returns the map, one pair for each entry, and leaves the size as it
was. -/
theorem ToMap_spec [DecidableEq K] (H : Hashable K) (hl : Lawful H) (t : Table K V)
    (mp : List (K × V)) (ha : Abs H t mp) :
    (∃ f t1, ToMap f t = some (t1, mp.map (fun p => (p.1, some p.2)))) ∧
    ∀ f t1 lst, ToMap f t = some (t1, lst) →
      lst = mp.map (fun p => (p.1, some p.2)) ∧ t1.h.size = t.h.size := by
  have he := ha.exponent_le
  have hbi : t.h.bucketIndex 0 = 0 := by rw [bucketIndex_eq t.h 0 he]; exact Nat.zero_mod _
  obtain ⟨f0, t2, L, c0, hres, hg, hv, hs⟩ := resolve_zero H t mp ha
  have hpw : (t2.mem.view L).Pairwise (fun p q => p.1 ≠ q.1) := by
    refine (hg.view_distinct hl).imp ?_
    intro p q hpq heq
    rw [heq, hl.refl q.1] at hpq
    exact absurd hpq (by simp)
  have hspec := fun g => ToMap_loop_spec H t2.h.exponent t2.mem L c0 g [] hg.chain hg.entries
    (by simp) hpw
  rw [hv] at hspec
  simp only [List.nil_append] at hspec
  constructor
  · refine ⟨f0 + L.length + 1, t2, ?_⟩
    unfold ToMap getBucketByHashCode
    rw [hbi, getBucketByIndex_mono f0 _ _ _ _ hres (by omega)]
    simp only
    rw [(hspec _).2 (by omega)]
  · intro f t1 lst h
    unfold ToMap getBucketByHashCode at h
    rw [hbi] at h
    cases hb : getBucketByIndex f t 0 with
    | none => rw [hb] at h; simp at h
    | some res =>
      have h1 := getBucketByIndex_mono f (f + f0) _ _ _ hb (by omega)
      have h2 := getBucketByIndex_mono f0 (f + f0) _ _ _ hres (by omega)
      rw [h1] at h2
      simp only [Option.some.injEq] at h2
      subst h2
      rw [hb] at h
      simp only at h
      rcases (hspec f).1 with h3 | h3
      · rw [h3] at h; simp at h
      · rw [h3] at h
        simp only [Option.some.injEq, Prod.mk.injEq] at h
        exact ⟨h.2.symm, by rw [← h.1]; exact hs⟩

/-- Below the last generation, `grow` publishes the next second-level array. -/
theorem grow_eq (h : Hash) (hd : DirOK h) (h31 : h.exponent < 31) : h.grow = some h.grown := by
  obtain ⟨he, hlen, hk⟩ := hd
  unfold Hash.grow
  have hmod : (h.exponent + 1) % U32 = h.exponent + 1 := by
    unfold U32; exact Nat.mod_eq_of_lt (by omega)
  simp only [hmod]
  rw [(hk (h.exponent + 1) (by omega)).2 (by omega)]
  rfl

/-- The bucket index is the hash code masked with `2 ^ exponent - 1`. -/
theorem bucketIndex_mask (self : Hash) (hc : Nat) (he : self.exponent ≤ 31) :
    self.bucketIndex hc = hc &&& (2 ^ self.exponent - 1) := by
  unfold Hash.bucketIndex U32
  have h1 : 2 ^ self.exponent < 2 ^ 32 := Nat.pow_lt_pow_right (by norm_num) (by omega)
  have h2 : 0 < 2 ^ self.exponent := Nat.two_pow_pos _
  rw [Nat.mod_eq_of_lt h1]
  have h3 : 2 ^ self.exponent + 2 ^ 32 - 1 = (2 ^ self.exponent - 1) + 2 ^ 32 := by omega
  rw [h3, Nat.add_mod_right, Nat.mod_eq_of_lt (by omega)]

/-- The load bound survives a grow. -/
theorem grown_load (h h2 : Hash) (hd : DirOK h) (hl : h.loadFactor = (1, 2))
    (hload : h.size ≤ h.threshold) (hg : h.grow = some h2) : h2.size ≤ h2.threshold := by
  obtain ⟨h31, hexp, hsz, hext, _⟩ := grow_spec h h2 hd hg
  have hl2 : h2.loadFactor = (1, 2) := by rw [hext.2.1, hl]
  rw [threshold_eq h2 hl2 hext.1.1, hsz, hexp]
  rw [threshold_eq h hl hd.1] at hload
  have h3 : 2 ^ h.exponent / 2 ≤ 2 ^ (h.exponent + 1) / 2 :=
    Nat.div_le_div_right (Nat.pow_le_pow_right (by norm_num) (by omega))
  have h4 : ((2 ^ h.exponent / 2 : Nat) : Int) ≤ ((2 ^ (h.exponent + 1) / 2 : Nat) : Int) :=
    Int.ofNat_le.2 h3
  exact le_trans hload h4

/-- A table that holds a key satisfies the invariant. -/
theorem Abs.good_of_lookup {H : Hashable K} {t : Table K V} {mp : List (K × V)}
    (ha : Abs H t mp) (k : K) (v : V) (hp : lookupE H k mp = some v) :
    ∃ L c0, Good H t L c0 ∧ t.mem.view L = mp := by
  rcases ha with ⟨_, hmp⟩ | h
  · subst hmp
    exact absurd hp (by simp [lookupE])
  · exact h

/-- The floor of the binary logarithm, as `log2` computes it on a non-zero 32-bit
integer. -/
theorem log2_eq_log (x : Nat) (h1 : 1 ≤ x) (h2 : x < 2 ^ 32) : log2 x = Nat.log 2 x := by
  obtain ⟨a, b⟩ := log2_spec x h1 h2
  exact (Nat.log_eq_of_pow_le_of_lt_pow a b).symm

/-- Setting bit `e - 1` of an index below `2 ^ (e - 1)` adds `2 ^ (32 - e)` to its
reversal. -/
theorem reverse_add_high (e x : Nat) (he1 : 1 ≤ e) (he : e ≤ 32) (hx : x < 2 ^ (e - 1)) :
    reverse (x + 2 ^ (e - 1)) = reverse x + 2 ^ (32 - e) := by
  have hmod : reverse x % 2 ^ (32 - (e - 1)) = 0 := reverse_mod_pow x (e - 1) (by omega) hx
  have hs : 32 - (e - 1) = (32 - e) + 1 := by omega
  obtain ⟨a, ha⟩ : ∃ a, reverse x = 2 ^ ((32 - e) + 1) * a := by
    rw [hs] at hmod
    exact ⟨reverse x / 2 ^ ((32 - e) + 1), by
      have := Nat.div_add_mod (reverse x) (2 ^ ((32 - e) + 1)); omega⟩
  have hlt : 2 ^ (32 - e) < 2 ^ ((32 - e) + 1) := Nat.pow_lt_pow_right (by norm_num) (by omega)
  have hor1 : reverse x + 2 ^ (32 - e) = reverse x ||| 2 ^ (32 - e) := by
    rw [ha]; exact Nat.mul_add_lt_is_or hlt a
  have hor2 : x + 2 ^ (e - 1) = 2 ^ (e - 1) ||| x := by
    have := Nat.mul_add_lt_is_or hx 1
    rw [Nat.mul_one] at this
    rw [← this, Nat.add_comm]
  rw [hor1, hor2]
  apply Nat.eq_of_testBit_eq
  intro i
  rw [reverse_testBit, Nat.testBit_or, Nat.testBit_or, reverse_testBit, Nat.testBit_two_pow,
    Nat.testBit_two_pow]
  by_cases h : i < 32
  · have hiff : (e - 1 = 31 - i) ↔ (32 - e = i) := by omega
    simp only [h, decide_True, Bool.true_and]
    rw [Bool.or_comm]
    congr 1
    exact decide_eq_decide.2 hiff
  · have hne : ¬ (32 - e = i) := by omega
    simp [h, hne]

/-- The sentinel key of a bucket index below `2 ^ e` is a multiple of `2 ^ (32 - e)`. -/
theorem sentinelKey_multiple (e b : Nat) (he : e ≤ 31) (hb : b < 2 ^ e) :
    ∃ n, sentinelKey b = 2 ^ (32 - e) * n ∧ n < 2 ^ e := by
  have hb31 : b < 2 ^ 31 := lt_of_lt_of_le hb (Nat.pow_le_pow_right (by norm_num) he)
  have hmod := reverse_mod_pow b e (by omega) hb
  rw [sentinelKey_eq b hb31]
  refine ⟨reverse b / 2 ^ (32 - e), ?_, ?_⟩
  · have := Nat.div_add_mod (reverse b) (2 ^ (32 - e)); omega
  · rw [Nat.div_lt_iff_lt_mul (Nat.two_pow_pos _), ← Nat.pow_add]
    have : e + (32 - e) = 32 := by omega
    rw [this]
    exact reverse_lt b

/-- The bucket the code resolves first is `b` without its top bit when the top bit of `b`
is bit `exponent - 1`. -/
theorem prev_of_top_bit (self : Hash) (b : Nat) (he1 : 1 ≤ self.exponent)
    (he : self.exponent ≤ 31) (hb : b < 2 ^ self.exponent)
    (htop : 2 ^ (self.exponent - 1) ≤ b) :
    self.getPreviousBucketIndex (sentinelKey b) = b - 2 ^ (self.exponent - 1) := by
  have hpos : 0 < 2 ^ (self.exponent - 1) := Nat.two_pow_pos _
  have hb0 : b ≠ 0 := by omega
  obtain ⟨hp, _, hkey⟩ := getPreviousBucketIndex_spec self b he1 he hb hb0
  have h31 : ∀ x, x < 2 ^ self.exponent → x < 2 ^ 31 := fun x hx =>
    lt_of_lt_of_le hx (Nat.pow_le_pow_right (by norm_num) he)
  have hpow : 2 ^ self.exponent = 2 * 2 ^ (self.exponent - 1) := by
    have : self.exponent = (self.exponent - 1) + 1 := by omega
    rw [this, Nat.pow_succ]
    simp only [Nat.add_sub_cancel]
    ring
  have hlow : b - 2 ^ (self.exponent - 1) < 2 ^ (self.exponent - 1) := by omega
  have hrev := reverse_add_high self.exponent (b - 2 ^ (self.exponent - 1)) he1 (by omega) hlow
  have hsum : b - 2 ^ (self.exponent - 1) + 2 ^ (self.exponent - 1) = b := by omega
  rw [hsum] at hrev
  have hlow31 : b - 2 ^ (self.exponent - 1) < 2 ^ 31 := h31 _ (by omega)
  generalize self.getPreviousBucketIndex (sentinelKey b) = p at hp hkey ⊢
  apply sentinelKey_inj _ _ (h31 _ hp) hlow31
  rw [sentinelKey_eq b (h31 b hb), hrev] at hkey
  rw [sentinelKey_eq _ hlow31]
  omega

/-- No bucket index below `2 ^ e` has its sentinel key strictly between two sentinel keys
that are `2 ^ (32 - e)` apart. -/
theorem no_key_between (e q x : Nat) (he : e ≤ 31) (hq : q < 2 ^ e)
    (h1 : x < sentinelKey q) (h2 : sentinelKey q < x + 2 ^ (32 - e))
    (hx : x % 2 ^ (32 - e) = 0) : False := by
  obtain ⟨n, hn, _⟩ := sentinelKey_multiple e q he hq
  have hpos : 0 < 2 ^ (32 - e) := Nat.two_pow_pos _
  obtain ⟨a, ha⟩ : ∃ a, x = 2 ^ (32 - e) * a := ⟨x / 2 ^ (32 - e), by
    have := Nat.div_add_mod x (2 ^ (32 - e)); omega⟩
  rw [hn, ha] at h1
  rw [hn, ha] at h2
  have h3 : a < n := Nat.lt_of_mul_lt_mul_left h1
  have h4 : 2 ^ (32 - e) * n < 2 ^ (32 - e) * (a + 1) := by
    rw [Nat.mul_add, Nat.mul_one]; exact h2
  have h5 : n < a + 1 := Nat.lt_of_mul_lt_mul_left h4
  omega

/-- From a bucket whose sentinel key is the `n`-th multiple of `2 ^ (32 - exponent)`, the
chain reaches bucket 0 after exactly `n` steps. -/
theorem bucketChain_spec (self : Hash) (he1 : 1 ≤ self.exponent) (he : self.exponent ≤ 31) :
    ∀ (n b : Nat), b < 2 ^ self.exponent →
    sentinelKey b = 2 ^ (32 - self.exponent) * n →
    ∃ l, bucketChain self (n + 1) b = some l ∧ l.length = n + 1 ∧ l.getLast? = some 0 := by
  have h31 : ∀ x, x < 2 ^ self.exponent → x < 2 ^ 31 := fun x hx =>
    lt_of_lt_of_le hx (Nat.pow_le_pow_right (by norm_num) he)
  have hpos : 0 < 2 ^ (32 - self.exponent) := Nat.two_pow_pos _
  intro n
  induction n with
  | zero =>
    intro b hb hk
    have hb0 : b = 0 := by
      apply sentinelKey_inj b 0 (h31 b hb) (by norm_num)
      rw [hk, sentinelKey_zero]; rfl
    subst hb0
    exact ⟨[0], rfl, rfl, rfl⟩
  | succ n ih =>
    intro b hb hk
    have hb0 : b ≠ 0 := by
      intro h0
      rw [h0, sentinelKey_zero] at hk
      have : 0 < 2 ^ (32 - self.exponent) * (n + 1) := Nat.mul_pos hpos (by omega)
      omega
    obtain ⟨hp, _, hkey⟩ := getPreviousBucketIndex_spec self b he1 he hb hb0
    have hkp : sentinelKey (self.getPreviousBucketIndex (sentinelKey b)) =
        2 ^ (32 - self.exponent) * n := by
      have hexp : 2 ^ (32 - self.exponent) * (n + 1) =
          2 ^ (32 - self.exponent) * n + 2 ^ (32 - self.exponent) := by
        rw [Nat.mul_add, Nat.mul_one]
      omega
    obtain ⟨l, hl1, hl2, hl3⟩ := ih _ hp hkp
    refine ⟨b :: l, ?_, by simp [hl2], ?_⟩
    · rw [bucketChain, if_neg hb0]
      have hmk : (newMockEntry b : entry Unit Unit).hashKey = sentinelKey b := rfl
      rw [hmk, hl1]
    · cases l with
      | nil => simp at hl2
      | cons x l2 => rw [List.getLast?_cons_cons]; exact hl3

theorem Good.headNode {H : Hashable K} {t : Table K V} {L : List Nat} {c0 : Nat}
    (hg : Good H t L c0) : headNode t = L.head? := by
  have hslot : t.h.slot 0 0 = some (some c0) := hg.head_slot
  unfold Gotomic.headNode
  rw [hslot]
  exact node_eq_of_cells _ _ _ (Path_cell_head hg.chain)

/-- Bucket resolution keeps the invariant and the first node of the list, whatever fuel
it returns with. -/
theorem getBucketByIndex_keep (H : Hashable K) {t : Table K V} {L : List Nat} {c0 : Nat}
    (hg : Good H t L c0) (b : Nat) (hb : b < 2 ^ t.h.exponent) (f : Nat) (t2 : Table K V)
    (c : Nat) (h : getBucketByIndex f t b = some (t2, c)) :
    ∃ L2, Good H t2 L2 c0 ∧ L2.head? = L.head? ∧ t2.h.exponent = t.h.exponent := by
  obtain ⟨f0, t3, c3, L2, hres, hg2, _, _, hexp, _, hhead⟩ :=
    materialise H (sentinelKey b + 1) b (by omega) t L c0 hg hb
  have h1 := getBucketByIndex_mono f (f + f0) _ _ _ h (by omega)
  have h2 := getBucketByIndex_mono f0 (f + f0) _ _ _ hres (by omega)
  rw [h1] at h2
  simp only [Option.some.injEq, Prod.mk.injEq] at h2
  obtain ⟨e1, _⟩ := h2
  subst e1
  exact ⟨L2, hg2, hhead, hexp⟩

/-- The table of the result of the two searches is the one bucket resolution leaves. -/
theorem locate_bucket (H : Hashable K) (f : Nat) (t : Table K V) (pe : entry K V)
    (t1 : Table K V) (hitA hitB : hit) (h : locate H f t pe = some (t1, hitA, hitB)) :
    ∃ c, getBucketByIndex f t (t.h.bucketIndex pe.hashCode) = some (t1, c) := by
  unfold locate getBucketByHashCode at h
  cases hb : getBucketByIndex f t (t.h.bucketIndex pe.hashCode) with
  | none => rw [hb] at h; simp at h
  | some res =>
    obtain ⟨t2, c⟩ := res
    rw [hb] at h
    simp only at h
    cases hs : nodeRef.search t2.mem f c pe with
    | none => rw [hs] at h; simp at h
    | some hit1 =>
      rw [hs] at h
      simp only at h
      cases hw : hashHit.search H t2.mem f hit1 pe with
      | none => rw [hw] at h; simp at h
      | some hit2 =>
        rw [hw] at h
        simp only [Option.some.injEq, Prod.mk.injEq] at h
        rw [← h.1]
        exact ⟨c, rfl⟩

/-- The two searches keep the first node of the list. -/
theorem locate_head (H : Hashable K) (t : Table K V) (mp : List (K × V)) (ha : Abs H t mp)
    (pe : entry K V) (f : Nat) (t1 : Table K V) (hitA hitB : hit)
    (h : locate H f t pe = some (t1, hitA, hitB)) :
    ∀ n, headNode t = some n → headNode t1 = some n := by
  intro n hn
  rcases ha with ⟨ht, _⟩ | ⟨L, c0, hg, _⟩
  · subst ht
    exact absurd hn (by simp [headNode, NewHash, Hash.slot, MAX_EXPONENT])
  · obtain ⟨c, hb⟩ := locate_bucket H f t pe t1 hitA hitB h
    have he := hg.dir.1
    have hlt : t.h.bucketIndex pe.hashCode < 2 ^ t.h.exponent := by
      rw [bucketIndex_eq t.h _ he]
      exact Nat.mod_lt _ (Nat.two_pow_pos _)
    obtain ⟨L2, hg2, hhead, _⟩ := getBucketByIndex_keep H hg _ hlt f t1 c hb
    rw [hg2.headNode, hhead, ← hg.headNode]
    exact hn

/-- Whatever fuel and number of passes the retry loop of `Put` returns with, the table it
leaves satisfies the invariant, its exponent is the one before or the next one, and the
first node of the list is the one before. -/
theorem Put_loop_keep (H : Hashable K) (hl : Lawful H) (k : K) (v : V) (f : Nat) :
    ∀ (retries : Nat) (t : Table K V) (mp : List (K × V)) (t2 : Table K V) (r : Option V),
    Abs H t mp → Put.loop H f (newRealEntry H k (some v)) retries t = some (t2, r) →
    (∃ L2 c2, Good H t2 L2 c2) ∧ t.h.exponent ≤ t2.h.exponent ∧
      t2.h.exponent ≤ t.h.exponent + 1 ∧
      ∀ n, headNode t = some n → headNode t2 = some n := by
  intro retries
  induction retries with
  | zero => intro t mp t2 r _ h; simp [Put.loop] at h
  | succ n ih =>
    intro t mp t2 r ha h
    rw [Put.loop] at h
    cases hloc : locate H f t (newRealEntry H k (some v)) with
    | none => rw [hloc] at h; simp at h
    | some res =>
      obtain ⟨t1, hitA, hitB⟩ := res
      rw [hloc] at h
      obtain ⟨L, c0, hg, hv, he, hs, hc⟩ :=
        locate_sound H hl t mp ha k (some v) f t1 hitA hitB hloc
      have hhead := locate_head H t mp ha _ f t1 hitA hitB hloc
      have habs : Abs H t1 mp := by rw [← hv]; exact hg.abs
      rcases hc with ⟨A, p, z, B, zd, kz, vz, hL, hnode, _, hzd, hz, heq⟩ | hab
      · have hval : zd.value.value = some (some vz) := by rw [hz]; rfl
        simp only [hnode, hzd, hval, Option.some.injEq, Prod.mk.injEq] at h
        obtain ⟨h1, _⟩ := h
        have hL2 : L = (A ++ [p]) ++ z :: B := by rw [hL]; simp
        obtain ⟨hg2, _, _⟩ := Good_store H hg (A ++ [p]) B z hL2 zd hzd kz vz hz v
        subst h1
        refine ⟨⟨L, c0, hg2⟩, by rw [← he], by rw [← he]; exact Nat.le_succ _, ?_⟩
        intro n0 hn0
        have h3 := hhead n0 hn0
        rw [hg.headNode] at h3
        exact hg2.headNode.trans h3
      · obtain ⟨hnode, hno0, A, p, B, pd, hL, hleft, hpd, hins⟩ := hab
        simp only [hnode, hleft, hpd] at h
        by_cases hpush : nodeRef.node t1.mem pd.next = hitA.rightNode
        · rw [pushBefore_eq _ _ _ _ hpush] at h
          simp only at h
          cases hadd : t1.h.addSize 1 with
          | none => rw [hadd] at h; simp at h
          | some h2 =>
            rw [hadd] at h
            simp only [Option.some.injEq, Prod.mk.injEq] at h
            obtain ⟨h1, _⟩ := h
            obtain ⟨hext, hsz, hload, hexp⟩ :=
              addSize_one_spec t1.h h2 hg.dir hg.lf hg.load hadd
            obtain ⟨hA, hB⟩ := hins hpush
            have hnext : t1.mem.nextOf p = pd.next := nextOf_of_some _ _ _ hpd
            have hright : hitA.rightNode = B.head? := by
              rw [← hpush, ← hnext]; exact hg.cell_of_split A B p hL
            obtain ⟨hg2, _⟩ := Good_ins H hg A B p hL (newRealEntry H k (some v)) h2 hext
              (Or.inl ⟨k, v, rfl⟩) hA hB (by rw [hsz, entView_real]; rfl) hload
            rw [hnext, ← hright] at hg2
            have hmono : t1.h.exponent ≤ h2.exponent := hext.2.2.1
            subst h1
            refine ⟨⟨_, c0, hg2⟩, by rw [← he]; exact hmono, by rw [← he]; exact hexp, ?_⟩
            intro n0 hn0
            have h3 := hhead n0 hn0
            rw [hg.headNode, hL] at h3
            refine hg2.headNode.trans ?_
            cases A with
            | nil => exact h3
            | cons a A2 => exact h3
        · rw [pushBefore_ne _ _ _ _ hpush] at h
          simp only at h
          obtain ⟨g1, g2, g3, g4⟩ := ih t1 mp t2 r habs h
          exact ⟨g1, by rw [← he]; exact g2, by rw [← he]; exact g3,
            fun n0 hn0 => g4 n0 (hhead n0 hn0)⟩

/-- Whatever fuel `Get` returns with, the table it leaves satisfies the invariant, with
the exponent and the first node of the list there were before. -/
theorem Get_keep (H : Hashable K) (hl : Lawful H) (t : Table K V) (mp : List (K × V))
    (ha : Abs H t mp) (k : K) (f : Nat) (t2 : Table K V) (r : Option V)
    (h : Get H f t k = some (t2, r)) :
    (∃ L2 c2, Good H t2 L2 c2) ∧ t2.h.exponent = t.h.exponent ∧
      ∀ n, headNode t = some n → headNode t2 = some n := by
  unfold Get at h
  dsimp only at h
  cases hloc : locate H f t (newRealEntry H k none) with
  | none => rw [hloc] at h; simp at h
  | some res =>
    obtain ⟨t1, hitA, hitB⟩ := res
    rw [hloc] at h
    simp only at h
    obtain ⟨L, c0, hg, _, he, _, _⟩ := locate_sound H hl t mp ha k none f t1 hitA hitB hloc
    have hhead := locate_head H t mp ha _ f t1 hitA hitB hloc
    have ht : t1 = t2 := by
      cases hn : hitB.node with
      | none =>
        rw [hn] at h
        simp only [Option.some.injEq, Prod.mk.injEq] at h
        exact h.1
      | some z =>
        rw [hn] at h
        simp only at h
        cases hz : t1.mem.nodes[z]? with
        | none => rw [hz] at h; simp at h
        | some zd =>
          rw [hz] at h
          simp only [Option.some.injEq, Prod.mk.injEq] at h
          exact h.1
    subst ht
    exact ⟨⟨L, c0, hg⟩, he, hhead⟩

/-- The method `Delete` returns on every table that satisfies the abstraction relation;
the table it leaves satisfies the invariant, with the exponent and the first node of the
list there were before. -/
theorem Delete_total_keep (H : Hashable K) (hl : Lawful H) (t : Table K V)
    (mp : List (K × V)) (ha : Abs H t mp) (k : K) :
    ∃ fuel t1 r, Delete H fuel t k = some (t1, r) ∧ (∃ L2 c2, Good H t1 L2 c2) ∧
      t1.h.exponent = t.h.exponent ∧ ∀ n, headNode t = some n → headNode t1 = some n := by
  obtain ⟨f, t1, hitA, hitB, L, c0, hloc, hg, hv, he, hs, hc⟩ :=
    locate_spec H hl t mp ha k none
  have hhead := locate_head H t mp ha _ f t1 hitA hitB hloc
  have hloc2 := locate_mono H f (f + 1) _ _ _ hloc (by omega)
  rcases hc with ⟨A, p, z, B, zd, kz, vz, hL, hnode, href, hzd, hz, heq⟩ | hab
  · have hcell := hg.cell_of_split A (z :: B) p hL
    have hpop := popExact_eq t1.mem (t1.mem.nextOf p) z zd hcell hzd
    have hreal : zd.value.real = true := by rw [hz]; exact newRealEntry_real H kz (some vz)
    obtain ⟨hg2, _, _⟩ := Good_pop H hg A B p z hL zd hzd hreal
    refine ⟨f + 1, _, zd.value.val, ?_, ⟨_, c0, hg2⟩, he, ?_⟩
    · show Delete.loop H (f + 1) (newRealEntry H k none) (f + 1) t = _
      rw [Delete.loop, hloc2]
      simp only [hnode, href, hpop, setCell_nodes, hzd, addSize_neg_spec t1.h hg.load]
    · intro n0 hn0
      have h3 := hhead n0 hn0
      rw [hg.headNode, hL] at h3
      refine hg2.headNode.trans ?_
      cases A with
      | nil => exact h3
      | cons a A2 => exact h3
  · refine ⟨f + 1, t1, none, ?_, ⟨L, c0, hg⟩, he, hhead⟩
    show Delete.loop H (f + 1) (newRealEntry H k none) (f + 1) t = _
    rw [Delete.loop, hloc2]
    simp only [hab.1]

/-- Whatever fuel `Delete` returns with, the table it leaves satisfies the invariant, with
the exponent and the first node of the list there were before. -/
theorem Delete_keep (H : Hashable K) (hl : Lawful H) (t : Table K V) (mp : List (K × V))
    (ha : Abs H t mp) (k : K) (f : Nat) (t2 : Table K V) (r : Option V)
    (h : Delete H f t k = some (t2, r)) :
    (∃ L2 c2, Good H t2 L2 c2) ∧ t2.h.exponent = t.h.exponent ∧
      ∀ n, headNode t = some n → headNode t2 = some n := by
  obtain ⟨f0, t1, r1, h0, hgood, he, hhead⟩ := Delete_total_keep H hl t mp ha k
  have h1 := Delete_mono H f (f + f0) _ _ _ h (by omega)
  have h2 := Delete_mono H f0 (f + f0) _ _ _ h0 (by omega)
  rw [h1] at h2
  simp only [Option.some.injEq, Prod.mk.injEq] at h2
  obtain ⟨e1, _⟩ := h2
  subst e1
  exact ⟨hgood, he, hhead⟩

/-- One call leaves a table that satisfies the invariant and keeps the first node of the
list. -/
theorem runOp_keep (H : Hashable K) (hl : Lawful H) (t : Table K V) (mp : List (K × V))
    (ha : Abs H t mp) (op : Op K V) (f : Nat) (t2 : Table K V) (r : Option V)
    (h : runOp H f t op = some (t2, r)) :
    (∃ L2 c2, Good H t2 L2 c2) ∧ ∀ n, headNode t = some n → headNode t2 = some n := by
  cases op with
  | Put k v =>
    obtain ⟨h1, _, _, h2⟩ := Put_loop_keep H hl k v f f t mp t2 r ha h
    exact ⟨h1, h2⟩
  | Delete k =>
    obtain ⟨h1, _, h2⟩ := Delete_keep H hl t mp ha k f t2 r h
    exact ⟨h1, h2⟩
  | Get k =>
    obtain ⟨h1, _, h2⟩ := Get_keep H hl t mp ha k f t2 r h
    exact ⟨h1, h2⟩

/-- A sequence of calls keeps the first node of the list. -/
theorem runOps_head (H : Hashable K) (hl : Lawful H) (f : Nat) :
    ∀ (ops : List (Op K V)) (t : Table K V) (mp : List (K × V)) (t2 : Table K V)
      (rs : List (Option V)), Abs H t mp → runOps H f ops t = some (t2, rs) →
      ∀ n, headNode t = some n → headNode t2 = some n := by
  intro ops
  induction ops with
  | nil =>
    intro t mp t2 rs _ h n hn
    simp only [runOps, Option.some.injEq, Prod.mk.injEq] at h
    rw [← h.1]
    exact hn
  | cons op ops ih =>
    intro t mp t2 rs ha h n hn
    rw [runOps] at h
    cases h1 : runOp H f t op with
    | none => rw [h1] at h; simp at h
    | some res =>
      obtain ⟨t1, r⟩ := res
      rw [h1] at h
      simp only at h
      cases h2 : runOps H f ops t1 with
      | none => rw [h2] at h; simp at h
      | some res2 =>
        obtain ⟨t3, rs3⟩ := res2
        rw [h2] at h
        simp only [Option.some.injEq, Prod.mk.injEq] at h
        obtain ⟨mp1, ha1, _⟩ := runOp_abs H hl t mp ha op f t1 r h1
        obtain ⟨_, hk⟩ := runOp_keep H hl t mp ha op f t1 r h1
        rw [← h.1]
        exact ih t1 mp1 t3 rs3 ha1 h2 n (hk n hn)

/-- The walk from a cell from which the nodes `L` are reachable: it returns with enough
fuel, and what it returns are the nodes of `L`, in order, each with its entry. -/
theorem listFrom_loop_spec (m : Mem K V) :
    ∀ (L : List Nat) (c g : Nat), Path m c L none →
    (∀ l, listFrom.loop m g (nodeRef.node m c) = some l →
      l.map Prod.fst = L ∧ ∀ p ∈ l, ∃ nd, m.nodes[p.1]? = some nd ∧ nd.value = p.2) ∧
    (L.length < g → ∃ l, listFrom.loop m g (nodeRef.node m c) = some l) := by
  intro L
  induction L with
  | nil =>
    intro c g hp
    have hnode : nodeRef.node m c = none := node_eq_of_cells _ _ _ (Path_cell_head hp)
    rw [hnode]
    cases g with
    | zero =>
      exact ⟨fun l h => by simp [listFrom.loop] at h, fun h => absurd h (by simp)⟩
    | succ g =>
      refine ⟨fun l h => ?_, fun _ => ⟨[], rfl⟩⟩
      simp only [listFrom.loop, Option.some.injEq] at h
      subst h
      exact ⟨rfl, fun p hp2 => absurd hp2 (by simp)⟩
  | cons n L ih =>
    intro c g hp
    have hnode : nodeRef.node m c = some n := node_eq_of_cells _ _ _ (Path_cell_head hp)
    obtain ⟨_, nd, hnd, hp2⟩ := Path_split [] hp
    rw [hnode]
    cases g with
    | zero =>
      exact ⟨fun l h => by simp [listFrom.loop] at h, fun h => absurd h (by simp)⟩
    | succ g =>
      obtain ⟨ih1, ih2⟩ := ih nd.next g hp2
      have hstep : listFrom.loop m (g + 1) (some n) =
          (listFrom.loop m g (nodeRef.node m nd.next)).map (fun l => (n, nd.value) :: l) := by
        rw [listFrom.loop]
        simp only [hnd]
        cases listFrom.loop m g (nodeRef.node m nd.next) with
        | none => rfl
        | some l => rfl
      rw [hstep]
      constructor
      · intro l h
        cases hrec : listFrom.loop m g (nodeRef.node m nd.next) with
        | none => rw [hrec] at h; simp at h
        | some l2 =>
          rw [hrec] at h
          simp only [Option.map_some', Option.some.injEq] at h
          subst h
          obtain ⟨a1, a2⟩ := ih1 l2 hrec
          refine ⟨by simp only [List.map_cons, a1], ?_⟩
          intro p hp3
          rcases List.mem_cons.1 hp3 with e | e
          · subst e; exact ⟨nd, hnd, rfl⟩
          · exact a2 p e
      · intro hg
        obtain ⟨l2, hl2⟩ := ih2 (by simp only [List.length_cons] at hg; omega)
        rw [hl2]
        exact ⟨_, rfl⟩

/-- The comparator `entry.Compare` is not positive exactly when the sort key of the receiver
is not the larger one. -/
theorem Compare_nonpos (a b : entry K V) : a.Compare b ≤ 0 ↔ a.hashKey ≤ b.hashKey := by
  unfold entry.Compare
  by_cases h1 : a.hashKey > b.hashKey
  · rw [if_pos h1]
    constructor
    · intro h; exact absurd h (by decide)
    · intro h; omega
  · rw [if_neg h1]
    by_cases h2 : a.hashKey < b.hashKey
    · rw [if_pos h2]
      exact ⟨fun _ => by omega, fun _ => by decide⟩
    · rw [if_neg h2]
      exact ⟨fun _ => by omega, fun _ => le_refl _⟩

/-- On a table that satisfies the invariant the walk from the head returns, with the same
list whatever the fuel: a list sorted by `Compare`, that is by sort key, whose first node
is the sentinel of bucket 0, the node `headNode` gives. -/
theorem listFrom_spec (H : Hashable K) {t : Table K V} {L : List Nat} {c0 : Nat}
    (hg : Good H t L c0) :
    ∃ l, (∃ g, listFrom g t = some l) ∧ (∀ g l2, listFrom g t = some l2 → l2 = l) ∧
      l.Pairwise (fun a b => a.2.Compare b.2 ≤ 0 ∧ a.2.hashKey ≤ b.2.hashKey ∧
        (a.2.Compare b.2 = 0 ↔ a.2.hashKey = b.2.hashKey)) ∧
      ∃ n0, headNode t = some n0 ∧ l.head? = some (n0, newMockEntry 0) := by
  have hslot : t.h.slot 0 0 = some (some c0) := hg.head_slot
  have hlf : ∀ g, listFrom g t = listFrom.loop t.mem g (nodeRef.node t.mem c0) := by
    intro g
    unfold listFrom
    rw [hslot]
  have hspec := fun g => listFrom_loop_spec t.mem L c0 g hg.chain
  obtain ⟨l, hl⟩ := (hspec (L.length + 1)).2 (by omega)
  obtain ⟨hmap, hent⟩ := (hspec _).1 l hl
  have huniq : ∀ g l2, listFrom g t = some l2 → l2 = l := by
    intro g l2 h2
    rw [hlf] at h2
    obtain ⟨hmap2, hent2⟩ := (hspec g).1 l2 h2
    apply List.ext_getElem?
    intro i
    have e1 : (l2.map Prod.fst)[i]? = (l.map Prod.fst)[i]? := by rw [hmap2, hmap]
    rw [List.getElem?_map, List.getElem?_map] at e1
    cases h3 : l2[i]? with
    | none =>
      rw [h3] at e1
      cases h4 : l[i]? with
      | none => rfl
      | some q => rw [h4] at e1; simp at e1
    | some p =>
      rw [h3] at e1
      cases h4 : l[i]? with
      | none => rw [h4] at e1; simp at e1
      | some q =>
        rw [h4] at e1
        simp only [Option.map_some', Option.some.injEq] at e1
        obtain ⟨nd, a1, a2⟩ := hent2 p (List.getElem?_mem h3)
        obtain ⟨nd2, b1, b2⟩ := hent q (List.getElem?_mem h4)
        rw [e1, b1] at a1
        simp only [Option.some.injEq] at a1
        subst a1
        have : p = q := Prod.ext e1 (by rw [← a2, ← b2])
        rw [this]
  refine ⟨l, ⟨L.length + 1, by rw [hlf]; exact hl⟩, huniq, ?_, ?_⟩
  · have hs := hg.sorted
    rw [← hmap, List.pairwise_map] at hs
    refine hs.imp_of_mem ?_
    intro a b ha hb hrel
    obtain ⟨na, a1, a2⟩ := hent a ha
    obtain ⟨nb, b1, b2⟩ := hent b hb
    rw [← a2, ← b2]
    have hle := (hrel na nb a1 b1).1
    exact ⟨(Compare_nonpos _ _).2 hle, hle, Compare_zero _ _⟩
  · obtain ⟨n0, rest, nd, hL, hnd, hval⟩ := hg.first
    refine ⟨n0, by rw [hg.headNode, hL]; rfl, ?_⟩
    cases l with
    | nil => rw [hL] at hmap; simp at hmap
    | cons p l3 =>
      rw [hL] at hmap
      simp only [List.map_cons, List.cons.injEq] at hmap
      obtain ⟨nd2, c1, c2⟩ := hent p (by simp)
      rw [hmap.1, hnd] at c1
      simp only [Option.some.injEq] at c1
      subst c1
      simp only [List.head?_cons, Option.some.injEq]
      exact Prod.ext hmap.1 (by rw [← c2, hval])

theorem NewHash_dir : DirOK (NewHash : Table K V).h := by
  refine ⟨by simp [NewHash], by simp [NewHash, MAX_EXPONENT], ?_⟩
  intro k hk
  constructor
  · intro hle
    have hk0 : k = 0 := by
      have : k ≤ 0 := hle
      omega
    subst hk0
    exact ⟨[none], rfl, rfl⟩
  · intro hlt
    have hk0 : 0 < k := hlt
    show ((List.replicate MAX_EXPONENT none).set 0 (some [none]))[k]? = some none
    rw [List.getElem?_set_ne (by omega), List.getElem?_replicate]
    simp [MAX_EXPONENT, hk]

/-- The directory of a table that satisfies the abstraction relation has the shape
`DirOK`. -/
theorem Abs.dir {H : Hashable K} {t : Table K V} {mp : List (K × V)} (ha : Abs H t mp) :
    DirOK t.h := by
  rcases ha with ⟨ht, _⟩ | ⟨L, c0, hg, _⟩
  · subst ht; exact NewHash_dir
  · exact hg.dir

/-- The size of a table that satisfies the abstraction relation is at most half the number
of buckets, and its load factor is the default one. -/
theorem Abs.load {H : Hashable K} {t : Table K V} {mp : List (K × V)} (ha : Abs H t mp) :
    t.h.loadFactor = DEFAULT_LOAD_FACTOR ∧
      t.h.Size ≤ ((2 ^ t.h.exponent / 2 : Nat) : Int) := by
  rcases ha with ⟨ht, _⟩ | ⟨L, c0, hg, _⟩
  · subst ht
    refine ⟨rfl, ?_⟩
    show (0 : Int) ≤ ((2 ^ 0 / 2 : Nat) : Int)
    decide
  · refine ⟨hg.lf, ?_⟩
    rw [← threshold_eq t.h hg.lf hg.dir.1]
    exact hg.load

/-- A table with a first node satisfies the invariant, when it satisfies the abstraction
relation. -/
theorem Abs.good_of_head {H : Hashable K} {t : Table K V} {mp : List (K × V)}
    (ha : Abs H t mp) (n : Nat) (hn : headNode t = some n) : ∃ L c0, Good H t L c0 := by
  rcases ha with ⟨ht, _⟩ | ⟨L, c0, hg, _⟩
  · subst ht
    exact absurd hn (by simp [headNode, NewHash, Hash.slot, MAX_EXPONENT])
  · exact ⟨L, c0, hg⟩

/-- At exponent 31 with the size at the load threshold, `addSize(1)` calls `grow`, which
indexes the directory of 32 slots at 32. -/
theorem addSize_at_limit (self : Hash) (hlen : self.buckets.length = MAX_EXPONENT)
    (he : self.exponent = 31) (hlf : self.loadFactor = DEFAULT_LOAD_FACTOR)
    (hs : self.size = 2 ^ 30) :
    self.buckets[(self.exponent + 1) % U32]? = none ∧ self.grow = none ∧
      self.addSize 1 = none := by
  have hidx : self.buckets[(self.exponent + 1) % U32]? = none := by
    rw [he]
    apply List.getElem?_eq_none
    rw [hlen]
    decide
  have hgrow : ∀ s : Int, Hash.grow { self with size := s } = none := by
    intro s
    unfold Hash.grow
    simp only [hidx]
  refine ⟨hidx, by unfold Hash.grow; simp only [hidx], ?_⟩
  unfold Hash.addSize
  simp only
  have hgt : self.size + 1 > Hash.threshold { self with size := self.size + 1 } := by
    unfold Hash.threshold
    simp only [hlf, he, hs, DEFAULT_LOAD_FACTOR, U32]
    decide
  rw [if_pos hgt]
  exact hgrow _

/-- At exponent 31 with the size at the load threshold, the retry loop of `Put` has no
result for a key that is absent, whatever the fuel and the number of passes: when the
insertion succeeds, `addSize(1)` indexes the directory out of range. -/
theorem Put_loop_at_limit (H : Hashable K) (hl : Lawful H) (k : K) (v : V) (f : Nat) :
    ∀ (retries : Nat) (t : Table K V) (mp : List (K × V)), Abs H t mp →
    t.h.exponent = 31 → t.h.size = 2 ^ 30 → lookupE H k mp = none →
    Put.loop H f (newRealEntry H k (some v)) retries t = none := by
  intro retries
  induction retries with
  | zero => intro t mp _ _ _ _; rfl
  | succ n ih =>
    intro t mp ha h31 hsize hno
    rw [Put.loop]
    cases hloc : locate H f t (newRealEntry H k (some v)) with
    | none => rfl
    | some res =>
      obtain ⟨t1, hitA, hitB⟩ := res
      obtain ⟨L, c0, hg, hv, he, hs, hc⟩ :=
        locate_sound H hl t mp ha k (some v) f t1 hitA hitB hloc
      have habs : Abs H t1 mp := by rw [← hv]; exact hg.abs
      have hd := habs.distinct hl
      rcases hc with ⟨A, p, z, B, zd, kz, vz, hL, hnode, _, hzd, hz, heq⟩ | hab
      · exfalso
        have hL2 : L = (A ++ [p]) ++ z :: B := by rw [hL]; simp
        have hview := found_view H t1.mem (A ++ [p]) B z zd kz vz hzd hz
        rw [← hL2, hv] at hview
        rw [hview] at hd hno
        rw [lookupE_found H hl k kz vz _ _ hd heq] at hno
        exact absurd hno (by simp)
      · obtain ⟨hnode, _, A, p, B, pd, hL, hleft, hpd, _⟩ := hab
        simp only [hnode, hleft, hpd]
        by_cases hpush : nodeRef.node t1.mem pd.next = hitA.rightNode
        · rw [pushBefore_eq _ _ _ _ hpush]
          simp only
          rw [(addSize_at_limit t1.h hg.dir.2.1 (by rw [he, h31]) hg.lf
            (by rw [hs, hsize])).2.2]
        · rw [pushBefore_ne _ _ _ _ hpush]
          simp only
          exact ih t1 mp habs (by rw [he, h31]) (by rw [hs, hsize]) hno

/-! ## Runs on which the insertion of Put never succeeds -/

set_option maxRecDepth 100000

/-- C1: Put then Get fails for a lawful key whose sort key is tied with a present key of
another hash.  `Put(hashInt(0), 1)` on `NewHash()` returns absent and leaves `tableKey0`;
on that table `Put(hashInt(2147483648), 2)` has no result for any fuel, so there is no
following Get. -/
theorem C1_Put_tied_sort_key_never_returns :
    runOps hashInt 9 [Op.Put 0 1] NewHash = some (tableKey0, [none]) ∧
    ∀ fuel : Nat, Put hashInt fuel tableKey0 2147483648 (some 2) = none := by
  refine ⟨rfl, ?_⟩
  intro fuel
  match fuel with
  | 0 => rfl
  | 1 => rfl
  | 2 => rfl
  | f + 3 =>
    exact Put.loop_fixed hashInt (f + 3) (newRealEntry hashInt 2147483648 (some 2)) tableKey0
      { leftRef := some 0, leftNode := some 0, ref := some 1, node := some 1,
        rightRef := some 2, rightNode := none }
      { leftRef := some 0, leftNode := some 0, ref := none, node := none,
        rightRef := some 1, rightNode := some 1 }
      0 { value := newMockEntry 0, next := 1 } (by rfl) rfl rfl (by rfl) (by decide) (f + 3)

/-- C5: the refinement of the reference map fails on the sequence
`Put(hashInt(3), 1); Put(hashInt(2147483651), 2)`: the reference map returns absent twice,
the table gives no result for the second call, whatever the fuel. -/
theorem C5_refinement_fails_on_tied_sort_keys :
    (refOps [Op.Put 3 1, Op.Put 2147483651 2] ([] : RefMap Nat Nat)).2 = [none, none] ∧
    ∀ fuel : Nat, runOps hashInt fuel [Op.Put 3 1, Op.Put 2147483651 2] NewHash = none := by
  refine ⟨by decide, ?_⟩
  intro fuel
  match fuel with
  | 0 => rfl
  | 1 => rfl
  | 2 => rfl
  | 3 => rfl
  | f + 4 =>
    have h1 : runOp hashInt (f + 4) NewHash (Op.Put 3 1) = some (tableKey3, none) := rfl
    have h2 : runOp hashInt (f + 4) tableKey3 (Op.Put 2147483651 2) = none :=
      Put.loop_stuck hashInt (f + 4) (newRealEntry hashInt 2147483651 (some 2)) tableKey3
        (tableAfter hashInt 9 [Op.Put 3 1, Op.Get 2147483651])
        { leftRef := some 1, leftNode := some 2, ref := some 3, node := some 1,
          rightRef := some 2, rightNode := none }
        { leftRef := some 1, leftNode := some 2, ref := none, node := none,
          rightRef := some 3, rightNode := some 1 }
        2 { value := newMockEntry 1, next := 3 } (by rfl) (by rfl) rfl rfl (by rfl) (by decide) (f + 4)
    simp only [runOps, h1, h2]

/-- C7: Verify reports an error on a reachable table.  After the first three insertions of
scenario S5 (hashes 0, 1, 2) the directory slot of bucket 1 holds the reference through
which the sentinel of bucket 2 was inserted, so the mock entry of bucket 1 met in the list
is not the entry its slot resolves to: Verify returns an error, for every fuel that lets
it return. -/
theorem C7_Verify_fails_after_three_insertions :
    runOps hashInt 9 [Op.Put 0 1, Op.Put 1 1, Op.Put 2 1] NewHash =
      some (tableS5, [none, none, none]) ∧
    Verify 9 tableS5 = some (tableS5, false) ∧
    ∀ (fuel : Nat) (t : Table Nat Nat), Verify fuel tableS5 ≠ some (t, true) := by
  refine ⟨rfl, rfl, ?_⟩
  intro fuel t
  match fuel with
  | 0 => exact fun h => nomatch h
  | 1 => exact fun h => nomatch h
  | 2 => exact fun h => nomatch h
  | 3 => exact fun h => nomatch h
  | 4 => exact fun h => nomatch h
  | f + 5 =>
    have h : Verify (f + 5) tableS5 = some (tableS5, false) := rfl
    rw [h]
    intro hc
    have := congrArg (fun o => o.map (fun p => p.2)) hc
    simp at this

/-- C9: the grow schedule.  With keys of hashes 0 to 7 the exponent is 1, 2 and 3 after the
first three insertions and all eight keys are returned by Get afterwards; but for the two
distinct keys `hashInt(2147483648)` and `hashInt(0)` the second insertion has no result for
any fuel, so no exponent is reached for n = 2. -/
theorem C9_grow_schedule_and_stuck_insertion :
    (tableAfter hashInt 9 [Op.Put 0 1]).h.exponent = 1 ∧
    (tableAfter hashInt 9 [Op.Put 0 1, Op.Put 1 1]).h.exponent = 2 ∧
    tableS5.h.exponent = 3 ∧
    (((List.range 8).map (fun k => runOp hashInt 20 tableS5all (Op.Get k))).map
        (fun r => r.map (fun p => p.2)) =
      [some (some 10), some (some 11), some (some 12), some (some 13), some (some 14),
       some (some 15), some (some 16), some (some 17)]) ∧
    runOps hashInt 9 [Op.Put 2147483648 1] NewHash = some (tableKeyHigh, [none]) ∧
    ∀ fuel : Nat, Put hashInt fuel tableKeyHigh 0 (some 2) = none := by
  refine ⟨rfl, rfl, rfl, rfl, rfl, ?_⟩
  intro fuel
  match fuel with
  | 0 => rfl
  | 1 => rfl
  | 2 => rfl
  | f + 3 =>
    exact Put.loop_fixed hashInt (f + 3) (newRealEntry hashInt 0 (some 2)) tableKeyHigh
      { leftRef := some 0, leftNode := some 0, ref := some 1, node := some 1,
        rightRef := some 2, rightNode := none }
      { leftRef := some 0, leftNode := some 0, ref := none, node := none,
        rightRef := some 1, rightNode := some 1 }
      0 { value := newMockEntry 0, next := 1 } (by rfl) rfl rfl (by rfl) (by decide) (f + 3)

/-- C10: a Put without contention that does not complete in one pass.  The table holds the
two distinct keys `key("abc")` and `key("acb")` of hash 294; for the new key `key("bac")`
of the same hash the first pass issues `pushBefore` on a reference that does not point to
the expected right node, the call fails, and so does every retry: Put has no result for
any fuel. -/
theorem C10_Put_retries_without_contention :
    runOps key 9 [Op.Put "abc" 1, Op.Put "acb" 2] NewHash = some (tableTwoTied, [none, none]) ∧
    (∃ (t1 : Table String Nat) (hitA hitB : hit) (ln : Nat) (lnd : node String Nat),
      locate key 9 tableTwoTied (newRealEntry key "bac" (some 3)) = some (t1, hitA, hitB) ∧
      hitB.node = none ∧ hitB.leftNode = some ln ∧ t1.mem.nodes[ln]? = some lnd ∧
      (nodeRef.pushBefore t1.mem lnd.next (newRealEntry key "bac" (some 3)) hitA.rightNode).2
        = false) ∧
    ∀ fuel : Nat, Put key fuel tableTwoTied "bac" (some 3) = none := by
  refine ⟨rfl, ⟨tableAfter key 9 [Op.Put "abc" 1, Op.Put "acb" 2, Op.Get "bac"],
    { leftRef := some 1, leftNode := some 3, ref := some 4, node := some 1,
      rightRef := some 2, rightNode := some 2 },
    { leftRef := some 2, leftNode := some 2, ref := some 3, node := none,
      rightRef := none, rightNode := none },
    2, { value := newRealEntry key "acb" (some 2), next := 3 }, rfl, rfl, rfl, rfl, rfl⟩, ?_⟩
  intro fuel
  match fuel with
  | 0 => rfl
  | 1 => rfl
  | 2 => rfl
  | 3 => rfl
  | f + 4 =>
    exact Put.loop_stuck key (f + 4) (newRealEntry key "bac" (some 3)) tableTwoTied
      (tableAfter key 9 [Op.Put "abc" 1, Op.Put "acb" 2, Op.Get "bac"])
      { leftRef := some 1, leftNode := some 3, ref := some 4, node := some 1,
        rightRef := some 2, rightNode := some 2 }
      { leftRef := some 2, leftNode := some 2, ref := some 3, node := none,
        rightRef := none, rightNode := none }
      2 { value := newRealEntry key "acb" (some 2), next := 3 } (by rfl) (by rfl) rfl rfl (by rfl)
      (by decide) (f + 4)

/-- C2: on a table reached from `NewHash()` by a sequence of calls, for a lawful key type,
when `v1` is the value most recently put for `k` and not deleted since, `Put(k, v2)`
returns, and whenever it returns it returns `v1`, leaves `Size()` as it was, and a
following `Get(k)` returns, with `v2`. -/
theorem C2_Put_overwrites_present_key {K V : Type} (H : Hashable K) (hl : Lawful H)
    (fuel : Nat) (ops : List (Op K V)) (t : Table K V) (rs : List (Option V))
    (hrun : runOps H fuel ops NewHash = some (t, rs)) (k : K) (v1 v2 : V)
    (hpresent : lastPut H k ops none = some v1) :
    (∃ f t2, Put H f t k (some v2) = some (t2, some v1)) ∧
    ∀ f t2 r, Put H f t k (some v2) = some (t2, r) →
      r = some v1 ∧ t2.h.Size = t.h.Size ∧
      (∃ g t3, Get H g t2 k = some (t3, some v2)) ∧
      ∀ g t3 r2, Get H g t2 k = some (t3, r2) → r2 = some v2 := by
  obtain ⟨mp, ha, hlk⟩ := reach_lookup H hl fuel ops t rs hrun
  have hp : lookupE H k mp = some v1 := by rw [hlk k, hpresent]
  refine ⟨Put_total_found H hl t mp ha k v2 v1 hp, ?_⟩
  intro f t2 r hput
  obtain ⟨hr, mp2, ha2, hperm⟩ := Put_sound H hl t mp ha k v2 f t2 r hput
  have hget : lookupE H k mp2 = some v2 := by
    rw [lookupE_perm H hl k hperm (ha2.distinct hl), lookupE_specPut H hl, if_pos (hl.refl k)]
  refine ⟨by rw [hr, hp], ?_, ?_, ?_⟩
  · rw [ha2.size, ha.size, hperm.length_eq, specPut_length_found H k v2 v1 mp hp]
  · obtain ⟨g, t3, h3, _⟩ := Get_total H hl t2 mp2 ha2 k
    rw [hget] at h3
    exact ⟨g, t3, h3⟩
  · intro g t3 r2 h3
    rw [(Get_sound H hl t2 mp2 ha2 k g t3 r2 h3).1, hget]

/-- Scenario S4 of the spec as an instance of C2: after `Put("a", 1)`, `Put("a", 2)`
returns 1, the size stays, and `Get("a")` returns 2. -/
theorem C2_Put_overwrites_present_key_witness :
    Lawful key ∧
    runOps key 9 [Op.Put "a" 1] NewHash = some (tableAfter key 9 [Op.Put "a" 1], [none]) ∧
    lastPut key "a" [Op.Put "a" 1] none = some 1 ∧
    ((∃ f t2, Put key f (tableAfter key 9 [Op.Put "a" 1]) "a" (some 2) = some (t2, some 1)) ∧
    ∀ f t2 r, Put key f (tableAfter key 9 [Op.Put "a" 1]) "a" (some 2) = some (t2, r) →
      r = some 1 ∧ t2.h.Size = (tableAfter key 9 [Op.Put "a" 1]).h.Size ∧
      (∃ g t3, Get key g t2 "a" = some (t3, some 2)) ∧
      ∀ g t3 r2, Get key g t2 "a" = some (t3, r2) → r2 = some 2) :=
  ⟨key_lawful, by rfl, by rfl,
    C2_Put_overwrites_present_key key key_lawful 9 [Op.Put "a" 1] _ [none] (by rfl) "a" 1 2
      (by rfl)⟩

/-- C3: on a table reached from `NewHash()` by a sequence of calls, for a lawful key type,
`Delete(k)` returns, and whenever it returns it returns the value most recently put for
`k`, nil when `k` was never put or was deleted since; after a `Delete(k)` that returned a
value, `Size()` is one less, and a second `Delete(k)` and a `Get(k)` return, with nil. -/
theorem C3_Delete_returns_last_value {K V : Type} (H : Hashable K) (hl : Lawful H)
    (fuel : Nat) (ops : List (Op K V)) (t : Table K V) (rs : List (Option V))
    (hrun : runOps H fuel ops NewHash = some (t, rs)) (k : K) :
    (∃ f t2, Delete H f t k = some (t2, lastPut H k ops none)) ∧
    ∀ f t2 r, Delete H f t k = some (t2, r) →
      r = lastPut H k ops none ∧
      ∀ v, r = some v →
        t2.h.Size = t.h.Size - 1 ∧
        (∃ g t3, Delete H g t2 k = some (t3, none)) ∧
        (∀ g t3 r2, Delete H g t2 k = some (t3, r2) → r2 = none) ∧
        (∃ g t3, Get H g t2 k = some (t3, none)) ∧
        ∀ g t3 r2, Get H g t2 k = some (t3, r2) → r2 = none := by
  obtain ⟨mp, ha, hlk⟩ := reach_lookup H hl fuel ops t rs hrun
  constructor
  · obtain ⟨f, t2, h2, _⟩ := Delete_total H hl t mp ha k
    rw [hlk k] at h2
    exact ⟨f, t2, h2⟩
  · intro f t2 r hdel
    obtain ⟨hr, ha2, _⟩ := Delete_sound H hl t mp ha k f t2 r hdel
    refine ⟨by rw [hr, hlk k], ?_⟩
    intro v hv
    have hp : lookupE H k mp = some v := by rw [← hr, hv]
    have hnone : lookupE H k (specDelete H mp k) = none := lookupE_specDelete_self H k mp
    refine ⟨?_, ?_, ?_, ?_, ?_⟩
    · have hlen := specDelete_length_found H hl k v mp (ha.distinct hl) hp
      rw [ha2.size, ha.size]
      omega
    · obtain ⟨g, t3, h3, _⟩ := Delete_total H hl t2 _ ha2 k
      rw [hnone] at h3
      exact ⟨g, t3, h3⟩
    · intro g t3 r2 h3
      rw [(Delete_sound H hl t2 _ ha2 k g t3 r2 h3).1, hnone]
    · obtain ⟨g, t3, h3, _⟩ := Get_total H hl t2 _ ha2 k
      rw [hnone] at h3
      exact ⟨g, t3, h3⟩
    · intro g t3 r2 h3
      rw [(Get_sound H hl t2 _ ha2 k g t3 r2 h3).1, hnone]

/-- C3 on the table after `Put(hashInt(3), 7)`, for the key 3. -/
theorem C3_Delete_returns_last_value_witness :
    Lawful hashInt ∧
    runOps hashInt 9 [Op.Put 3 7] NewHash = some (tableAfter hashInt 9 [Op.Put 3 7], [none]) ∧
    ((∃ f t2, Delete hashInt f (tableAfter hashInt 9 [Op.Put 3 7]) 3 =
        some (t2, lastPut hashInt 3 [Op.Put 3 7] none)) ∧
    ∀ f t2 r, Delete hashInt f (tableAfter hashInt 9 [Op.Put 3 7]) 3 = some (t2, r) →
      r = lastPut hashInt 3 [Op.Put 3 7] none ∧
      ∀ v, r = some v →
        t2.h.Size = (tableAfter hashInt 9 [Op.Put 3 7]).h.Size - 1 ∧
        (∃ g t3, Delete hashInt g t2 3 = some (t3, none)) ∧
        (∀ g t3 r2, Delete hashInt g t2 3 = some (t3, r2) → r2 = none) ∧
        (∃ g t3, Get hashInt g t2 3 = some (t3, none)) ∧
        ∀ g t3 r2, Get hashInt g t2 3 = some (t3, r2) → r2 = none) :=
  ⟨hashInt_lawful, by rfl,
    C3_Delete_returns_last_value hashInt hashInt_lawful 9 [Op.Put 3 7] _ [none] (by rfl) 3⟩

/-- C4: on a table reached from `NewHash()` by a sequence of calls, for a lawful key type,
`Get(k)` returns, with nil, for every key `k` that was never put or was deleted since its
last `Put`, whatever other keys, of the hash code of `k` or not, are present. -/
theorem C4_Get_absent_key_returns_nil {K V : Type} (H : Hashable K) (hl : Lawful H)
    (fuel : Nat) (ops : List (Op K V)) (t : Table K V) (rs : List (Option V))
    (hrun : runOps H fuel ops NewHash = some (t, rs)) (k : K)
    (habsent : lastPut H k ops none = none) :
    (∃ f t1, Get H f t k = some (t1, none)) ∧
    ∀ f t1 r, Get H f t k = some (t1, r) → r = none := by
  obtain ⟨mp, ha, hlk⟩ := reach_lookup H hl fuel ops t rs hrun
  have hp : lookupE H k mp = none := by rw [hlk k, habsent]
  constructor
  · obtain ⟨f, t1, h1, _⟩ := Get_total H hl t mp ha k
    rw [hp] at h1
    exact ⟨f, t1, h1⟩
  · intro f t1 r h1
    rw [(Get_sound H hl t mp ha k f t1 r h1).1, hp]

/-- C4 on the table that holds "abc" and "acb", two keys of hash code 294, for the absent
key "bac" of the same hash code. -/
theorem C4_Get_absent_key_returns_nil_witness :
    Lawful key ∧
    runOps key 9 [Op.Put "abc" 1, Op.Put "acb" 2] NewHash = some (tableTwoTied, [none, none]) ∧
    lastPut key "bac" [Op.Put "abc" 1, Op.Put "acb" 2] none = none ∧
    ((∃ f t1, Get key f tableTwoTied "bac" = some (t1, none)) ∧
    ∀ f t1 r, Get key f tableTwoTied "bac" = some (t1, r) → r = none) :=
  ⟨key_lawful, by rfl, by rfl,
    C4_Get_absent_key_returns_nil key key_lawful 9 [Op.Put "abc" 1, Op.Put "acb" 2]
      tableTwoTied [none, none] (by rfl) "bac" (by rfl)⟩

/-- C6: on a table reached from `NewHash()` by a sequence of calls, for a lawful key type,
`Size()` is the number of distinct live keys (the length of a list of pairwise different
keys that holds, up to `Equals`, exactly the keys put and not deleted since), the count
of the real entries reachable from the head sentinel, and the length of `ToMap()`; the
count and `ToMap()` return. -/
theorem C6_Size_counts_live_keys {K V : Type} [DecidableEq K] (H : Hashable K)
    (hl : Lawful H) (fuel : Nat) (ops : List (Op K V)) (t : Table K V)
    (rs : List (Option V)) (hrun : runOps H fuel ops NewHash = some (t, rs)) :
    (∃ keys : List K, keys.Pairwise (fun a b => H.Equals a b = false) ∧
      (∀ k, lastPut H k ops none ≠ none ↔ ∃ k2 ∈ keys, H.Equals k k2 = true) ∧
      t.h.Size = (keys.length : Int)) ∧
    (∃ g n, realCount g t = some n) ∧
    (∀ g n, realCount g t = some n → t.h.Size = (n : Int)) ∧
    (∃ f t1 lst, ToMap f t = some (t1, lst)) ∧
    ∀ f t1 lst, ToMap f t = some (t1, lst) →
      t.h.Size = (lst.length : Int) ∧ t1.h.Size = t.h.Size := by
  obtain ⟨mp, ha, hlk⟩ := reach_lookup H hl fuel ops t rs hrun
  obtain ⟨⟨g, hg⟩, hcount⟩ := realCount_spec H t mp ha
  obtain ⟨⟨f, t1, hf⟩, hmap⟩ := ToMap_spec H hl t mp ha
  refine ⟨⟨mp.map Prod.fst, ?_, ?_, ?_⟩, ⟨g, _, hg⟩, ?_, ⟨f, t1, _, hf⟩, ?_⟩
  · rw [List.pairwise_map]
    exact ha.distinct hl
  · intro k
    rw [← hlk k]
    constructor
    · intro hne
      cases hv : lookupE H k mp with
      | none => exact absurd hv hne
      | some v =>
        obtain ⟨X, kz, Y, h1, h2⟩ := lookupE_some H k v mp hv
        exact ⟨kz, List.mem_map.2 ⟨(kz, v), by rw [h1]; simp, rfl⟩, h2⟩
    · rintro ⟨k2, hk2, he⟩ hnone
      obtain ⟨p, hp, hpk⟩ := List.mem_map.1 hk2
      have := lookupE_none H k mp hnone p hp
      rw [hpk, he] at this
      exact absurd this (by simp)
  · rw [ha.size, List.length_map]
  · intro g2 n hn
    rw [ha.size, hcount g2 n hn]
  · intro f2 t2 lst h2
    obtain ⟨h3, h4⟩ := hmap f2 t2 lst h2
    refine ⟨?_, h4⟩
    rw [ha.size, h3, List.length_map]

/-- C6 on the table after the first three insertions of scenario S5. -/
theorem C6_Size_counts_live_keys_witness :
    Lawful hashInt ∧
    runOps hashInt 9 [Op.Put 0 1, Op.Put 1 1, Op.Put 2 1] NewHash =
      some (tableS5, [none, none, none]) ∧
    ((∃ keys : List Nat, keys.Pairwise (fun a b => hashInt.Equals a b = false) ∧
      (∀ k, lastPut hashInt k [Op.Put 0 1, Op.Put 1 1, Op.Put 2 1] none ≠ none ↔
        ∃ k2 ∈ keys, hashInt.Equals k k2 = true) ∧
      tableS5.h.Size = (keys.length : Int)) ∧
    (∃ g n, realCount g tableS5 = some n) ∧
    (∀ g n, realCount g tableS5 = some n → tableS5.h.Size = (n : Int)) ∧
    (∃ f t1 lst, ToMap f tableS5 = some (t1, lst)) ∧
    ∀ f t1 lst, ToMap f tableS5 = some (t1, lst) →
      tableS5.h.Size = (lst.length : Int) ∧ t1.h.Size = tableS5.h.Size) :=
  ⟨hashInt_lawful, by rfl,
    C6_Size_counts_live_keys hashInt hashInt_lawful 9 [Op.Put 0 1, Op.Put 1 1, Op.Put 2 1]
      tableS5 [none, none, none] (by rfl)⟩

/-- C8: on a table reached from `NewHash()` by a sequence of calls, for a lawful key type,
with exponent below 31 and `v` the value most recently put for `k` and not deleted since,
`grow()` succeeds and leaves the heap of the list untouched; it adds one to the exponent,
keeps `Size()` and every published directory slot, the bucket of `k` becomes the hash code
masked with `2 ^ (exponent + 1) - 1`, and `Get(k)` on the grown table returns, with `v`. -/
theorem C8_grow_keeps_entries {K V : Type} (H : Hashable K) (hl : Lawful H)
    (fuel : Nat) (ops : List (Op K V)) (t : Table K V) (rs : List (Option V))
    (hrun : runOps H fuel ops NewHash = some (t, rs)) (he : t.h.exponent < 31)
    (k : K) (v : V) (hpresent : lastPut H k ops none = some v) :
    ∃ h2, t.h.grow = some h2 ∧ h2.exponent = t.h.exponent + 1 ∧ h2.Size = t.h.Size ∧
      (∀ i j c, t.h.slot i j = some (some c) → h2.slot i j = some (some c)) ∧
      h2.bucketIndex (H.HashCode k % U32) =
        (H.HashCode k % U32) &&& (2 ^ (t.h.exponent + 1) - 1) ∧
      (∃ f t2, Get H f { mem := t.mem, h := h2 } k = some (t2, some v)) ∧
      ∀ f t2 r, Get H f { mem := t.mem, h := h2 } k = some (t2, r) → r = some v := by
  obtain ⟨mp, ha, hlk⟩ := reach_lookup H hl fuel ops t rs hrun
  have hp : lookupE H k mp = some v := by rw [hlk k, hpresent]
  obtain ⟨L, c0, hg, hv⟩ := ha.good_of_lookup k v hp
  have hgrow := grow_eq t.h hg.dir he
  obtain ⟨_, hexp, hsz, hext, hslots⟩ := grow_spec t.h _ hg.dir hgrow
  have hload := grown_load t.h _ hg.dir hg.lf hg.load hgrow
  have hg2 := Good_hext H hg _ hext hsz hload
  have ha2 : Abs H { mem := t.mem, h := t.h.grown } mp := by
    rw [← hv]; exact hg2.abs
  refine ⟨t.h.grown, hgrow, hexp, hsz, hslots, ?_, ?_, ?_⟩
  · rw [bucketIndex_mask _ _ (by rw [hexp]; omega), hexp]
  · obtain ⟨f, t2, h2, _⟩ := Get_total H hl _ mp ha2 k
    rw [hp] at h2
    exact ⟨f, t2, h2⟩
  · intro f t2 r h2
    rw [(Get_sound H hl _ mp ha2 k f t2 r h2).1, hp]

/-- C8 on the table after `Put(hashInt(3), 1)`, for the key 3. -/
theorem C8_grow_keeps_entries_witness :
    Lawful hashInt ∧
    runOps hashInt 9 [Op.Put 3 1] NewHash = some (tableKey3, [none]) ∧
    tableKey3.h.exponent < 31 ∧
    lastPut hashInt 3 [Op.Put 3 1] none = some 1 ∧
    ∃ h2, tableKey3.h.grow = some h2 ∧ h2.exponent = tableKey3.h.exponent + 1 ∧
      h2.Size = tableKey3.h.Size ∧
      (∀ i j c, tableKey3.h.slot i j = some (some c) → h2.slot i j = some (some c)) ∧
      h2.bucketIndex (hashInt.HashCode 3 % U32) =
        (hashInt.HashCode 3 % U32) &&& (2 ^ (tableKey3.h.exponent + 1) - 1) ∧
      (∃ f t2, Get hashInt f { mem := tableKey3.mem, h := h2 } 3 = some (t2, some 1)) ∧
      ∀ f t2 r, Get hashInt f { mem := tableKey3.mem, h := h2 } 3 = some (t2, r) →
        r = some 1 :=
  ⟨hashInt_lawful, by rfl, by decide, by rfl,
    C8_grow_keeps_entries hashInt hashInt_lawful 9 [Op.Put 3 1] tableKey3 [none] (by rfl)
      (by decide) 3 1 (by rfl)⟩

/-- C11 fails as stated: under exponent 3, `getPreviousBucketIndex` of the sentinel sort
key of bucket 1 is 6, which is neither 1 with its highest set bit cleared (0) nor an index
smaller than 1. -/
theorem C11_previous_bucket_counterexample :
    tableBucketZeroOnly.h.exponent = 3 ∧
    tableBucketZeroOnly.h.getPreviousBucketIndex (newMockEntry 1 : entry Nat Nat).hashKey = 6 ∧
    (6 : Nat) ≠ 1 - 2 ^ Nat.log 2 1 ∧ ¬ (6 < 1) := by
  refine ⟨by rfl, by rfl, ?_, by decide⟩
  rw [Nat.log_one_right]
  decide

/-- C11, amended: for every exponent `e` with `1 ≤ e ≤ 31` and every bucket index `b` with
`0 < b < 2 ^ e`, `getPreviousBucketIndex` of the sentinel sort key of `b` is the index
below `2 ^ e` whose sentinel sort key is the one of `b` minus `2 ^ (32 - e)`; it is `b`
with its highest set bit cleared, hence smaller than `b`, when that bit is bit `e - 1`. -/
theorem C11_previous_bucket_is_split_order_predecessor (self : Hash) (b : Nat)
    (he1 : 1 ≤ self.exponent) (he : self.exponent ≤ 31) (hb0 : 0 < b)
    (hb : b < 2 ^ self.exponent) :
    (newMockEntry b : entry Unit Unit).hashKey = sentinelKey b ∧
    self.getPreviousBucketIndex (sentinelKey b) < 2 ^ self.exponent ∧
    sentinelKey (self.getPreviousBucketIndex (sentinelKey b)) + 2 ^ (32 - self.exponent) =
      sentinelKey b ∧
    (2 ^ (self.exponent - 1) ≤ b →
      self.getPreviousBucketIndex (sentinelKey b) = b - 2 ^ Nat.log 2 b ∧
      self.getPreviousBucketIndex (sentinelKey b) < b) := by
  obtain ⟨hp, _, hkey⟩ := getPreviousBucketIndex_spec self b he1 he hb (by omega)
  refine ⟨rfl, hp, hkey, ?_⟩
  intro htop
  have hlog : Nat.log 2 b = self.exponent - 1 := by
    apply Nat.log_eq_of_pow_le_of_lt_pow htop
    have : self.exponent - 1 + 1 = self.exponent := by omega
    rw [this]; exact hb
  have hpos : 0 < 2 ^ (self.exponent - 1) := Nat.two_pow_pos _
  rw [hlog, prev_of_top_bit self b he1 he hb htop]
  exact ⟨rfl, by omega⟩

/-- C11, amended, under exponent 3 for bucket 5: the result is bucket 1. -/
theorem C11_previous_bucket_is_split_order_predecessor_witness :
    1 ≤ tableBucketZeroOnly.h.exponent ∧ tableBucketZeroOnly.h.exponent ≤ 31 ∧ 0 < 5 ∧
    5 < 2 ^ tableBucketZeroOnly.h.exponent ∧
    ((newMockEntry 5 : entry Unit Unit).hashKey = sentinelKey 5 ∧
    tableBucketZeroOnly.h.getPreviousBucketIndex (sentinelKey 5) <
      2 ^ tableBucketZeroOnly.h.exponent ∧
    sentinelKey (tableBucketZeroOnly.h.getPreviousBucketIndex (sentinelKey 5)) +
      2 ^ (32 - tableBucketZeroOnly.h.exponent) = sentinelKey 5 ∧
    (2 ^ (tableBucketZeroOnly.h.exponent - 1) ≤ 5 →
      tableBucketZeroOnly.h.getPreviousBucketIndex (sentinelKey 5) = 5 - 2 ^ Nat.log 2 5 ∧
      tableBucketZeroOnly.h.getPreviousBucketIndex (sentinelKey 5) < 5)) :=
  ⟨by decide, by decide, by decide, by decide,
    C11_previous_bucket_is_split_order_predecessor tableBucketZeroOnly.h 5 (by decide)
      (by decide) (by decide) (by decide)⟩

/-- C12 fails as stated: on the table with exponent 3 in which bucket 0 is the only bucket
materialised, the chain from bucket 7 is 7, 3, 5, 1, 6, 2, 4, 0, seven steps, more than the
exponent. -/
theorem C12_recursion_depth_counterexample :
    tableBucketZeroOnly.h.exponent = 3 ∧
    [1, 2, 3, 4, 5, 6, 7].map (fun b =>
      tableBucketZeroOnly.h.slot (getBucketIndices b).1 (getBucketIndices b).2) =
      List.replicate 7 (some none) ∧
    bucketChain tableBucketZeroOnly.h 8 7 = some [7, 3, 5, 1, 6, 2, 4, 0] ∧
    ¬ ([7, 3, 5, 1, 6, 2, 4, 0].length - 1 ≤ tableBucketZeroOnly.h.exponent) := by
  refine ⟨by rfl, by rfl, by rfl, ?_⟩
  have h : tableBucketZeroOnly.h.exponent = 3 := by rfl
  rw [h]
  decide

/-- C12, amended: for every exponent `e ≤ 31` and every bucket index `b < 2 ^ e`, the chain
`b`, `previous_bucket(b)`, ... reaches bucket 0 after exactly
`sentinelKey b / 2 ^ (32 - e)` steps, the rank of `b` in split order, which is at most
`2 ^ e - 1`. -/
theorem C12_chain_length_is_split_order_rank (self : Hash) (b : Nat)
    (he : self.exponent ≤ 31) (hb : b < 2 ^ self.exponent) :
    ∃ l, bucketChain self (sentinelKey b / 2 ^ (32 - self.exponent) + 1) b = some l ∧
      l.getLast? = some 0 ∧
      l.length - 1 = sentinelKey b / 2 ^ (32 - self.exponent) ∧
      l.length - 1 ≤ 2 ^ self.exponent - 1 := by
  obtain ⟨n, hn, hlt⟩ := sentinelKey_multiple self.exponent b he hb
  have hpos : 0 < 2 ^ (32 - self.exponent) := Nat.two_pow_pos _
  have hdiv : sentinelKey b / 2 ^ (32 - self.exponent) = n := by
    rw [hn, Nat.mul_div_cancel_left _ hpos]
  rw [hdiv]
  rcases Nat.eq_zero_or_pos b with hb0 | hb0
  · subst hb0
    have hn0 : n = 0 := by
      rw [sentinelKey_zero] at hn
      rcases Nat.eq_zero_or_pos n with h | h
      · exact h
      · have := Nat.mul_pos hpos h
        omega
    subst hn0
    exact ⟨[0], rfl, rfl, rfl, Nat.zero_le _⟩
  · have he1 : 1 ≤ self.exponent := by
      rcases Nat.eq_zero_or_pos self.exponent with h | h
      · rw [h] at hb; simp at hb; omega
      · exact h
    obtain ⟨l, h1, h2, h3⟩ := bucketChain_spec self he1 he n b hb hn
    exact ⟨l, h1, h3, by omega, by omega⟩

/-- C12, amended, under exponent 3 for bucket 7. -/
theorem C12_chain_length_is_split_order_rank_witness :
    tableBucketZeroOnly.h.exponent ≤ 31 ∧ 7 < 2 ^ tableBucketZeroOnly.h.exponent ∧
    ∃ l, bucketChain tableBucketZeroOnly.h
        (sentinelKey 7 / 2 ^ (32 - tableBucketZeroOnly.h.exponent) + 1) 7 = some l ∧
      l.getLast? = some 0 ∧
      l.length - 1 = sentinelKey 7 / 2 ^ (32 - tableBucketZeroOnly.h.exponent) ∧
      l.length - 1 ≤ 2 ^ tableBucketZeroOnly.h.exponent - 1 :=
  ⟨by decide, by decide,
    C12_chain_length_is_split_order_rank tableBucketZeroOnly.h 7 (by decide) (by decide)⟩

/-- C13: the sort key of the mock entry of bucket `b`, `reverse(b) &^ 1`, is strictly below
the sort key `reverse(h) | 1` of every real entry whose hash `h` has `h & (2 ^ e - 1) = b`;
`real()` is true for every real entry and false for every mock entry. -/
theorem C13_sentinel_is_left_anchor {K V : Type} (H : Hashable K) (k : K) (v : Option V)
    (e b : Nat) (hmask : (newRealEntry H k v).hashCode &&& (2 ^ e - 1) = b) :
    (newMockEntry b : entry K V).hashKey = reverse b - reverse b % 2 ∧
    (newRealEntry H k v).hashKey = reverse (newRealEntry H k v).hashCode ||| 1 ∧
    (newMockEntry b : entry K V).hashKey < (newRealEntry H k v).hashKey ∧
    (newRealEntry H k v).real = true ∧
    ∀ b2, (newMockEntry b2 : entry K V).real = false := by
  refine ⟨rfl, rfl, ?_, newRealEntry_real H k v, fun b2 => newMockEntry_real b2⟩
  rw [Nat.and_pow_two_sub_one_eq_mod] at hmask
  rw [← hmask]
  exact sentinelKey_lt_realKey _ e

/-- C13 for the key "abc" of hash code 294 under exponent 3: its bucket is 6. -/
theorem C13_sentinel_is_left_anchor_witness :
    (newRealEntry key "abc" (some 1)).hashCode &&& (2 ^ 3 - 1) = 6 ∧
    ((newMockEntry 6 : entry String Nat).hashKey = reverse 6 - reverse 6 % 2 ∧
    (newRealEntry key "abc" (some 1)).hashKey =
      reverse (newRealEntry key "abc" (some 1)).hashCode ||| 1 ∧
    (newMockEntry 6 : entry String Nat).hashKey < (newRealEntry key "abc" (some 1)).hashKey ∧
    (newRealEntry key "abc" (some 1)).real = true ∧
    ∀ b2, (newMockEntry b2 : entry String Nat).real = false) :=
  ⟨by rfl, C13_sentinel_is_left_anchor key "abc" (some 1) 3 6 (by rfl)⟩

/-- C14: `getBucketIndices(0) = (0, 0)`; for every 32-bit index `i > 0`,
`getBucketIndices(i) = (k, j)` with `k = floor(log2(i)) + 1` and `j = i - 2 ^ (k - 1)`; for
every `i`, `j < max(1, 2 ^ (k - 1))`; and `k ≤ e` whenever `i < 2 ^ e` and `e ≤ 31`. -/
theorem C14_directory_coordinates (i : Nat) (hi : i < 2 ^ 32) :
    getBucketIndices 0 = (0, 0) ∧
    (0 < i → (getBucketIndices i).1 = Nat.log 2 i + 1 ∧
      (getBucketIndices i).2 = i - 2 ^ ((getBucketIndices i).1 - 1)) ∧
    (getBucketIndices i).2 < max 1 (2 ^ ((getBucketIndices i).1 - 1)) ∧
    ∀ e, e ≤ 31 → i < 2 ^ e → (getBucketIndices i).1 ≤ e := by
  refine ⟨rfl, ?_, ?_, ?_⟩
  · intro hpos
    rw [getBucketIndices_pos i hpos, log2_eq_log i hpos hi]
    exact ⟨rfl, rfl⟩
  · rcases Nat.eq_zero_or_pos i with h0 | hpos
    · subst h0; decide
    · have s := log2_spec i hpos hi
      rw [getBucketIndices_pos i hpos]
      simp only [Nat.add_sub_cancel]
      have h2 : 2 ^ (log2 i + 1) = 2 * 2 ^ log2 i := by rw [Nat.pow_succ]; ring
      have h3 : i - 2 ^ log2 i < 2 ^ log2 i := by omega
      exact lt_of_lt_of_le h3 (le_max_right _ _)
  · intro e he hie
    exact (getBucketIndices_bound i e he hie).1

/-- C14 at index 5, whose coordinates are `(3, 1)`. -/
theorem C14_directory_coordinates_witness :
    5 < 2 ^ 32 ∧
    (getBucketIndices 0 = (0, 0) ∧
    (0 < 5 → (getBucketIndices 5).1 = Nat.log 2 5 + 1 ∧
      (getBucketIndices 5).2 = 5 - 2 ^ ((getBucketIndices 5).1 - 1)) ∧
    (getBucketIndices 5).2 < max 1 (2 ^ ((getBucketIndices 5).1 - 1)) ∧
    ∀ e, e ≤ 31 → 5 < 2 ^ e → (getBucketIndices 5).1 ≤ e) :=
  ⟨by decide, C14_directory_coordinates 5 (by decide)⟩

/-- C20: for every exponent `e` with `1 ≤ e ≤ 31` and every bucket index `b` with
`0 < b < 2 ^ e`, `p = getPreviousBucketIndex(reverse(b) &^ 1)` is below `2 ^ e`, its
sentinel sort key is strictly smaller than the one of `b`, and no bucket index below `2 ^ e`
has a sentinel sort key strictly between the two; and on every table reached from
`NewHash()` by a sequence of calls, for a lawful key type, `getBucketByIndex` returns for
every bucket index below `2 ^ exponent`. -/
theorem C20_predecessor_in_split_order {K V : Type} (H : Hashable K) (hl : Lawful H)
    (self : Hash) (b : Nat) (he1 : 1 ≤ self.exponent) (he : self.exponent ≤ 31)
    (hb0 : 0 < b) (hb : b < 2 ^ self.exponent)
    (fuel : Nat) (ops : List (Op K V)) (t : Table K V) (rs : List (Option V))
    (hrun : runOps H fuel ops NewHash = some (t, rs)) :
    (newMockEntry b : entry K V).hashKey = sentinelKey b ∧
    self.getPreviousBucketIndex (sentinelKey b) < 2 ^ self.exponent ∧
    sentinelKey (self.getPreviousBucketIndex (sentinelKey b)) < sentinelKey b ∧
    (∀ q, q < 2 ^ self.exponent →
      ¬ (sentinelKey (self.getPreviousBucketIndex (sentinelKey b)) < sentinelKey q ∧
        sentinelKey q < sentinelKey b)) ∧
    ∀ b2, b2 < 2 ^ t.h.exponent → ∃ f t2 c, getBucketByIndex f t b2 = some (t2, c) := by
  obtain ⟨hp, hlt, hkey⟩ := getPreviousBucketIndex_spec self b he1 he hb (by omega)
  refine ⟨rfl, hp, hlt, ?_, ?_⟩
  · rintro q hq ⟨h1, h2⟩
    obtain ⟨n, hn, _⟩ := sentinelKey_multiple self.exponent _ he hp
    rw [← hkey] at h2
    exact no_key_between self.exponent q _ he hq h1 h2 (by rw [hn, Nat.mul_mod_right])
  · intro b2 hb2
    obtain ⟨mp, ha, _⟩ := reach_abs H hl fuel ops t rs hrun
    obtain ⟨f, t2, c, _, _, hres, _⟩ := resolve H t mp ha b2 hb2
    exact ⟨f, t2, c, hres⟩

/-- C20 under exponent 3 for bucket 7, on the table in which bucket 0 is the only bucket
materialised. -/
theorem C20_predecessor_in_split_order_witness :
    Lawful hashInt ∧ 1 ≤ tableBucketZeroOnly.h.exponent ∧
    tableBucketZeroOnly.h.exponent ≤ 31 ∧ 0 < 7 ∧ 7 < 2 ^ tableBucketZeroOnly.h.exponent ∧
    runOps hashInt 20 [Op.Put 0 1, Op.Put 8 1, Op.Put 16 1] NewHash =
      some (tableBucketZeroOnly, [none, none, none]) ∧
    ((newMockEntry 7 : entry Nat Nat).hashKey = sentinelKey 7 ∧
    tableBucketZeroOnly.h.getPreviousBucketIndex (sentinelKey 7) <
      2 ^ tableBucketZeroOnly.h.exponent ∧
    sentinelKey (tableBucketZeroOnly.h.getPreviousBucketIndex (sentinelKey 7)) <
      sentinelKey 7 ∧
    (∀ q, q < 2 ^ tableBucketZeroOnly.h.exponent →
      ¬ (sentinelKey (tableBucketZeroOnly.h.getPreviousBucketIndex (sentinelKey 7)) <
          sentinelKey q ∧ sentinelKey q < sentinelKey 7)) ∧
    ∀ b2, b2 < 2 ^ tableBucketZeroOnly.h.exponent →
      ∃ f t2 c, getBucketByIndex f tableBucketZeroOnly b2 = some (t2, c)) :=
  ⟨hashInt_lawful, by decide, by decide, by decide, by decide, by rfl,
    C20_predecessor_in_split_order hashInt hashInt_lawful tableBucketZeroOnly.h 7 (by decide)
      (by decide) (by decide) (by decide) 20 [Op.Put 0 1, Op.Put 8 1, Op.Put 16 1]
      tableBucketZeroOnly [none, none, none] (by rfl)⟩

/-- C15: in every table reached from `NewHash()` by a sequence of calls, for a lawful key
type, the exponent is at most 31, the top-level directory has 32 slots, slot `k` is non-nil
exactly for `k ≤ exponent`, slot 0 holds an array of length 1 and slot `k ≥ 1` an array of
length `2 ^ (k - 1)`; and for every bucket index `i < 2 ^ exponent` the read of the
directory at the coordinates `getBucketIndices(i)` is in bounds. -/
theorem C15_directory_shape {K V : Type} (H : Hashable K) (hl : Lawful H) (fuel : Nat)
    (ops : List (Op K V)) (t : Table K V) (rs : List (Option V))
    (hrun : runOps H fuel ops NewHash = some (t, rs)) :
    t.h.exponent ≤ 31 ∧ t.h.buckets.length = MAX_EXPONENT ∧
    (∀ k, k < MAX_EXPONENT →
      ((∃ arr, t.h.buckets[k]? = some (some arr)) ↔ k ≤ t.h.exponent)) ∧
    (∃ arr, t.h.buckets[0]? = some (some arr) ∧ arr.length = 1) ∧
    (∀ k arr, 1 ≤ k → t.h.buckets[k]? = some (some arr) → arr.length = 2 ^ (k - 1)) ∧
    ∀ i, i < 2 ^ t.h.exponent →
      ∃ o, t.h.slot (getBucketIndices i).1 (getBucketIndices i).2 = some o := by
  obtain ⟨mp, ha, _⟩ := reach_abs H hl fuel ops t rs hrun
  have hd := ha.dir
  obtain ⟨he, hlen, hk⟩ := hd
  refine ⟨he, hlen, ?_, ?_, ?_, ?_⟩
  · intro k hk32
    constructor
    · rintro ⟨arr, harr⟩
      by_contra hc
      have := (hk k hk32).2 (by omega)
      rw [this] at harr
      simp at harr
    · intro hle
      obtain ⟨arr, harr, _⟩ := (hk k hk32).1 hle
      exact ⟨arr, harr⟩
  · obtain ⟨arr, harr, hlen0⟩ := (hk 0 (by decide)).1 (Nat.zero_le _)
    exact ⟨arr, harr, hlen0⟩
  · intro k arr hk1 harr
    have hk32 : k < 32 := by
      have := List.getElem?_eq_some.1 harr
      obtain ⟨hlt, _⟩ := this
      rw [hlen] at hlt
      exact hlt
    by_cases hle : k ≤ t.h.exponent
    · obtain ⟨arr2, harr2, hlen2⟩ := (hk k hk32).1 hle
      rw [harr2] at harr
      simp only [Option.some.injEq] at harr
      rw [← harr]
      exact hlen2
    · have := (hk k hk32).2 (by omega)
      rw [this] at harr
      simp at harr
  · intro i hi
    exact slotOf_isSome t.h ha.dir i hi

/-- C15 on the table after `Put` of the hash codes 0, 8 and 16, of exponent 3. -/
theorem C15_directory_shape_witness :
    Lawful hashInt ∧
    runOps hashInt 20 [Op.Put 0 1, Op.Put 8 1, Op.Put 16 1] NewHash =
      some (tableBucketZeroOnly, [none, none, none]) ∧
    (tableBucketZeroOnly.h.exponent ≤ 31 ∧
    tableBucketZeroOnly.h.buckets.length = MAX_EXPONENT ∧
    (∀ k, k < MAX_EXPONENT →
      ((∃ arr, tableBucketZeroOnly.h.buckets[k]? = some (some arr)) ↔
        k ≤ tableBucketZeroOnly.h.exponent)) ∧
    (∃ arr, tableBucketZeroOnly.h.buckets[0]? = some (some arr) ∧ arr.length = 1) ∧
    (∀ k arr, 1 ≤ k → tableBucketZeroOnly.h.buckets[k]? = some (some arr) →
      arr.length = 2 ^ (k - 1)) ∧
    ∀ i, i < 2 ^ tableBucketZeroOnly.h.exponent →
      ∃ o, tableBucketZeroOnly.h.slot (getBucketIndices i).1 (getBucketIndices i).2 =
        some o) :=
  ⟨hashInt_lawful, by rfl,
    C15_directory_shape hashInt hashInt_lawful 20 [Op.Put 0 1, Op.Put 8 1, Op.Put 16 1]
      tableBucketZeroOnly [none, none, none] (by rfl)⟩

/-- C16: a reachable table in which a non-nil directory slot references a sentinel of
another bucket.  After `Put` of the hash codes 0, 1 and 2 the slot at the coordinates
`(1, 0)` of bucket 1 holds the reference 2, the `next` cell of the real node of hash code 0,
through which the sentinel of bucket 2 was inserted: the node the slot references, node 4,
is the sentinel of hash code 2, while the sentinel of bucket 1, node 2, comes later in the
list. -/
theorem C16_slot_of_bucket_1_references_sentinel_of_bucket_2 :
    runOps hashInt 9 [Op.Put 0 1, Op.Put 1 1, Op.Put 2 1] NewHash =
      some (tableS5, [none, none, none]) ∧
    1 < 2 ^ tableS5.h.exponent ∧
    getBucketIndices 1 = (1, 0) ∧
    tableS5.h.slot 1 0 = some (some 2) ∧
    nodeRef.node tableS5.mem 2 = some 4 ∧
    (tableS5.mem.nodes[4]?).map (fun nd => (nd.value.real, nd.value.hashCode)) =
      some (false, 2) ∧
    (listFrom 9 tableS5).map (fun l => l.map (fun p => (p.1, p.2.real, p.2.hashCode))) =
      some [(0, false, 0), (1, true, 0), (4, false, 2), (5, true, 2), (2, false, 1),
        (3, true, 1)] := by
  refine ⟨by rfl, by decide, by rfl, by rfl, by rfl, by rfl, by rfl⟩

/-- C17: in every table reached from `NewHash()` by a sequence of `Put`, `Get` and `Delete`
calls, for a lawful key type, in which bucket 0 is materialised, the walk from the head
returns a list that is sorted by `entry.Compare`, the comparator of the entries: an entry
never compares greater than a later one, which is the non-decreasing order of the unsigned
sort keys, and `Compare` is 0 exactly on equal sort keys; its first node is the sentinel
of bucket 0, of sort key 0; and in every table reached from there by further calls that
same node is still the first node of the list. -/
theorem C17_sorted_list_with_permanent_head {K V : Type} (H : Hashable K) (hl : Lawful H)
    (fuel : Nat) (ops : List (Op K V)) (t : Table K V) (rs : List (Option V))
    (hrun : runOps H fuel ops NewHash = some (t, rs)) (c0 : Nat)
    (hmat : t.h.slot 0 0 = some (some c0)) :
    ∃ l n0, (∃ g, listFrom g t = some l) ∧ (∀ g l2, listFrom g t = some l2 → l2 = l) ∧
      l.Pairwise (fun a b => a.2.Compare b.2 ≤ 0 ∧ a.2.hashKey ≤ b.2.hashKey ∧
        (a.2.Compare b.2 = 0 ↔ a.2.hashKey = b.2.hashKey)) ∧
      l.head? = some (n0, newMockEntry 0) ∧
      (newMockEntry 0 : entry K V).hashKey = 0 ∧ (newMockEntry 0 : entry K V).real = false ∧
      ∀ f2 ops2 t2 rs2, runOps H f2 ops2 t = some (t2, rs2) →
        ∃ l2, (∃ g, listFrom g t2 = some l2) ∧ l2.head? = some (n0, newMockEntry 0) := by
  obtain ⟨mp, ha, _⟩ := reach_abs H hl fuel ops t rs hrun
  have hgood : ∃ L c, Good H t L c := by
    rcases ha with ⟨ht, _⟩ | ⟨L, c, hg, _⟩
    · subst ht
      exact absurd hmat (by simp [NewHash, Hash.slot, MAX_EXPONENT])
    · exact ⟨L, c, hg⟩
  obtain ⟨L, c, hg⟩ := hgood
  obtain ⟨l, hret, huniq, hsorted, n0, hn0, hhead⟩ := listFrom_spec H hg
  refine ⟨l, n0, hret, huniq, hsorted, hhead, rfl, newMockEntry_real 0, ?_⟩
  intro f2 ops2 t2 rs2 hrun2
  obtain ⟨mp2, ha2, _⟩ := runOps_abs H hl f2 ops2 t mp mp t2 rs2 ha (List.Perm.refl _) hrun2
  have hn2 := runOps_head H hl f2 ops2 t mp t2 rs2 ha hrun2 n0 hn0
  obtain ⟨L2, c2, hg2⟩ := ha2.good_of_head n0 hn2
  obtain ⟨l2, hret2, _, _, n2, hn2b, hhead2⟩ := listFrom_spec H hg2
  rw [hn2] at hn2b
  simp only [Option.some.injEq] at hn2b
  subst hn2b
  exact ⟨l2, hret2, hhead2⟩

/-- C17 on the table after `Put` of the hash codes 0, 1 and 2. -/
theorem C17_sorted_list_with_permanent_head_witness :
    Lawful hashInt ∧
    runOps hashInt 9 [Op.Put 0 1, Op.Put 1 1, Op.Put 2 1] NewHash =
      some (tableS5, [none, none, none]) ∧
    tableS5.h.slot 0 0 = some (some 0) ∧
    ∃ l n0, (∃ g, listFrom g tableS5 = some l) ∧
      (∀ g l2, listFrom g tableS5 = some l2 → l2 = l) ∧
      l.Pairwise (fun a b => a.2.Compare b.2 ≤ 0 ∧ a.2.hashKey ≤ b.2.hashKey ∧
        (a.2.Compare b.2 = 0 ↔ a.2.hashKey = b.2.hashKey)) ∧
      l.head? = some (n0, newMockEntry 0) ∧
      (newMockEntry 0 : entry Nat Nat).hashKey = 0 ∧
      (newMockEntry 0 : entry Nat Nat).real = false ∧
      ∀ f2 ops2 t2 rs2, runOps hashInt f2 ops2 tableS5 = some (t2, rs2) →
        ∃ l2, (∃ g, listFrom g t2 = some l2) ∧ l2.head? = some (n0, newMockEntry 0) :=
  ⟨hashInt_lawful, by rfl, by rfl,
    C17_sorted_list_with_permanent_head hashInt hashInt_lawful 9
      [Op.Put 0 1, Op.Put 1 1, Op.Put 2 1] tableS5 [none, none, none] (by rfl) 0 (by rfl)⟩

/-- C18: at exponent 31 `grow` indexes the directory out of bounds.  For every header with
the directory of `MAX_EXPONENT` = 32 slots, exponent 31, the default load factor and the
size `2 ^ 30`, which is the load threshold, the size plus one is above the threshold, the
slot `buckets[exponent + 1]` that `grow` reads does not exist, and `grow` and `addSize(1)`,
the call `Put` makes after it inserted a new key, have no result. -/
theorem C18_grow_at_exponent_31_out_of_range (self : Hash)
    (hlen : self.buckets.length = MAX_EXPONENT) (he : self.exponent = 31)
    (hlf : self.loadFactor = DEFAULT_LOAD_FACTOR) (hs : self.size = 2 ^ 30) :
    self.Size ≤ self.threshold ∧ self.threshold < self.Size + 1 ∧
    self.buckets[(self.exponent + 1) % U32]? = none ∧ self.grow = none ∧
    self.addSize 1 = none := by
  obtain ⟨h1, h2, h3⟩ := addSize_at_limit self hlen he hlf hs
  have hth : self.threshold = 2 ^ 30 := by
    unfold Hash.threshold
    simp only [hlf, he, DEFAULT_LOAD_FACTOR, U32]
    decide
  refine ⟨?_, ?_, h1, h2, h3⟩
  · unfold Hash.Size; rw [hth, hs]
  · unfold Hash.Size; rw [hth, hs]; decide

/-- C18 on the header `hashAtLimit`. -/
theorem C18_grow_at_exponent_31_out_of_range_witness :
    hashAtLimit.buckets.length = MAX_EXPONENT ∧ hashAtLimit.exponent = 31 ∧
    hashAtLimit.loadFactor = DEFAULT_LOAD_FACTOR ∧ hashAtLimit.size = 2 ^ 30 ∧
    (hashAtLimit.Size ≤ hashAtLimit.threshold ∧
    hashAtLimit.threshold < hashAtLimit.Size + 1 ∧
    hashAtLimit.buckets[(hashAtLimit.exponent + 1) % U32]? = none ∧
    hashAtLimit.grow = none ∧ hashAtLimit.addSize 1 = none) :=
  ⟨by rfl, rfl, rfl, rfl, C18_grow_at_exponent_31_out_of_range hashAtLimit (by rfl) rfl rfl rfl⟩

/-- C19: in every table reached from `NewHash()` by a sequence of calls, for a lawful key
type, the load factor is the default 0.5 and `Size() ≤ floor(0.5 * 2 ^ exponent)`; a `Put`
that returns on such a table leaves an exponent that is the one before or the next one,
and `Delete` returns for every key and leaves the exponent unchanged; the bound on
`Size()` holds again after either call. -/
theorem C19_load_invariant {K V : Type} (H : Hashable K) (hl : Lawful H) (fuel : Nat)
    (ops : List (Op K V)) (t : Table K V) (rs : List (Option V))
    (hrun : runOps H fuel ops NewHash = some (t, rs)) :
    t.h.loadFactor = DEFAULT_LOAD_FACTOR ∧
    t.h.Size ≤ ((2 ^ t.h.exponent / 2 : Nat) : Int) ∧
    (∀ f k v t2 r, Put H f t k (some v) = some (t2, r) →
      t.h.exponent ≤ t2.h.exponent ∧ t2.h.exponent ≤ t.h.exponent + 1 ∧
      t2.h.Size ≤ ((2 ^ t2.h.exponent / 2 : Nat) : Int)) ∧
    (∀ k, ∃ f t2 r, Delete H f t k = some (t2, r)) ∧
    ∀ f k t2 r, Delete H f t k = some (t2, r) →
      t2.h.exponent = t.h.exponent ∧ t2.h.Size ≤ ((2 ^ t2.h.exponent / 2 : Nat) : Int) := by
  obtain ⟨mp, ha, _⟩ := reach_abs H hl fuel ops t rs hrun
  refine ⟨ha.load.1, ha.load.2, ?_, ?_, ?_⟩
  · intro f k v t2 r hput
    obtain ⟨⟨L2, c2, hg2⟩, h1, h2, _⟩ := Put_loop_keep H hl k v f f t mp t2 r ha hput
    exact ⟨h1, h2, hg2.abs.load.2⟩
  · intro k
    obtain ⟨f, t2, hdel, _⟩ := Delete_total H hl t mp ha k
    exact ⟨f, t2, _, hdel⟩
  · intro f k t2 r hdel
    obtain ⟨⟨L2, c2, hg2⟩, h1, _⟩ := Delete_keep H hl t mp ha k f t2 r hdel
    exact ⟨h1, hg2.abs.load.2⟩

/-- C19 on the table after `Put` of the hash codes 0, 1 and 2, of size 3 and exponent 3. -/
theorem C19_load_invariant_witness :
    Lawful hashInt ∧
    runOps hashInt 9 [Op.Put 0 1, Op.Put 1 1, Op.Put 2 1] NewHash =
      some (tableS5, [none, none, none]) ∧
    (tableS5.h.loadFactor = DEFAULT_LOAD_FACTOR ∧
    tableS5.h.Size ≤ ((2 ^ tableS5.h.exponent / 2 : Nat) : Int) ∧
    (∀ f k v t2 r, Put hashInt f tableS5 k (some v) = some (t2, r) →
      tableS5.h.exponent ≤ t2.h.exponent ∧ t2.h.exponent ≤ tableS5.h.exponent + 1 ∧
      t2.h.Size ≤ ((2 ^ t2.h.exponent / 2 : Nat) : Int)) ∧
    (∀ k, ∃ f t2 r, Delete hashInt f tableS5 k = some (t2, r)) ∧
    ∀ f k t2 r, Delete hashInt f tableS5 k = some (t2, r) →
      t2.h.exponent = tableS5.h.exponent ∧
      t2.h.Size ≤ ((2 ^ t2.h.exponent / 2 : Nat) : Int)) :=
  ⟨hashInt_lawful, by rfl,
    C19_load_invariant hashInt hashInt_lawful 9 [Op.Put 0 1, Op.Put 1 1, Op.Put 2 1] tableS5
      [none, none, none] (by rfl)⟩

end Gotomic
